import Mathlib

/-! The zone draw pipeline of paint-board/pixbuf.

A shallow embedding of `data.go` and `task.go`: zones, their pixel grid, the
consumer loop `doDrawPoints`, the zone registry, and image import/export.

Conventions of the embedding.

* Go's `int` coordinates are `Int`; `uint8` channels are `Fin 256`, so a
  conversion `uint8(v)` is written as a reduction modulo 256.
* A Go slice is a `List`; the nil slice is the empty list (both have length 0
  and every index into them is out of range).
* A Go map and a Go channel may be nil, which is `none`.
* A run-time panic is an `Except.error`; a returned Go `error` is an
  `Option String` next to the updated receiver.
* Locks are not modelled: every operation is taken as one atomic step.
* The two `make` calls of `Init` whose length the caller chooses go through
  the runtime's `makeslice`: they panic beyond `maxAlloc` and die when the
  `Runtime` has no memory left. Allocations of a size the program fixes (`new`,
  the token map, the channel, `append` of one pointer) are taken to succeed,
  and so is the pixel buffer of `image.NewRGBA`, which `GenImage` asks for an
  existing grid and which is smaller than that grid.
* `int` arithmetic on an arbitrary image's rectangle (`Rectangle.Size`) is
  reduced into the 64-bit range by `wrapInt64`. Arithmetic on the size of an
  existing grid and on offsets inside an existing `Pix` is exact: those values
  are bounded by an allocation, so Go's `int` does not wrap on them.
-/

namespace Pixbuf

/-! ## Data model (`data.go`, `seed.go`, `tick.go`) -/

/-- Run-time panics of the Go runtime that the embedding distinguishes, and
the fatal error `out of memory`, on which the process dies. -/
inductive Panic where
  | indexOutOfRange
  | nilMapWrite
  | closeOfNilChannel
  | closeOfClosedChannel
  | imageDimensions
  | sliceBoundsOutOfRange
  | nilDereference
  | makesliceLenOutOfRange
  | outOfMemory
  deriving DecidableEq, Repr

/-- The value of an `int` expression whose exact result is `v`: the result
reduced modulo `2 ^ 64` into the range of the 64-bit `int`. -/
def wrapInt64 (v : Int) : Int := (v + 2 ^ 63) % 2 ^ 64 - 2 ^ 63

/-- Go's `uint8`. -/
abbrev Byte := Fin 256

/-- The type `Tick` of `tick.go`, a `uint64` counter. -/
abbrev Tick := Nat

/-- The type `Token` of `seed.go`. -/
abbrev Token := String

/-- The struct `TokenStatistic` (its lock left out). -/
structure TokenStatistic where
  NextOperationTime : Tick
  deriving DecidableEq, Repr

/-- The struct `Color`: four independent 8-bit channels. -/
structure Color where
  R : Byte
  G : Byte
  B : Byte
  A : Byte
  deriving DecidableEq, Repr

/-- The zero value `Color{}`. -/
def Color.zero : Color := ⟨0, 0, 0, 0⟩

/-- The type `Point`, an `image.Point`. -/
structure Point where
  X : Int
  Y : Int
  deriving DecidableEq, Repr

/-- Go: `func (d1 Point) Greater(d Point) bool`. -/
def Point.Greater (d1 d : Point) : Bool :=
  if d1.X > d.X ∨ d1.Y > d.Y then true else false

/-- The struct `DrawRequest` of `task.go`. -/
structure DrawRequest where
  Point : Point
  Color : Color
  Token : Token
  deriving DecidableEq, Repr

/-- The zero value `DrawRequest{}`, which a receive on a closed and drained
channel yields. -/
def DrawRequest.zero : DrawRequest := ⟨⟨0, 0⟩, Color.zero, ""⟩

/-- A buffered Go channel of draw requests: its buffer in FIFO order (head is
the oldest element), its capacity, and whether `close` was called on it. -/
structure Chan where
  buf : List DrawRequest
  cap : Nat
  closed : Bool
  deriving DecidableEq, Repr

/-- The struct `Zone` (its lock left out). -/
structure Zone where
  closed : Bool
  Size : Point
  Range : Point
  Map : List (List Color)
  Title : String
  TokenStats : Option (List (Token × TokenStatistic))
  PrivilegedToken : Token
  ReqChan : Option Chan
  Freeze : Tick
  deriving DecidableEq, Repr

/-- The value `new(Zone)` points to: every field zero. -/
def Zone.new : Zone :=
  { closed := false, Size := ⟨0, 0⟩, Range := ⟨0, 0⟩, Map := [], Title := "",
    TokenStats := none, PrivilegedToken := "", ReqChan := none, Freeze := 0 }

/-! ## Slice indexing -/

/-- The Go expression `s[i]` read: it panics unless `0 ≤ i < len(s)`. -/
def index {α : Type} (s : List α) (i : Int) : Except Panic α :=
  if 0 ≤ i then
    match s[i.toNat]? with
    | some a => .ok a
    | none => .error .indexOutOfRange
  else .error .indexOutOfRange

/-- The Go expression `m[x][y]` read. -/
def readCell (m : List (List Color)) (x y : Int) : Except Panic Color := do
  let col ← index m x
  index col y

/-- The Go statement `m[x][y] = c`: `m[x]` is indexed first, then its element
`y` is overwritten; either index may panic. -/
def assignCell (m : List (List Color)) (x y : Int) (c : Color) :
    Except Panic (List (List Color)) := do
  let col ← index m x
  let _ ← index col y
  pure (m.set x.toNat (col.set y.toNat c))

/-! ## Allocation (Go's `runtime`) -/

/-- The constant `maxAlloc` of Go's runtime, the largest size in bytes of one
allocation: `1 << 48` on the 64-bit platforms with 48 address bits, such as
linux/amd64. -/
def maxAlloc : Nat := 2 ^ 48

/-- The memory the process finds: `oom k` tells whether the allocation numbered
`k` within a call finds none left. -/
structure Runtime where
  oom : Nat → Bool

/-- A runtime that never runs out of memory. -/
def Runtime.ample : Runtime := ⟨fun _ => false⟩

/-- Go: `make([]T, n)` for an `int` `n`, the runtime's `makeslice`, as the
allocation numbered `k`: it panics with `len out of range` when `n` is negative
or `n` elements of `elemSize` bytes exceed `maxAlloc`, the process dies when no
memory is left, and otherwise the slice holds `n` zero values. -/
def Runtime.makeslice {α : Type} (rt : Runtime) (k elemSize : Nat) (zero : α) (n : Int) :
    Except Panic (List α) :=
  if n < 0 ∨ elemSize * n.toNat > maxAlloc then .error .makesliceLenOutOfRange
  else if rt.oom k then .error .outOfMemory
  else .ok (List.replicate n.toNat zero)

/-! ## Zone operations (`data.go`) -/

/-- The loop `for i := range z.Map { z.Map[i] = make([]Color, size.Y) }` of
`Init` on the grid `m`; column `i` is allocation `i + 1` of the call. A `Color`
takes 4 bytes. -/
def initColumns (rt : Runtime) (sizeY : Int) (m : List (List Color)) :
    Except Panic (List (List Color)) :=
  (List.range m.length).foldlM (fun m i => do
    let col ← rt.makeslice (i + 1) 4 Color.zero sizeY
    pure (m.set i col)) m

/-- Go: `func (z *Zone) Init(size Point) error`: the updated zone and the returned
error, or the panic of an allocation. `make([][]Color, size.X)` is allocation
0 of the call; a slice header takes 24 bytes. -/
def Zone.Init (z : Zone) (rt : Runtime) (size : Point) : Except Panic (Zone × Option String) :=
  if size.X ≤ 0 ∨ size.Y ≤ 0 then
    .ok (z, some "zone size cannot be zero")
  else do
    let m ← rt.makeslice 0 24 ([] : List Color) size.X
    let m ← initColumns rt size.Y m
    pure ({ z with
        Map := m
        Size := size
        Range := ⟨size.X - 1, size.Y - 1⟩
        closed := false
        TokenStats := some []
        ReqChan := some ⟨[], 1000, false⟩ }, none)

/-- Go: `func (z *Zone) Close()`: sets the flag, then closes the channel; `close`
panics on a nil channel and on a channel closed before. -/
def Zone.Close (z : Zone) : Except Panic Zone :=
  match z.ReqChan with
  | none => .error .closeOfNilChannel
  | some ch =>
    if ch.closed then .error .closeOfClosedChannel
    else .ok { z with closed := true, ReqChan := some { ch with closed := true } }

/-- Go: `func (z *Zone) UpdatePrivilegedToken(t Token)`. -/
def Zone.UpdatePrivilegedToken (z : Zone) (t : Token) : Zone :=
  { z with PrivilegedToken := t }

/-! ## The consumer (`task.go`) -/

/-- The body of the `case r := <-z.ReqChan` branch of `doDrawPoints`: one
received request applied to the zone. -/
def Zone.doDrawPoints_case (z : Zone) (r : DrawRequest) : Except Panic Zone :=
  if r.Point.Greater z.Range then .ok z
  else do
    let m ← assignCell z.Map r.Point.X r.Point.Y r.Color
    pure { z with Map := m }

/-- The consumer applied to a sequence of requests in FIFO order. -/
def Zone.doDrawPoints_seq (z : Zone) (reqs : List DrawRequest) : Except Panic Zone :=
  reqs.foldlM Zone.doDrawPoints_case z

/-- Where the consumer goroutine of a zone stands in `doDrawPoints`. -/
inductive Pc where
  | loopHead
  | receive
  | returned
  | panicked (p : Panic)
  deriving DecidableEq, Repr

/-- A zone together with its consumer goroutine. -/
structure ZoneTask where
  zone : Zone
  pc : Pc
  deriving DecidableEq, Repr

/-- The consumer continues at the loop head after a received request `r`. -/
def ZoneTask.afterReceive (z : Zone) (r : DrawRequest) : ZoneTask :=
  match z.doDrawPoints_case r with
  | .ok z' => ⟨z', .loopHead⟩
  | .error p => ⟨z, .panicked p⟩

/-- One step of the goroutine `doDrawPoints`; `none` when it cannot move: it
has returned or panicked, or it is blocked in the receive (the channel is nil,
or open and empty). A receive takes the oldest buffered request; on a closed
channel with an empty buffer it yields the zero `DrawRequest` at once. -/
def ZoneTask.doDrawPoints_step (t : ZoneTask) : Option ZoneTask :=
  match t.pc with
  | .loopHead =>
    if t.zone.closed = true then some { t with pc := .returned }
    else some { t with pc := .receive }
  | .receive =>
    match t.zone.ReqChan with
    | none => none
    | some ch =>
      match ch.buf with
      | r :: rest =>
        some (ZoneTask.afterReceive { t.zone with ReqChan := some { ch with buf := rest } } r)
      | [] =>
        if ch.closed then some (ZoneTask.afterReceive t.zone DrawRequest.zero)
        else none
  | .returned => none
  | .panicked _ => none

/-- The goroutine run for at most `fuel` steps, stopping where it cannot move. -/
def ZoneTask.doDrawPoints_run : Nat → ZoneTask → ZoneTask
  | 0, t => t
  | fuel + 1, t =>
    match t.doDrawPoints_step with
    | some t' => ZoneTask.doDrawPoints_run fuel t'
    | none => t

/-- The call `Close()` made while the consumer goroutine stands at `t.pc`. -/
def ZoneTask.Close (t : ZoneTask) : Except Panic ZoneTask :=
  match t.zone.Close with
  | .ok z => .ok { t with zone := z }
  | .error p => .error p

/-! ## The zone registry (`data.go`, `task.go`) -/

/-- A `*Zone`: nil, or the address of a heap cell. -/
abbrev ZonePtr := Option Nat

/-- The part of the process state the registry operations touch: the heap of
allocated zones, each with its consumer goroutine, and the package variable
`zones []*Zone`. The address of a zone is its position in the heap. -/
structure World where
  heap : List ZoneTask
  zones : List ZonePtr
  deriving DecidableEq, Repr

/-- The state `main` sets up: `zones = make([]*Zone, 0)`, nothing allocated. -/
def World.empty : World := ⟨[], []⟩

/-- Go: `func LookupZone(zoneId int) *Zone`. -/
def LookupZone (w : World) (zoneId : Int) : Except Panic ZonePtr :=
  if zoneId < w.zones.length ∨ zoneId ≥ 0 then index w.zones zoneId
  else .ok none

/-- Go: `func createZone(size Point, freezeTime Tick) (*Zone, error)`: the new
state, the returned pointer and the returned error, or the panic of an
allocation in `Init`, which leaves the registry untouched. `isDebug` is the
package flag and `generated` the value `tokenGen.Generate()` returns in this
call. The zone a failed `Init` leaves behind is unreachable and is not kept. -/
def createZone (w : World) (rt : Runtime) (isDebug : Bool) (generated : Token) (size : Point)
    (freezeTime : Tick) : Except Panic (World × ZonePtr × Option String) :=
  match Zone.new.Init rt size with
  | .error p => .error p
  | .ok (_, some err) => .ok (w, none, some err)
  | .ok (zone, none) =>
    let zone := { zone with Freeze := freezeTime }
    let p := w.heap.length
    let zones := w.zones ++ [some p]
    let t := if isDebug then "A" else generated
    let zone := zone.UpdatePrivilegedToken t
    .ok ({ heap := w.heap ++ [⟨zone, .loopHead⟩], zones := zones }, some p, none)

/-- The zone a pointer refers to. -/
def World.deref (w : World) (p : ZonePtr) : Option Zone :=
  match p with
  | none => none
  | some a => (w.heap[a]?).map (·.zone)

/-! ## Images (the parts of Go's `image` and `image/color` the zone uses) -/

/-- Go's `image.Rectangle`. -/
structure Rectangle where
  Min : Point
  Max : Point
  deriving DecidableEq, Repr

/-- Go: `func (r Rectangle) Dx() int`, on the rectangle `(0,0)-(Size.X, Size.Y)`
of an existing grid, which `GenImage` passes to `NewRGBA`: the difference is
exact there. -/
def Rectangle.Dx (r : Rectangle) : Int := r.Max.X - r.Min.X

/-- Go: `func (r Rectangle) Dy() int`, on the rectangle of an existing grid as
`Dx`. -/
def Rectangle.Dy (r : Rectangle) : Int := r.Max.Y - r.Min.Y

/-- Go: `func (r Rectangle) Size() Point`, on any rectangle: the two `int`
subtractions wrap. -/
def Rectangle.Size (r : Rectangle) : Point :=
  ⟨wrapInt64 (r.Max.X - r.Min.X), wrapInt64 (r.Max.Y - r.Min.Y)⟩

/-- Go: `func (p Point) In(r Rectangle) bool`. -/
def Point.In (p : Point) (r : Rectangle) : Bool :=
  decide (r.Min.X ≤ p.X) && decide (p.X < r.Max.X) &&
  decide (r.Min.Y ≤ p.Y) && decide (p.Y < r.Max.Y)

/-- Go's `color.RGBA`. -/
structure RGBAColor where
  R : Byte
  G : Byte
  B : Byte
  A : Byte
  deriving DecidableEq, Repr

/-- The conversion `uint8(v)` of an unsigned value. -/
def toUint8 (v : Nat) : Byte := ⟨v % 256, Nat.mod_lt v (by decide)⟩

/-- One channel of `func (c color.RGBA) RGBA()`: `r = uint32(c.R); r |= r << 8`. -/
def widen (v : Byte) : Nat := (v.val ||| ((v.val <<< 8) % 2 ^ 32)) % 2 ^ 32

/-- Go: `func (c color.RGBA) RGBA() (r, g, b, a uint32)`. -/
def RGBAColor.RGBA (c : RGBAColor) : Nat × Nat × Nat × Nat :=
  (widen c.R, widen c.G, widen c.B, widen c.A)

/-- Go: `func (c Color) RGBA() *color.RGBA`. -/
def Color.RGBA (c : Color) : RGBAColor := ⟨c.R, c.G, c.B, c.A⟩

/-- Go: `color.RGBAModel.Convert(c)` for a `c` of dynamic type `*color.RGBA`: the
type assertion `c.(RGBA)` fails on the pointer, so the colour goes through its
`RGBA()` method and each 16-bit channel is shifted back to 8 bits. -/
def rgbaModel (c : RGBAColor) : RGBAColor :=
  match c.RGBA with
  | (r, g, b, a) => ⟨toUint8 (r >>> 8), toUint8 (g >>> 8), toUint8 (b >>> 8), toUint8 (a >>> 8)⟩

/-- Go's `image.RGBA`; the capacity of `Pix` is taken to be its length. -/
structure RGBAImage where
  Pix : List Byte
  Stride : Int
  Rect : Rectangle
  deriving DecidableEq, Repr

/-- Go: `func NewRGBA(r Rectangle) *RGBA`, which `GenImage` calls on the rectangle
of an existing grid; it panics on a negative dimension. -/
def NewRGBA (r : Rectangle) : Except Panic RGBAImage :=
  if r.Dx < 0 ∨ r.Dy < 0 then .error .imageDimensions
  else .ok { Pix := List.replicate (4 * r.Dx * r.Dy).toNat 0, Stride := 4 * r.Dx, Rect := r }

/-- Go: `func (p *RGBA) PixOffset(x, y int) int`, as an exact value. Where the
four bytes at this offset lie inside `Pix`, Go's wrapping `int` arithmetic
yields the same offset (`RGBAImage.PixOffset_int64`). -/
def RGBAImage.PixOffset (p : RGBAImage) (x y : Int) : Int :=
  (y - p.Rect.Min.Y) * p.Stride + (x - p.Rect.Min.X) * 4

/-- The expression `(y-p.Rect.Min.Y)*p.Stride + (x-p.Rect.Min.X)*4` of
`PixOffset` evaluated in Go's `int`, each operation wrapping. -/
def RGBAImage.PixOffset64 (p : RGBAImage) (x y : Int) : Int :=
  wrapInt64 (wrapInt64 (wrapInt64 (y - p.Rect.Min.Y) * p.Stride) +
    wrapInt64 (wrapInt64 (x - p.Rect.Min.X) * 4))

/-- The bounds check of the slice expression `p.Pix[i : i+4 : i+4]`. -/
def RGBAImage.sliceOk (p : RGBAImage) (i : Int) : Bool :=
  decide (0 ≤ i) && decide (i + 4 ≤ p.Pix.length)

/-- Go: `func (p *RGBA) RGBAAt(x, y int) color.RGBA`, which `At` returns. -/
def RGBAImage.RGBAAt (p : RGBAImage) (x y : Int) : Except Panic RGBAColor :=
  if !(Point.In ⟨x, y⟩ p.Rect) then .ok ⟨0, 0, 0, 0⟩
  else
    let i := p.PixOffset x y
    if p.sliceOk i then
      .ok ⟨p.Pix.getD i.toNat 0, p.Pix.getD (i.toNat + 1) 0,
           p.Pix.getD (i.toNat + 2) 0, p.Pix.getD (i.toNat + 3) 0⟩
    else .error .sliceBoundsOutOfRange

/-- Go: `func (p *RGBA) Set(x, y int, c color.Color)` for a `c` of dynamic type
`*color.RGBA`. -/
def RGBAImage.Set (p : RGBAImage) (x y : Int) (c : RGBAColor) : Except Panic RGBAImage :=
  if !(Point.In ⟨x, y⟩ p.Rect) then .ok p
  else
    let i := p.PixOffset x y
    let c1 := rgbaModel c
    if p.sliceOk i then
      .ok { p with Pix := (((p.Pix.set i.toNat c1.R).set (i.toNat + 1) c1.G).set
              (i.toNat + 2) c1.B).set (i.toNat + 3) c1.A }
    else .error .sliceBoundsOutOfRange

/-- An `image.Image`: an `*image.RGBA`, the one image type whose `ColorModel()`
is `color.RGBAModel`, or an image of another colour model, of which only the
bounds matter here. -/
inductive Image where
  | rgba (p : RGBAImage)
  | other (bounds : Rectangle)
  deriving DecidableEq, Repr

/-- Whether `img.ColorModel() == color.RGBAModel`. -/
def Image.isRGBAModel : Image → Bool
  | .rgba _ => true
  | .other _ => false

/-- The method `Bounds()` of an image. -/
def Image.Bounds : Image → Rectangle
  | .rgba p => p.Rect
  | .other b => b

/-- The values a loop `for v := 0; v <= hi; v++` runs through. -/
def upTo (hi : Int) : List Int := (List.range (hi + 1).toNat).map Int.ofNat

/-- Go: `func (z *Zone) GenImage() *image.RGBA`. The zone is only read. -/
def Zone.GenImage (z : Zone) : Except Panic RGBAImage := do
  let img ← NewRGBA ⟨⟨0, 0⟩, ⟨z.Size.X, z.Size.Y⟩⟩
  (upTo z.Range.X).foldlM (fun img x =>
    (upTo z.Range.Y).foldlM (fun img y => do
      let c ← readCell z.Map x y
      img.Set x y c.RGBA) img) img

/-- The body of the inner loop of `LoadImage` on the grid `m`. -/
def loadPixel (p : RGBAImage) (m : List (List Color)) (x y : Int) :
    Except Panic (List (List Color)) := do
  let c ← p.RGBAAt x y
  match c.RGBA with
  | (r, g, b, a) =>
    if a = 0 then pure m
    else assignCell m x y ⟨toUint8 r, toUint8 g, toUint8 b, toUint8 a⟩

/-- Go: `func (z *Zone) LoadImage(img image.Image) error`: the updated zone and
the returned error. -/
def Zone.LoadImage (z : Zone) (img : Image) : Except Panic (Zone × Option String) :=
  match img with
  | .other _ => .ok (z, some "RGBA required")
  | .rgba p =>
    if p.Rect.Size.Greater z.Size then .ok (z, some "too large")
    else do
      let m ← (upTo z.Range.X).foldlM (fun m x =>
        (upTo z.Range.Y).foldlM (fun m y => loadPixel p m x y) m) z.Map
      pure ({ z with Map := m }, none)

/-! ## Well-formedness -/

/-- What `Init` establishes and every later operation keeps: positive size,
`Range = Size - (1,1)`, a grid of `Size.X` columns of `Size.Y` cells, and an
allocated token map and request channel. -/
def Zone.Initialised (z : Zone) : Prop :=
  0 < z.Size.X ∧ 0 < z.Size.Y ∧ z.Range = ⟨z.Size.X - 1, z.Size.Y - 1⟩ ∧
  z.Map.length = z.Size.X.toNat ∧ (∀ col ∈ z.Map, col.length = z.Size.Y.toNat) ∧
  z.TokenStats.isSome = true ∧ z.ReqChan.isSome = true

instance (z : Zone) : Decidable z.Initialised := by
  unfold Zone.Initialised; infer_instance

/-- The zone has not been closed: the flag is unset and the channel is open. -/
def Zone.Open (z : Zone) : Prop :=
  z.closed = false ∧ ∀ ch ∈ z.ReqChan, ch.closed = false

instance (z : Zone) : Decidable z.Open := by
  unfold Zone.Open; infer_instance

/-- The last request of the sequence whose point is `(x, y)` with
`x ≤ Range.X` and `y ≤ Range.Y`, if there is one. -/
def lastWrite (range : Point) (reqs : List DrawRequest) (x y : Int) : Option Color :=
  (reqs.reverse.find? (fun r =>
    decide (r.Point.X = x ∧ r.Point.Y = y ∧ x ≤ range.X ∧ y ≤ range.Y))).map (·.Color)

/-! ## Scenarios -/

/-- The colour `Color{255, 0, 0, 255}`. -/
def red : Color := ⟨255, 0, 0, 255⟩

/-- The colour `Color{0, 255, 0, 255}`. -/
def green : Color := ⟨0, 255, 0, 255⟩

/-- The colour `Color{0, 0, 255, 255}`. -/
def blue : Color := ⟨0, 0, 255, 255⟩

/-- The zone `Init(size)` leaves of a fresh zone when memory is ample; the
fresh zone itself when `Init` panics. -/
def Zone.fresh (size : Point) : Zone :=
  match Zone.new.Init Runtime.ample size with
  | .ok (z, _) => z
  | .error _ => Zone.new

/-- The zone of the scenario: size (2,2), freshly initialised. -/
def zone22 : Zone := Zone.fresh ⟨2, 2⟩

/-- The requests of the scenario: (0,0) red, (5,5) out of range, (1,1) green. -/
def scenarioRequests : List DrawRequest :=
  [⟨⟨0, 0⟩, red, ""⟩, ⟨⟨5, 5⟩, blue, ""⟩, ⟨⟨1, 1⟩, green, ""⟩]

/-- A request the transport decodes from `x=-1&y=0`. -/
def negativeRequest : DrawRequest := ⟨⟨-1, 0⟩, red, ""⟩

/-- A zone of size (1,1) whose only cell is red, its queue empty, and its
consumer blocked in the receive. -/
def blockedTask : ZoneTask :=
  ⟨{ Zone.fresh ⟨1, 1⟩ with Map := [[red]] }, .receive⟩

/-- The registry a call of `createZone` leaves when memory is ample; the
registry as it was when the call panics. -/
def World.afterCreateZone (w : World) (generated : Token) (size : Point) (freezeTime : Tick) :
    World :=
  match createZone w Runtime.ample false generated size freezeTime with
  | .ok (w', _, _) => w'
  | .error _ => w

/-- The registry after two calls `createZone((10,10), 5)` on the empty one. -/
def twoZones : World :=
  (World.empty.afterCreateZone "t0" ⟨10, 10⟩ 5).afterCreateZone "t1" ⟨10, 10⟩ 5

/-- A grid of `w` columns of `h` cells each. -/
def Shaped (m : List (List Color)) (w h : Nat) : Prop :=
  m.length = w ∧ ∀ col ∈ m, col.length = h

instance (m : List (List Color)) (w h : Nat) : Decidable (Shaped m w h) := by
  unfold Shaped; infer_instance

/-- An `*image.RGBA` whose every pixel inside `Rect` lies inside `Pix`, as
`NewRGBA`, `SubImage` and the decoders build it. -/
def RGBAImage.WellFormed (p : RGBAImage) : Prop :=
  ∀ x y : Int, Point.In ⟨x, y⟩ p.Rect = true → p.sliceOk (p.PixOffset x y) = true

/-- An `*image.RGBA` as `NewRGBA` lays it out: rows follow each other without
a gap and `Pix` holds exactly the pixels of `Rect`. -/
def RGBAImage.Packed (p : RGBAImage) : Prop :=
  0 ≤ p.Rect.Dx ∧ 0 ≤ p.Rect.Dy ∧ p.Stride = 4 * p.Rect.Dx ∧
  (p.Pix.length : Int) = 4 * p.Rect.Dx * p.Rect.Dy

instance (p : RGBAImage) : Decidable p.Packed := by
  unfold RGBAImage.Packed; infer_instance

/-- Well-formedness of an `image.Image`; an image of another colour model is
never read. -/
def Image.WellFormed : Image → Prop
  | .rgba p => p.WellFormed
  | .other _ => True

/-- A zone of size (2,2) painted blue all over. -/
def blueZone : Zone := { zone22 with Map := [[blue, blue], [blue, blue]] }

/-- A 2×2 `*image.RGBA`: pixel (0,0) red, (1,0) of alpha 0, (0,1) zero,
(1,1) green. -/
def scenarioImage : RGBAImage :=
  ⟨[255, 0, 0, 255, 1, 2, 3, 0, 0, 0, 0, 0, 0, 255, 0, 255], 8, ⟨⟨0, 0⟩, ⟨2, 2⟩⟩⟩

/-- A 3×1 `*image.RGBA`, wider than the (2,2) zone. -/
def wideImage : RGBAImage := ⟨List.replicate 12 0, 12, ⟨⟨0, 0⟩, ⟨3, 1⟩⟩⟩

/-- A (2,2) zone holding red, a colour of alpha 0, zero and green. -/
def paintedZone : Zone :=
  { zone22 with Map := [[red, Color.zero], [⟨1, 2, 3, 0⟩, green]] }

/-- What `LoadImage` leaves in a cell that held `old` for the image pixel `px`:
the pixel's four bytes, or `old` when the pixel's alpha is 0. -/
def loadValue (px : RGBAColor) (old : Color) : Color :=
  if px.A = 0 then old else ⟨px.R, px.G, px.B, px.A⟩

/-! ## The clock (`tick.go`) -/

/-- Go: `func Now() Tick`, the atomic load of the package variable `sysTick`,
which is passed in. -/
def Now (sysTick : Tick) : Tick := sysTick

/-- Go: `func (t Tick) Add(u Tick) Tick`, an addition of `uint64` values. -/
def Tick.Add (t u : Tick) : Tick := (t + u) % 2 ^ 64

/-- Go: `func (t Tick) Before(u Tick) bool`. -/
def Tick.Before (t u : Tick) : Bool :=
  if t < u then true else false

/-- Go: `func (t Tick) After(u Tick) bool`. -/
def Tick.After (t u : Tick) : Bool :=
  if t > u then true else false

/-- One pass of the loop of `doTick`: the timer channel has delivered and
`atomic.AddUint64(&sysTick, 1)` runs, an addition of `uint64` values. -/
def doTick_step (sysTick : Tick) : Tick := (sysTick + 1) % 2 ^ 64

/-! ## Tokens (`seed.go`, `data.go`) -/

/-- The constant `hextable` of Go's `encoding/hex`. -/
def hextable : List Char := "0123456789abcdef".toList

/-- The two characters `hex.Encode` writes for one byte: `hextable[v>>4]` and
`hextable[v&0x0f]`; both indices are below 16. -/
def hexEncodeByte (v : Byte) : List Char :=
  [hextable.getD (v.val >>> 4) '0', hextable.getD (v.val &&& 0x0f) '0']

/-- Go: `hex.EncodeToString(src)`. -/
def hexEncodeToString (src : List Byte) : String :=
  String.mk (src.flatMap hexEncodeByte)

/-- Go: `func (_ RandTokenGen) Generate() Token`. The argument `sha` is the
value of `sha1.Sum(buf)` for the random buffer, an array of 20 bytes; the token
is the encoding of `sha[0 : len(sha)-1]`. -/
def RandTokenGen.Generate (sha : List Byte) : Token :=
  hexEncodeToString (sha.take (sha.length - 1))

/-- A Go map read `m[k]` on the entries of the map; `none` when `k` is not a
key. -/
def goMapGet {κ ν : Type} [DecidableEq κ] (m : List (κ × ν)) (k : κ) : Option ν :=
  (m.find? (fun e => decide (e.1 = k))).map (·.2)

/-- The Go statement `delete(m, k)` on the entries of the map. -/
def goMapDelete {κ ν : Type} [DecidableEq κ] (m : List (κ × ν)) (k : κ) : List (κ × ν) :=
  m.filter (fun e => decide (e.1 ≠ k))

/-- The Go statement `m[k] = v` on the entries of an allocated map: an entry
under `k` is replaced. -/
def goMapSet {κ ν : Type} [DecidableEq κ] (m : List (κ × ν)) (k : κ) (v : ν) : List (κ × ν) :=
  goMapDelete m k ++ [(k, v)]

/-- The keys a `range` over the map runs through. Go leaves their order
unspecified; the model takes the order of the entries. -/
def goMapKeys {κ ν : Type} (m : List (κ × ν)) : List κ := m.map (·.1)

/-- Go: `func (stat *TokenStatistic) Init()` on a new statistic. -/
def TokenStatistic.Init (sysTick : Tick) : TokenStatistic := ⟨Now sysTick⟩

/-- Go: `func (z *Zone) AddToken(token Token)`; `sysTick` is the clock the call
reads. Writing to the nil map of a zone that was never initialised panics. -/
def Zone.AddToken (z : Zone) (sysTick : Tick) (token : Token) : Except Panic Zone :=
  match z.TokenStats with
  | none => .error .nilMapWrite
  | some m => .ok { z with TokenStats := some (goMapSet m token (TokenStatistic.Init sysTick)) }

/-- Go: `func (z *Zone) DeleteToken(token Token)`; `delete` on a nil map does
nothing. -/
def Zone.DeleteToken (z : Zone) (token : Token) : Zone :=
  { z with TokenStats := z.TokenStats.map (fun m => goMapDelete m token) }

/-- The token set of a zone: the keys of `TokenStats`. -/
def Zone.tokens (z : Zone) : List Token :=
  match z.TokenStats with
  | none => []
  | some m => goMapKeys m

/-- The (2,2) zone with the single token `a` registered. -/
def tokenZone : Zone := { zone22 with TokenStats := some [("a", ⟨0⟩)] }

/-! ## Admission control (`data.go`, `restful.go`, `ws.go`) -/

/-- The conversion `int32(v)`: the value reduced into the range of `int32`. -/
def wrapInt32 (v : Int) : Int := (v + 2 ^ 31) % 2 ^ 32 - 2 ^ 31

/-- The struct `IPStatistic` (its lock left out); `Challenges` is an `int32`. -/
structure IPStatistic where
  Challenges : Int
  deriving DecidableEq, Repr

/-- Go: `func (s *IPStatistic) Init()` on a new statistic; `maxChallenges` is
the package variable. -/
def IPStatistic.Init (maxChallenges : Int) : IPStatistic := ⟨maxChallenges⟩

/-- An `*IPStatistic`: nil, or the address of a heap cell. -/
abbrev IPStatPtr := Option Nat

/-- The part of the process state admission control touches: the heap of
allocated statistics and the package variable `ipStatistics`, which `main`
allocates before any service starts. The address of a statistic is its
position in the heap. -/
structure IPWorld where
  heap : List IPStatistic
  ipStatistics : List (String × Nat)
  deriving DecidableEq, Repr

/-- The state `main` sets up: an empty map, nothing allocated. -/
def IPWorld.empty : IPWorld := ⟨[], []⟩

/-- Every pointer stored in the map refers to an allocated statistic. -/
def IPWorld.WellFormed (w : IPWorld) : Prop :=
  ∀ e ∈ w.ipStatistics, e.2 < w.heap.length

instance (w : IPWorld) : Decidable w.WellFormed := by
  unfold IPWorld.WellFormed; infer_instance

/-- Go: `func (s *IPStatistic) GetChallenges() int32`, an atomic load through
the pointer. -/
def IPWorld.GetChallenges (w : IPWorld) (s : IPStatPtr) : Except Panic Int :=
  match s with
  | none => .error .nilDereference
  | some a =>
    match w.heap[a]? with
    | some stat => .ok stat.Challenges
    | none => .error .nilDereference

/-- Go: `func (s *IPStatistic) DecreaseChallenges()`, the atomic addition of
`-1` to an `int32` through the pointer. -/
def IPWorld.DecreaseChallenges (w : IPWorld) (s : IPStatPtr) : Except Panic IPWorld :=
  match s with
  | none => .error .nilDereference
  | some a =>
    match w.heap[a]? with
    | some stat => .ok { w with heap := w.heap.set a ⟨wrapInt32 (stat.Challenges - 1)⟩ }
    | none => .error .nilDereference

/-- Go: `func lookupIPStatistic(remoteAddr string) (*IPStatistic, bool)`. -/
def lookupIPStatistic (w : IPWorld) (remoteAddr : String) : IPStatPtr × Bool :=
  match goMapGet w.ipStatistics remoteAddr with
  | some a => (some a, true)
  | none => (none, false)

/-- Go: `func addIPStatistic(remoteAddr string) *IPStatistic`: the new state
and the returned pointer. -/
def addIPStatistic (maxChallenges : Int) (w : IPWorld) (remoteAddr : String) :
    IPWorld × IPStatPtr :=
  ({ heap := w.heap ++ [IPStatistic.Init maxChallenges],
     ipStatistics := goMapSet w.ipStatistics remoteAddr w.heap.length }, some w.heap.length)

/-- Go: `func recordIPStatistic(remoteAddr string) *IPStatistic`: the new state
and the returned pointer. -/
def recordIPStatistic (maxChallenges : Int) (w : IPWorld) (remoteAddr : String) :
    IPWorld × IPStatPtr :=
  match lookupIPStatistic w remoteAddr with
  | (stat, true) => (w, stat)
  | (_, false) => addIPStatistic maxChallenges w remoteAddr

/-- The error values of the Go program that the embedding distinguishes. -/
inductive GoError where
  | new (msg : String)
  | missingArg
  | atoiInvalid (num : String)
  | atoiRange (num : String)
  | other (msg : String)
  deriving DecidableEq, Repr

/-- Go: `strconv.Atoi(s)`: an optional sign followed by one or more decimal
digits, within the range of the 64-bit `int`. -/
def Atoi (s : String) : Except GoError Int :=
  let digits : List Char :=
    match s.toList with
    | '-' :: r => r
    | '+' :: r => r
    | cs => cs
  let negative : Bool :=
    match s.toList with
    | '-' :: _ => true
    | _ => false
  if digits = [] ∨ digits.all Char.isDigit = false then .error (.atoiInvalid s)
  else
    let n : Nat := digits.foldl (fun acc c => acc * 10 + (c.toNat - 48)) 0
    let v : Int := if negative then -(n : Int) else (n : Int)
    if v < -(2 ^ 63) ∨ v > 2 ^ 63 - 1 then .error (.atoiRange s) else .ok v

/-- The conversion `uint8(v)` of an `int`: the low eight bits. -/
def intToUint8 (v : Int) : Byte := Fin.ofNat (v % 256).toNat

/-- Go: `strings.Split(s, ":")` on the characters of `s`. -/
def splitOnColon : List Char → List (List Char)
  | [] => [[]]
  | c :: cs =>
    if c = ':' then [] :: splitOnColon cs
    else
      match splitOnColon cs with
      | [] => [[c]]
      | h :: t => (c :: h) :: t

/-- A value of the map `parseLiteralMap` returns: a `string`, an `int` or a
`uint8` behind `interface{}`. -/
inductive FormValue where
  | str (s : String)
  | int (v : Int)
  | u8 (v : Byte)
  deriving DecidableEq, Repr

/-- The loop of `parseLiteralMap` over the rest of the template, `vMap` being
the map filled so far: a panic, or the returned error, or the returned map. A
type other than `s`, `i` and `u8` stores nothing. -/
def parseLiteralMap_loop (lMap : List (String × String)) :
    List String → List (String × FormValue) →
      Except Panic (Except GoError (List (String × FormValue)))
  | [], vMap => .ok (.ok vMap)
  | t :: ts, vMap =>
    match splitOnColon t.toList with
    | name :: typ :: _ =>
      match goMapGet lMap (String.mk name) with
      | none => .ok (.error .missingArg)
      | some a =>
        if typ = "s".toList then
          parseLiteralMap_loop lMap ts (goMapSet vMap (String.mk name) (.str a))
        else if typ = "i".toList then
          match Atoi a with
          | .error err => .ok (.error err)
          | .ok val => parseLiteralMap_loop lMap ts (goMapSet vMap (String.mk name) (.int val))
        else if typ = "u8".toList then
          match Atoi a with
          | .error err => .ok (.error err)
          | .ok val =>
            parseLiteralMap_loop lMap ts
              (goMapSet vMap (String.mk name) (.u8 (intToUint8 val)))
        else parseLiteralMap_loop lMap ts vMap
    | _ => .error .indexOutOfRange

/-- Go: `func parseLiteralMap(lMap map[string]string, template ...string)`. -/
def parseLiteralMap (lMap : List (String × String)) (template : List String) :
    Except Panic (Except GoError (List (String × FormValue))) :=
  parseLiteralMap_loop lMap template []

/-- Go's `url.Values`, a `map[string][]string`. -/
abbrev Form := List (String × List String)

/-- The loop of `parseForm` over the rest of the template, `lMap` being the
map filled so far; `none` when an argument is missing. `Has` is the presence
of the key and `Get` its first value, or the empty string. -/
def parseForm_loop (form : Form) : List String → List (String × String) →
    Option (List (String × String))
  | [], lMap => some lMap
  | t :: ts, lMap =>
    let name : String := String.mk ((splitOnColon t.toList).headD [])
    match goMapGet form name with
    | none => none
    | some vs => parseForm_loop form ts (goMapSet lMap name (vs.headD ""))

/-- Go: `func parseForm(form url.Values, template ...string)`. -/
def parseForm (form : Form) (template : List String) :
    Except Panic (Except GoError (List (String × FormValue))) :=
  match parseForm_loop form template [] with
  | none => .ok (.error .missingArg)
  | some lMap => parseLiteralMap lMap template

/-- Go: `func prepare(w, r, template...)`: the new state and the result.
`remoteAddr` is the string `netip.MustParseAddrPort(r.RemoteAddr).String()`
and `parsed` the outcome of `r.ParseForm()`: its error message, or `r.Form`.
The response writer is not modelled. -/
def prepare (maxChallenges : Int) (w : IPWorld) (remoteAddr : String)
    (parsed : Except String Form) (template : List String) :
    IPWorld × Except Panic (Except GoError (List (String × FormValue))) :=
  match recordIPStatistic maxChallenges w remoteAddr with
  | (w1, stat) =>
    match w1.GetChallenges stat with
    | .error p => (w1, .error p)
    | .ok c =>
      if c > maxChallenges then (w1, .ok (.error (.new "max challenges")))
      else
        match parsed with
        | .error msg => (w1, .ok (.error (.other msg)))
        | .ok form => (w1, parseForm form template)

/-- The admission part of `serveWS`, up to its loop: the new state and whether
the connection is served. A known address whose counter is at or below zero is
turned away. -/
def serveWS_admission (maxChallenges : Int) (w : IPWorld) (remoteAddr : String) :
    IPWorld × Except Panic Bool :=
  match lookupIPStatistic w remoteAddr with
  | (_, false) => ((addIPStatistic maxChallenges w remoteAddr).1, .ok true)
  | (stat, true) =>
    match w.GetChallenges stat with
    | .error p => (w, .error p)
    | .ok c => if c ≤ 0 then (w, .ok false) else (w, .ok true)

/-- `n` calls of `DecreaseChallenges` through the pointer `s`. -/
def IPWorld.decreaseTimes (w : IPWorld) (s : IPStatPtr) : Nat → Except Panic IPWorld
  | 0 => .ok w
  | n + 1 =>
    match w.DecreaseChallenges s with
    | .ok w1 => IPWorld.decreaseTimes w1 s n
    | .error p => .error p

/-- The address of the scenario. -/
def clientAddr : String := "203.0.113.7:4711"

/-- The registry with `maxChallenges = 3` after the client of the scenario was
recorded and its counter decremented three times, to 0. -/
def exhaustedWorld : IPWorld :=
  match (recordIPStatistic 3 IPWorld.empty clientAddr) with
  | (w, s) =>
    match w.decreaseTimes s 3 with
    | .ok w1 => w1
    | .error _ => w

/-! ## Operations on an initialised zone -/

/-- The operations a zone undergoes after `Init`: the token calls, one request
applied by the consumer, image import and export rendering, and `Close`. -/
inductive ZoneOp where
  | addToken (sysTick : Tick) (token : Token)
  | deleteToken (token : Token)
  | updatePrivilegedToken (token : Token)
  | draw (r : DrawRequest)
  | loadImage (img : Image)
  | genImage
  | close
  deriving DecidableEq, Repr

/-- The zone after one operation; `GenImage` only reads the zone and
`LoadImage` leaves it as it is when it returns an error. -/
def Zone.apply (z : Zone) : ZoneOp → Except Panic Zone
  | .addToken sysTick token => z.AddToken sysTick token
  | .deleteToken token => .ok (z.DeleteToken token)
  | .updatePrivilegedToken token => .ok (z.UpdatePrivilegedToken token)
  | .draw r => z.doDrawPoints_case r
  | .loadImage img => (z.LoadImage img).map (fun res => res.1)
  | .genImage => z.GenImage.map (fun _ => z)
  | .close => z.Close

/-- The zone after a sequence of operations. -/
def Zone.applyAll (z : Zone) (ops : List ZoneOp) : Except Panic Zone :=
  ops.foldlM Zone.apply z

/-- Inputs on which an operation cannot panic on an initialised zone: a
request with non-negative coordinates, a well-formed image, a `Close` of a zone
that was not closed before. -/
def ZoneOp.Admissible (z : Zone) : ZoneOp → Prop
  | .draw r => 0 ≤ r.Point.X ∧ 0 ≤ r.Point.Y
  | .loadImage img => img.WellFormed
  | .close => ∀ ch ∈ z.ReqChan, ch.closed = false
  | _ => True

/-- A call of `AddToken` or `DeleteToken`. -/
inductive TokenOp where
  | add (sysTick : Tick) (token : Token)
  | delete (token : Token)
  deriving DecidableEq, Repr

/-- The zone after one token call. -/
def Zone.applyTokenOp (z : Zone) : TokenOp → Except Panic Zone
  | .add sysTick token => z.AddToken sysTick token
  | .delete token => .ok (z.DeleteToken token)

/-- The zone after a sequence of token calls. -/
def Zone.applyTokenOps (z : Zone) (ops : List TokenOp) : Except Panic Zone :=
  ops.foldlM Zone.applyTokenOp z

/-- Every token passed to `AddToken` at some point of the sequence. -/
def everAdded : List TokenOp → List Token
  | [] => []
  | .add _ token :: ops => token :: everAdded ops
  | .delete _ :: ops => everAdded ops

/-! ## Export (`task.go`) -/

/-- What `export` meets outside the zone. The outcome of each file-system
call: the error it returns, if any; `write n` is the outcome of the `n`-th
`fmt.Fprintln`, an error coming with the number of characters of the line that
reached the file before it. And `range keys`, the order in which the `range`
statement visits the keys of the map, which Go leaves unspecified. -/
structure ExportEnv where
  createImage : Option String
  encode : Option String
  createTokens : Option String
  write : Nat → Option (String × Nat)
  range : List Token → List Token

/-- The environment in which every file-system call succeeds and `range`
visits the keys in the order of the entries. -/
def ExportEnv.ok : ExportEnv := ⟨none, none, none, fun _ => none, fun keys => keys⟩

/-- What `export` leaves on disk: the image file, by name, with the rendering
once it is encoded, and the token listing, by name, with the characters
written to it. -/
structure Exported where
  image : Option (String × Option RGBAImage)
  tokens : Option (String × List Char)

/-- The characters `fmt.Fprintln(fileToken, t)` writes: the token, then a
newline. -/
def fprintln (t : Token) : List Char := t.toList ++ ['\n']

/-- The loop of `export` over the tokens still to write: one `Fprintln` per
token, stopping at the first error; `n` counts the calls made and `acc` holds
the characters written so far. -/
def writeTokens (env : ExportEnv) : List Token → Nat → List Char → List Char × Option String
  | [], _, acc => (acc, none)
  | t :: ts, n, acc =>
    match env.write n with
    | some (err, k) => (acc ++ (fprintln t).take k, some err)
    | none => writeTokens env ts (n + 1) (acc ++ fprintln t)

/-- Go: `func (z *Zone) export() error`: the files left and the returned
error. The tokens are ranged over in the order `env.range` gives. -/
def Zone.exportZone (z : Zone) (env : ExportEnv) : Except Panic (Exported × Option String) :=
  match env.createImage with
  | some err => .ok (⟨none, none⟩, some err)
  | none =>
    match z.GenImage with
    | .error p => .error p
    | .ok img =>
      match env.encode with
      | some err => .ok (⟨some (z.PrivilegedToken ++ ".png", none), none⟩, some err)
      | none =>
        match env.createTokens with
        | some err => .ok (⟨some (z.PrivilegedToken ++ ".png", some img), none⟩, some err)
        | none =>
          match writeTokens env (env.range z.tokens) 0 [] with
          | (content, err) =>
            .ok (⟨some (z.PrivilegedToken ++ ".png", some img),
                  some (z.PrivilegedToken ++ ".tok", content)⟩, err)

/-- The lines of a text: the runs of characters between its newlines, the run
after the last newline counting only when it is not empty. -/
def linesOf : List Char → List (List Char)
  | [] => []
  | c :: cs =>
    if c = '\n' then [] :: linesOf cs
    else
      match linesOf cs with
      | [] => [[c]]
      | l :: ls => (c :: l) :: ls

/-- The text that holds the tokens `ts` in this order, each followed by a
newline. -/
def tokenListing (ts : List Token) : List Char := ts.flatMap fprintln

/-- A run of operations on the (2,2) zone: a token call, an accepted and a
discarded request, an accepted and a refused image, a rendering, two more
token calls and `Close`. -/
def scenarioOps : List ZoneOp :=
  [.addToken 1 "a", .draw ⟨⟨0, 0⟩, red, ""⟩, .draw ⟨⟨5, 5⟩, blue, ""⟩,
   .loadImage (.rgba scenarioImage), .loadImage (.rgba wideImage), .genImage,
   .deleteToken "a", .updatePrivilegedToken "p", .close]

/-! # Theorems -/

/-! ## Slices and grids -/

theorem index_ok_iff {α : Type} (s : List α) (i : Int) (a : α) :
    index s i = .ok a ↔ 0 ≤ i ∧ s[i.toNat]? = some a := by
  unfold index
  by_cases h : 0 ≤ i
  · cases hs : s[i.toNat]? <;> simp [h]
  · simp [h]

theorem index_of_lt {α : Type} (s : List α) (i : Int) (h0 : 0 ≤ i) (h1 : i < s.length) :
    ∃ a, index s i = .ok a ∧ s[i.toNat]? = some a := by
  have hlt : i.toNat < s.length := by omega
  refine ⟨s[i.toNat], ?_, ?_⟩
  · rw [index_ok_iff]; exact ⟨h0, List.getElem?_eq_getElem hlt⟩
  · exact List.getElem?_eq_getElem hlt

theorem index_error_of_neg {α : Type} (s : List α) (i : Int) (h : i < 0) :
    index s i = .error .indexOutOfRange := by
  unfold index
  simp [not_le.mpr h]

theorem index_error_of_ge {α : Type} (s : List α) (i : Int) (h : (s.length : Int) ≤ i) :
    index s i = .error .indexOutOfRange := by
  unfold index
  have h0 : 0 ≤ i := le_trans (Int.ofNat_nonneg _) h
  have : s[i.toNat]? = none := List.getElem?_eq_none (by omega)
  simp [h0, this]

theorem readCell_ok_iff (m : List (List Color)) (x y : Int) (c : Color) :
    readCell m x y = .ok c ↔
      0 ≤ x ∧ 0 ≤ y ∧ ∃ col, m[x.toNat]? = some col ∧ col[y.toNat]? = some c := by
  unfold readCell
  cases hx : index m x with
  | error e =>
    simp only [bind, Except.bind]
    constructor
    · intro h; cases h
    · rintro ⟨h0, _, col, hc, _⟩
      have := (index_ok_iff m x col).mpr ⟨h0, hc⟩
      rw [hx] at this; cases this
  | ok col =>
    simp only [bind, Except.bind]
    obtain ⟨h0, hc⟩ := (index_ok_iff m x col).mp hx
    rw [index_ok_iff]
    constructor
    · rintro ⟨hy, hcy⟩; exact ⟨h0, hy, col, hc, hcy⟩
    · rintro ⟨_, hy, col', hc', hcy⟩
      rw [hc] at hc'; cases hc'
      exact ⟨hy, hcy⟩

theorem assignCell_ok_iff (m : List (List Color)) (x y : Int) (c : Color)
    (m' : List (List Color)) :
    assignCell m x y c = .ok m' ↔
      0 ≤ x ∧ 0 ≤ y ∧ ∃ col, m[x.toNat]? = some col ∧ y.toNat < col.length ∧
        m' = m.set x.toNat (col.set y.toNat c) := by
  unfold assignCell
  cases hx : index m x with
  | error e =>
    simp only [bind, Except.bind]
    constructor
    · intro h; cases h
    · rintro ⟨h0, _, col, hc, _⟩
      have := (index_ok_iff m x col).mpr ⟨h0, hc⟩
      rw [hx] at this; cases this
  | ok col =>
    obtain ⟨h0, hc⟩ := (index_ok_iff m x col).mp hx
    simp only [bind, Except.bind]
    cases hy : index col y with
    | error e =>
      simp only []
      constructor
      · intro h; cases h
      · rintro ⟨_, hy0, col', hc', hlt, _⟩
        rw [hc] at hc'; cases hc'
        obtain ⟨a, ha, _⟩ := index_of_lt col y hy0 (by omega)
        rw [hy] at ha; cases ha
    | ok a =>
      obtain ⟨hy0, hcy⟩ := (index_ok_iff col y a).mp hy
      have hlt : y.toNat < col.length := by
        rcases Nat.lt_or_ge y.toNat col.length with h | h
        · exact h
        · rw [List.getElem?_eq_none h] at hcy; cases hcy
      simp only [pure, Except.pure]
      constructor
      · intro h
        injection h with h
        exact ⟨h0, hy0, col, hc, hlt, h.symm⟩
      · rintro ⟨_, _, col', hc', _, rfl⟩
        rw [hc] at hc'; cases hc'
        rfl

theorem Shaped.column {m : List (List Color)} {w h : Nat} (hs : Shaped m w h) {i : Nat}
    (hi : i < w) : ∃ col, m[i]? = some col ∧ col.length = h := by
  have hlt : i < m.length := by rw [hs.1]; exact hi
  exact ⟨m[i], List.getElem?_eq_getElem hlt, hs.2 _ (List.getElem_mem hlt)⟩

theorem Shaped.cell_ok {m : List (List Color)} {w h : Nat} (hs : Shaped m w h) {x y : Int}
    (hx0 : 0 ≤ x) (hx : x < w) (hy0 : 0 ≤ y) (hy : y < h) :
    ∃ c, readCell m x y = .ok c := by
  obtain ⟨col, hc, hl⟩ := hs.column (i := x.toNat) (by omega)
  have hlt : y.toNat < col.length := by omega
  exact ⟨col[y.toNat], (readCell_ok_iff _ _ _ _).mpr
    ⟨hx0, hy0, col, hc, List.getElem?_eq_getElem hlt⟩⟩

theorem Shaped.assign_ok {m : List (List Color)} {w h : Nat} (hs : Shaped m w h)
    {x y : Int} (hx0 : 0 ≤ x) (hx : x < w) (hy0 : 0 ≤ y) (hy : y < h) (c : Color) :
    ∃ m', assignCell m x y c = .ok m' := by
  obtain ⟨col, hc, hl⟩ := hs.column (i := x.toNat) (by omega)
  exact ⟨_, (assignCell_ok_iff _ _ _ _ _).mpr ⟨hx0, hy0, col, hc, by omega, rfl⟩⟩

theorem Shaped.assign_shaped {m m' : List (List Color)} {w h : Nat} (hs : Shaped m w h)
    {x y : Int} {c : Color} (ha : assignCell m x y c = .ok m') : Shaped m' w h := by
  obtain ⟨_, _, col, hc, _, rfl⟩ := (assignCell_ok_iff _ _ _ _ _).mp ha
  refine ⟨by rw [List.length_set]; exact hs.1, ?_⟩
  intro col' hmem
  rcases List.mem_or_eq_of_mem_set hmem with h1 | h1
  · exact hs.2 _ h1
  · rw [h1, List.length_set]
    exact hs.2 _ (List.getElem?_mem hc)

/-- Reading a cell after an assignment: the assigned cell holds the new
colour, every other cell of the grid its old one. -/
theorem readCell_assignCell {m m' : List (List Color)} {x y : Int} {c : Color}
    (ha : assignCell m x y c = .ok m') (x' y' : Int) (c' : Color)
    (hr : readCell m x' y' = .ok c') :
    readCell m' x' y' = .ok (if x' = x ∧ y' = y then c else c') := by
  obtain ⟨hx0, hy0, col, hc, hlt, rfl⟩ := (assignCell_ok_iff _ _ _ _ _).mp ha
  obtain ⟨hx0', hy0', col', hc', hcy'⟩ := (readCell_ok_iff _ _ _ _).mp hr
  have hxlt : x.toNat < m.length := by
    rcases Nat.lt_or_ge x.toNat m.length with h | h
    · exact h
    · rw [List.getElem?_eq_none h] at hc; cases hc
  rw [readCell_ok_iff]
  refine ⟨hx0', hy0', ?_⟩
  by_cases hxx : x' = x
  · subst hxx
    rw [hc] at hc'; cases hc'
    refine ⟨col.set y.toNat c, by rw [List.getElem?_set_self hxlt], ?_⟩
    by_cases hyy : y' = y
    · subst hyy
      simp [List.getElem?_set_self hlt]
    · have hne : y.toNat ≠ y'.toNat := by omega
      simp [hyy, List.getElem?_set_ne hne, hcy']
  · have hne : x.toNat ≠ x'.toNat := by omega
    exact ⟨col', by rw [List.getElem?_set_ne hne]; exact hc', by simp [hxx, hcy']⟩

theorem Zone.Initialised.shaped {z : Zone} (h : z.Initialised) :
    Shaped z.Map z.Size.X.toNat z.Size.Y.toNat :=
  ⟨h.2.2.2.1, h.2.2.2.2.1⟩

/-! ## The consumer applied to requests with non-negative coordinates -/

theorem Point.greater_eq_false {p q : Point} :
    p.Greater q = false ↔ p.X ≤ q.X ∧ p.Y ≤ q.Y := by
  unfold Point.Greater
  by_cases h : p.X > q.X ∨ p.Y > q.Y
  · simp [h]; omega
  · simp [h]; omega

theorem Point.greater_eq_true {p q : Point} :
    p.Greater q = true ↔ (q.X < p.X ∨ q.Y < p.Y) := by
  unfold Point.Greater
  by_cases h : p.X > q.X ∨ p.Y > q.Y
  · simp [h]
  · simp [h]

/-- One request with non-negative coordinates applied to an initialised zone:
the step succeeds, only the grid may change, and exactly the addressed cell is
overwritten when the point is within `Range`. -/
theorem Zone.doDrawPoints_case_spec (z : Zone) (hz : z.Initialised) (r : DrawRequest)
    (hnn : 0 ≤ r.Point.X ∧ 0 ≤ r.Point.Y) :
    ∃ z', z.doDrawPoints_case r = .ok z' ∧ z'.Initialised ∧ z' = { z with Map := z'.Map } ∧
      ∀ x y c0, readCell z.Map x y = .ok c0 →
        readCell z'.Map x y = .ok (if r.Point.X = x ∧ r.Point.Y = y ∧ x ≤ z.Range.X ∧
          y ≤ z.Range.Y then r.Color else c0) := by
  have hs := hz.shaped
  obtain ⟨hX, hY, hR, hrest⟩ := hz
  unfold Zone.doDrawPoints_case
  cases hg : r.Point.Greater z.Range
  · obtain ⟨h1, h2⟩ := Point.greater_eq_false.mp hg
    rw [hR] at h1 h2
    simp only at h1 h2
    obtain ⟨m', hm'⟩ := hs.assign_ok (x := r.Point.X) (y := r.Point.Y) hnn.1 (by omega)
      hnn.2 (by omega) r.Color
    have hs' := hs.assign_shaped hm'
    refine ⟨{ z with Map := m' }, ?_, ⟨hX, hY, hR, hs'.1, hs'.2, hrest.2.2⟩, rfl, ?_⟩
    · simp [hm', bind, Except.bind, pure, Except.pure]
    · intro x y c0 hc0
      rw [readCell_assignCell hm' x y c0 hc0]
      congr 1
      by_cases hxy : x = r.Point.X ∧ y = r.Point.Y
      · obtain ⟨rfl, rfl⟩ := hxy
        have : r.Point.X ≤ z.Range.X ∧ r.Point.Y ≤ z.Range.Y := by
          rw [hR]; simp only; omega
        simp [this]
      · have : ¬ (r.Point.X = x ∧ r.Point.Y = y ∧ x ≤ z.Range.X ∧ y ≤ z.Range.Y) := by
          rintro ⟨rfl, rfl, _⟩; exact hxy ⟨rfl, rfl⟩
        simp [hxy, this]
  · refine ⟨z, by simp, ⟨hX, hY, hR, hrest⟩, rfl, ?_⟩
    intro x y c0 hc0
    have hgt := Point.greater_eq_true.mp hg
    have : ¬ (r.Point.X = x ∧ r.Point.Y = y ∧ x ≤ z.Range.X ∧ y ≤ z.Range.Y) := by
      rintro ⟨rfl, rfl, h1, h2⟩; omega
    rw [hc0]; simp [this]

theorem lastWrite_cons (range : Point) (r : DrawRequest) (rs : List DrawRequest) (x y : Int)
    (c0 : Color) :
    (lastWrite range (r :: rs) x y).getD c0 =
      (lastWrite range rs x y).getD
        (if r.Point.X = x ∧ r.Point.Y = y ∧ x ≤ range.X ∧ y ≤ range.Y then r.Color else c0) := by
  unfold lastWrite
  rw [List.reverse_cons, List.find?_append]
  cases hf : List.find? (fun r =>
      decide (r.Point.X = x ∧ r.Point.Y = y ∧ x ≤ range.X ∧ y ≤ range.Y)) rs.reverse with
  | some a => simp
  | none =>
    by_cases hp : r.Point.X = x ∧ r.Point.Y = y ∧ x ≤ range.X ∧ y ≤ range.Y
    · simp [List.find?_cons, hp]
    · simp [List.find?_cons, hp]

/-- The consumer applied to a sequence of requests with non-negative
coordinates: it never panics, changes only the grid, and leaves in every cell
the colour of the last request that addressed it within `Range`. -/
theorem Zone.doDrawPoints_seq_spec (reqs : List DrawRequest) :
    ∀ z : Zone, z.Initialised → (∀ r ∈ reqs, 0 ≤ r.Point.X ∧ 0 ≤ r.Point.Y) →
    ∃ z', z.doDrawPoints_seq reqs = .ok z' ∧ z'.Initialised ∧ z' = { z with Map := z'.Map } ∧
      ∀ x y c0, readCell z.Map x y = .ok c0 →
        readCell z'.Map x y = .ok ((lastWrite z.Range reqs x y).getD c0) := by
  induction reqs with
  | nil =>
    intro z hz _
    exact ⟨z, rfl, hz, rfl, fun x y c0 h => by simpa [lastWrite] using h⟩
  | cons r rs ih =>
    intro z hz hnn
    obtain ⟨z1, h1, hz1, he1, hc1⟩ := z.doDrawPoints_case_spec hz r (hnn r (List.mem_cons_self _ _))
    obtain ⟨z2, h2, hz2, he2, hc2⟩ := ih z1 hz1 (fun q hq => hnn q (List.mem_cons_of_mem _ hq))
    have hR : z1.Range = z.Range := by rw [he1]
    refine ⟨z2, ?_, hz2, ?_, ?_⟩
    · unfold Zone.doDrawPoints_seq at h2 ⊢
      rw [List.foldlM_cons, h1]
      exact h2
    · rw [he2, he1]
    · intro x y c0 hc0
      rw [hc2 x y _ (hc1 x y c0 hc0), hR, lastWrite_cons]

/-! ## The consumer goroutine -/

theorem Zone.doDrawPoints_case_eq {z z' : Zone} {r : DrawRequest} (h : z.doDrawPoints_case r = .ok z') :
    z' = { z with Map := z'.Map } := by
  unfold Zone.doDrawPoints_case at h
  split at h
  · cases h; rfl
  · cases ha : assignCell z.Map r.Point.X r.Point.Y r.Color with
    | error e => rw [ha] at h; cases h
    | ok m => rw [ha] at h; cases h; rfl

theorem Zone.doDrawPoints_case_chan (z : Zone) (c : Option Chan) (r : DrawRequest) :
    ({ z with ReqChan := c } : Zone).doDrawPoints_case r =
      (z.doDrawPoints_case r).map (fun z' => { z' with ReqChan := c }) := by
  unfold Zone.doDrawPoints_case
  simp only
  split
  · rfl
  · cases assignCell z.Map r.Point.X r.Point.Y r.Color <;> rfl

theorem ZoneTask.doDrawPoints_step_loopHead_open (z : Zone) (h : z.closed = false) :
    ZoneTask.doDrawPoints_step ⟨z, .loopHead⟩ = some ⟨z, .receive⟩ := by
  simp [ZoneTask.doDrawPoints_step, h]

theorem ZoneTask.doDrawPoints_step_receive_cons (z : Zone) (ch : Chan) (r : DrawRequest)
    (rs : List DrawRequest) :
    ZoneTask.doDrawPoints_step ⟨{ z with ReqChan := some { ch with buf := r :: rs } }, .receive⟩ =
      some (ZoneTask.afterReceive { z with ReqChan := some { ch with buf := rs } } r) := rfl

theorem ZoneTask.afterReceive_ok {z z1 : Zone} {r : DrawRequest} (c : Option Chan)
    (h : z.doDrawPoints_case r = .ok z1) :
    ZoneTask.afterReceive { z with ReqChan := c } r = ⟨{ z1 with ReqChan := c }, .loopHead⟩ := by
  unfold ZoneTask.afterReceive
  rw [Zone.doDrawPoints_case_chan, h]
  rfl

theorem ZoneTask.run_succ {t t' : ZoneTask} (n : Nat) (h : t.doDrawPoints_step = some t') :
    ZoneTask.doDrawPoints_run (n + 1) t = ZoneTask.doDrawPoints_run n t' := by
  simp [ZoneTask.doDrawPoints_run, h]

/-- A consumer at the loop head of an open zone whose channel buffers `reqs`
takes two steps per request and ends at the loop head with an empty buffer and
the zone `doDrawPoints_seq` computes. -/
theorem ZoneTask.run_drain (reqs : List DrawRequest) :
    ∀ (z z' : Zone) (ch : Chan), z.closed = false → z.doDrawPoints_seq reqs = .ok z' →
      ZoneTask.doDrawPoints_run (2 * reqs.length)
          ⟨{ z with ReqChan := some { ch with buf := reqs } }, .loopHead⟩ =
        ⟨{ z' with ReqChan := some { ch with buf := [] } }, .loopHead⟩ := by
  induction reqs with
  | nil =>
    intro z z' ch _ h
    cases h
    rfl
  | cons r rs ih =>
    intro z z' ch hc h
    unfold Zone.doDrawPoints_seq at h
    rw [List.foldlM_cons] at h
    cases h1 : z.doDrawPoints_case r with
    | error e => rw [h1] at h; cases h
    | ok z1 =>
      rw [h1] at h
      have he := Zone.doDrawPoints_case_eq h1
      have hc1 : z1.closed = false := by rw [he]; exact hc
      have hlen : 2 * (r :: rs).length = 2 * rs.length + 1 + 1 := by
        simp [List.length_cons]; omega
      rw [hlen, ZoneTask.run_succ _ (ZoneTask.doDrawPoints_step_loopHead_open
          { z with ReqChan := some { ch with buf := r :: rs } } hc),
        ZoneTask.run_succ _ (ZoneTask.doDrawPoints_step_receive_cons z ch r rs),
        ZoneTask.afterReceive_ok _ h1]
      exact ih z1 z' ch hc1 h

/-- The call `Close()` while the consumer stands at the loop head of an open
zone: the consumer returns in its next step and the grid is as it was, whatever
the queue holds. -/
theorem ZoneTask.close_at_loopHead (z : Zone) (ch : Chan) (hch : z.ReqChan = some ch)
    (hopen : ch.closed = false) :
    ∃ t, ZoneTask.Close ⟨z, .loopHead⟩ = .ok t ∧ t.zone.Map = z.Map ∧
      (ZoneTask.doDrawPoints_run 1 t).pc = .returned ∧
      (ZoneTask.doDrawPoints_run 1 t).zone.Map = z.Map := by
  refine ⟨⟨{ z with closed := true, ReqChan := some { ch with closed := true } }, .loopHead⟩,
    ?_, rfl, rfl, rfl⟩
  simp [ZoneTask.Close, Zone.Close, hch, hopen]

/-- The call `Close()` while the consumer is blocked in the receive on the
empty queue of an initialised open zone: the receive yields the zero request,
the consumer assigns the zero colour to cell (0,0) and returns in its second
step. -/
theorem ZoneTask.close_at_blocked_receive (z : Zone) (hz : z.Initialised) (ch : Chan)
    (hch : z.ReqChan = some ch) (hempty : ch.buf = []) (hopen : ch.closed = false) :
    ZoneTask.doDrawPoints_step ⟨z, .receive⟩ = none ∧
    ∃ t m, ZoneTask.Close ⟨z, .receive⟩ = .ok t ∧ t.zone.Map = z.Map ∧
      assignCell z.Map 0 0 Color.zero = .ok m ∧
      (ZoneTask.doDrawPoints_run 2 t).pc = .returned ∧
      (ZoneTask.doDrawPoints_run 2 t).zone.Map = m ∧
      readCell m 0 0 = .ok Color.zero := by
  have hs := hz.shaped
  obtain ⟨hX, hY, hR, _⟩ := hz
  obtain ⟨m, hm⟩ := hs.assign_ok (x := 0) (y := 0) (le_refl 0) (by omega) (le_refl 0)
    (by omega) Color.zero
  obtain ⟨c0, hc0⟩ := hs.cell_ok (x := 0) (y := 0) (le_refl 0) (by omega) (le_refl 0)
    (by omega)
  have hg : DrawRequest.zero.Point.Greater z.Range = false := by
    rw [Point.greater_eq_false, hR]
    simp only [DrawRequest.zero]
    omega
  have hcase : ∀ w : Zone, w.Range = z.Range → w.Map = z.Map →
      w.doDrawPoints_case DrawRequest.zero = .ok { w with Map := m } := by
    intro w hwr hwm
    unfold Zone.doDrawPoints_case
    rw [hwr, hg, hwm]
    simp only [Bool.false_eq_true, if_false, DrawRequest.zero, hm, bind, Except.bind, pure,
      Except.pure]
  cases ch with
  | mk buf cap cl =>
    simp only at hempty hopen
    subst hempty
    subst hopen
    have hafter : ZoneTask.afterReceive
        { z with closed := true, ReqChan := some ⟨[], cap, true⟩ } DrawRequest.zero =
        ⟨{ z with closed := true, ReqChan := some ⟨[], cap, true⟩, Map := m }, .loopHead⟩ := by
      unfold ZoneTask.afterReceive
      rw [hcase { z with closed := true, ReqChan := some ⟨[], cap, true⟩ } rfl rfl]
    have hrun : ZoneTask.doDrawPoints_run 2
        ⟨{ z with closed := true, ReqChan := some ⟨[], cap, true⟩ }, .receive⟩ =
        ⟨{ z with closed := true, ReqChan := some ⟨[], cap, true⟩, Map := m }, .returned⟩ := by
      have hstep : ZoneTask.doDrawPoints_step
          ⟨{ z with closed := true, ReqChan := some ⟨[], cap, true⟩ }, .receive⟩ =
          some (ZoneTask.afterReceive
            { z with closed := true, ReqChan := some ⟨[], cap, true⟩ } DrawRequest.zero) := rfl
      rw [ZoneTask.run_succ 1 hstep, hafter]
      rfl
    refine ⟨by simp [ZoneTask.doDrawPoints_step, hch],
      ⟨{ z with closed := true, ReqChan := some ⟨[], cap, true⟩ }, .receive⟩, m,
      by simp [ZoneTask.Close, Zone.Close, hch], rfl, hm, by rw [hrun], by rw [hrun], ?_⟩
    have := readCell_assignCell hm 0 0 c0 hc0
    simpa using this

/-! ## Loops -/

theorem mem_upTo (hi v : Int) : v ∈ upTo hi ↔ 0 ≤ v ∧ v ≤ hi := by
  unfold upTo
  simp only [List.mem_map, List.mem_range]
  constructor
  · rintro ⟨n, hn, rfl⟩
    have : (0 : Int) ≤ Int.ofNat n := Int.ofNat_nonneg n
    have h2 : Int.ofNat n = (n : Int) := rfl
    omega
  · rintro ⟨h0, h1⟩
    refine ⟨v.toNat, by omega, ?_⟩
    have h2 : Int.ofNat v.toNat = (v.toNat : Int) := rfl
    omega

theorem nodup_upTo (hi : Int) : (upTo hi).Nodup := by
  unfold upTo
  exact (List.nodup_range _).map (fun a b h => Int.ofNat.inj h)

/-- A loop over `ks` whose step for the key `k` rewrites the cells `touch k`
by `F` and leaves the others alone, the keys touching disjoint cells: the loop
succeeds, keeps the invariant, and has rewritten by `F` exactly the cells some
key touches. -/
theorem foldlM_touch {σ κ ι β : Type} (step : σ → κ → Except Panic σ) (Inv : σ → Prop)
    (view : σ → ι → β) (touch : κ → ι → Prop) (F : ι → β → β) :
    ∀ ks : List κ, ks.Pairwise (fun k k' => ∀ i, touch k i → ¬ touch k' i) →
      (∀ s k, k ∈ ks → Inv s → ∃ s', step s k = .ok s' ∧ Inv s' ∧
        ∀ i, (touch k i → view s' i = F i (view s i)) ∧ (¬ touch k i → view s' i = view s i)) →
      ∀ s, Inv s → ∃ s', ks.foldlM step s = .ok s' ∧ Inv s' ∧
        ∀ i, ((∃ k ∈ ks, touch k i) → view s' i = F i (view s i)) ∧
          ((¬ ∃ k ∈ ks, touch k i) → view s' i = view s i) := by
  intro ks
  induction ks with
  | nil =>
    intro _ _ s hs
    refine ⟨s, rfl, hs, fun i => ⟨?_, fun _ => rfl⟩⟩
    rintro ⟨k, hk, _⟩
    cases hk
  | cons k ks ih =>
    intro hpw hstep s hs
    obtain ⟨hk, hpw'⟩ := List.pairwise_cons.mp hpw
    obtain ⟨s1, h1, hs1, hv1⟩ := hstep s k (List.mem_cons_self _ _) hs
    obtain ⟨s2, h2, hs2, hv2⟩ :=
      ih hpw' (fun s k' hk' => hstep s k' (List.mem_cons_of_mem _ hk')) s1 hs1
    refine ⟨s2, ?_, hs2, ?_⟩
    · rw [List.foldlM_cons, h1]; exact h2
    · intro i
      constructor
      · rintro ⟨k', hk', ht⟩
        rcases List.mem_cons.mp hk' with rfl | hmem
        · have hno : ¬ ∃ k'' ∈ ks, touch k'' i := by
            rintro ⟨k'', hk'', ht''⟩
            exact hk k'' hk'' i ht ht''
          rw [(hv2 i).2 hno, (hv1 i).1 ht]
        · have hnk : ¬ touch k i := fun htk => hk k' hmem i htk ht
          rw [(hv2 i).1 ⟨k', hmem, ht⟩, (hv1 i).2 hnk]
      · intro hno
        have hnk : ¬ touch k i := fun htk => hno ⟨k, List.mem_cons_self _ _, htk⟩
        have hno' : ¬ ∃ k'' ∈ ks, touch k'' i := by
          rintro ⟨k'', hk'', ht''⟩
          exact hno ⟨k'', List.mem_cons_of_mem _ hk'', ht''⟩
        rw [(hv2 i).2 hno', (hv1 i).2 hnk]

/-- The two nested loops `for x { for y { body } }` of `GenImage` and
`LoadImage`, for a body that rewrites cell `(x, y)` by `F` and no other. -/
theorem nested_loops {σ β : Type} (body : σ → Int → Int → Except Panic σ) (Inv : σ → Prop)
    (view : σ → Int × Int → β) (F : Int × Int → β → β) (hx hy : Int)
    (hbody : ∀ s x y, 0 ≤ x → x ≤ hx → 0 ≤ y → y ≤ hy → Inv s →
      ∃ s', body s x y = .ok s' ∧ Inv s' ∧
        ∀ i, (i = (x, y) → view s' i = F i (view s i)) ∧ (i ≠ (x, y) → view s' i = view s i))
    (s : σ) (hs : Inv s) :
    ∃ s', (upTo hx).foldlM (fun s x => (upTo hy).foldlM (fun s y => body s x y) s) s = .ok s' ∧
      Inv s' ∧
      ∀ i : Int × Int, ((0 ≤ i.1 ∧ i.1 ≤ hx ∧ 0 ≤ i.2 ∧ i.2 ≤ hy) → view s' i = F i (view s i)) ∧
        (¬ (0 ≤ i.1 ∧ i.1 ≤ hx ∧ 0 ≤ i.2 ∧ i.2 ≤ hy) → view s' i = view s i) := by
  have inner : ∀ s x, x ∈ upTo hx → Inv s →
      ∃ s', (upTo hy).foldlM (fun s y => body s x y) s = .ok s' ∧ Inv s' ∧
        ∀ i : Int × Int, ((i.1 = x ∧ i.2 ∈ upTo hy) → view s' i = F i (view s i)) ∧
          (¬ (i.1 = x ∧ i.2 ∈ upTo hy) → view s' i = view s i) := by
    intro s x hxm hs
    obtain ⟨hx0, hx1⟩ := (mem_upTo hx x).mp hxm
    obtain ⟨s', h, hs', hv⟩ := foldlM_touch (fun s y => body s x y) Inv view
      (fun y i => i = (x, y)) F (upTo hy)
      ((nodup_upTo hy).imp (by
        intro a b hab i hia hib
        rw [hia] at hib
        exact hab (Prod.mk.inj hib).2))
      (fun s y hym hs => by
        obtain ⟨hy0, hy1⟩ := (mem_upTo hy y).mp hym
        exact hbody s x y hx0 hx1 hy0 hy1 hs) s hs
    refine ⟨s', h, hs', fun i => ⟨fun ⟨hi1, hi2⟩ => (hv i).1 ⟨i.2, hi2, ?_⟩,
      fun hn => (hv i).2 ?_⟩⟩
    · rw [← hi1]
    · rintro ⟨y, hym, hiy⟩
      exact hn ⟨by rw [hiy], by rw [hiy]; exact hym⟩
  obtain ⟨s', h, hs', hv⟩ := foldlM_touch
    (fun s x => (upTo hy).foldlM (fun s y => body s x y) s) Inv view
    (fun x i => i.1 = x ∧ i.2 ∈ upTo hy) F (upTo hx)
    ((nodup_upTo hx).imp (by
      intro a b hab i hia hib
      exact hab (hia.1.symm.trans hib.1)))
    inner s hs
  refine ⟨s', h, hs', fun i => ⟨fun ⟨h1, h2, h3, h4⟩ => (hv i).1
    ⟨i.1, (mem_upTo hx i.1).mpr ⟨h1, h2⟩, rfl, (mem_upTo hy i.2).mpr ⟨h3, h4⟩⟩,
    fun hn => (hv i).2 ?_⟩⟩
  rintro ⟨x, hxm, hix, hiy⟩
  obtain ⟨h1, h2⟩ := (mem_upTo hx x).mp hxm
  obtain ⟨h3, h4⟩ := (mem_upTo hy i.2).mp hiy
  exact hn ⟨by omega, by omega, h3, h4⟩

/-! ## Colour conversions -/

set_option maxRecDepth 100000 in
theorem toUint8_widen : ∀ v : Byte, toUint8 (widen v) = v := by decide

set_option maxRecDepth 100000 in
theorem toUint8_widen_shift : ∀ v : Byte, toUint8 (widen v >>> 8) = v := by decide

set_option maxRecDepth 100000 in
theorem widen_eq_zero : ∀ v : Byte, widen v = 0 ↔ v = 0 := by decide

theorem rgbaModel_eq (c : RGBAColor) : rgbaModel c = c := by
  cases c
  simp [rgbaModel, RGBAColor.RGBA, toUint8_widen_shift]

/-! ## `LoadImage` -/

theorem Shaped.cell_error {m : List (List Color)} {w h : Nat} (hs : Shaped m w h)
    {x y : Int} (hout : ¬ (0 ≤ x ∧ x < w ∧ 0 ≤ y ∧ y < h)) :
    readCell m x y = .error .indexOutOfRange := by
  unfold readCell
  by_cases hx0 : 0 ≤ x
  · by_cases hx : x < w
    · obtain ⟨col, hc, hl⟩ := hs.column (i := x.toNat) (by omega)
      have hi : index m x = .ok col := (index_ok_iff _ _ _).mpr ⟨hx0, hc⟩
      rw [hi]
      simp only [bind, Except.bind]
      by_cases hy0 : 0 ≤ y
      · exact index_error_of_ge _ _ (by omega)
      · exact index_error_of_neg _ _ (by omega)
    · rw [index_error_of_ge _ _ (by rw [hs.1]; omega)]
      rfl
  · rw [index_error_of_neg _ _ (by omega)]
    rfl

theorem RGBAImage.WellFormed.RGBAAt_ok {p : RGBAImage} (hwf : p.WellFormed) (x y : Int) :
    ∃ px, p.RGBAAt x y = .ok px ∧ (Point.In ⟨x, y⟩ p.Rect = false → px = ⟨0, 0, 0, 0⟩) := by
  unfold RGBAImage.RGBAAt
  cases hin : Point.In ⟨x, y⟩ p.Rect
  · exact ⟨_, rfl, fun _ => rfl⟩
  · have := hwf x y hin
    simp only [Bool.not_true, Bool.false_eq_true, if_false, this, if_true]
    exact ⟨_, rfl, fun h => by cases h⟩

/-- The body of the inner loop of `LoadImage` at a cell of the grid: it
succeeds and rewrites that cell by `loadValue`, no other. -/
theorem loadPixel_spec {m : List (List Color)} {w h : Nat} (hs : Shaped m w h)
    {p : RGBAImage} (hwf : p.WellFormed) {x y : Int}
    (hx0 : 0 ≤ x) (hx : x < w) (hy0 : 0 ≤ y) (hy : y < h) :
    ∃ m' px, p.RGBAAt x y = .ok px ∧ loadPixel p m x y = .ok m' ∧ Shaped m' w h ∧
      ∀ x' y' c', readCell m x' y' = .ok c' →
        readCell m' x' y' = .ok (if x' = x ∧ y' = y then loadValue px c' else c') := by
  obtain ⟨px, hpx, _⟩ := hwf.RGBAAt_ok x y
  unfold loadPixel
  rw [hpx]
  simp only [bind, Except.bind, RGBAColor.RGBA, toUint8_widen]
  by_cases hA : px.A = 0
  · have hw : widen px.A = 0 := (widen_eq_zero _).mpr hA
    refine ⟨m, px, rfl, by simp [hw, pure, Except.pure], hs, ?_⟩
    intro x' y' c' hc'
    rw [hc']
    simp [loadValue, hA]
  · have hw : ¬ widen px.A = 0 := fun h => hA ((widen_eq_zero _).mp h)
    obtain ⟨m', hm'⟩ := hs.assign_ok hx0 hx hy0 hy ⟨px.R, px.G, px.B, px.A⟩
    refine ⟨m', px, rfl, by simp [hw, hm'], hs.assign_shaped hm', ?_⟩
    intro x' y' c' hc'
    rw [readCell_assignCell hm' x' y' c' hc']
    simp [loadValue, hA]

/-- The method `LoadImage` on an initialised zone and a well-formed `*image.RGBA` that is
not larger than the zone: it returns nil, changes only the grid, keeps its
shape, and rewrites every cell by `loadValue` of the image's pixel there. -/
theorem Zone.LoadImage_spec (z : Zone) (hz : z.Initialised) (p : RGBAImage)
    (hwf : p.WellFormed) (hfit : p.Rect.Size.Greater z.Size = false) :
    ∃ m', z.LoadImage (.rgba p) = .ok ({ z with Map := m' }, none) ∧
      Shaped m' z.Size.X.toNat z.Size.Y.toNat ∧
      ∀ x y, 0 ≤ x → x < z.Size.X → 0 ≤ y → y < z.Size.Y →
        ∃ c0 px, readCell z.Map x y = .ok c0 ∧ p.RGBAAt x y = .ok px ∧
          (Point.In ⟨x, y⟩ p.Rect = false → px = ⟨0, 0, 0, 0⟩) ∧
          readCell m' x y = .ok (loadValue px c0) := by
  have hs := hz.shaped
  obtain ⟨hX, hY, hR, _⟩ := hz
  obtain ⟨m', hm', hs', hv⟩ := nested_loops (fun m x y => loadPixel p m x y)
    (fun m => Shaped m z.Size.X.toNat z.Size.Y.toNat)
    (fun m i => readCell m i.1 i.2)
    (fun i old => match p.RGBAAt i.1 i.2, old with
      | .ok px, .ok c => .ok (loadValue px c)
      | _, o => o)
    z.Range.X z.Range.Y
    (by
      intro m x y hx0 hx1 hy0 hy1 hm
      rw [hR] at hx1 hy1
      simp only at hx1 hy1
      obtain ⟨m1, px, hpx, hm1, hs1, hc1⟩ := loadPixel_spec hm hwf (x := x) (y := y)
        hx0 (by omega) hy0 (by omega)
      refine ⟨m1, hm1, hs1, ?_⟩
      intro i
      constructor
      · intro hi
        subst hi
        obtain ⟨c0, hc0⟩ := hm.cell_ok (x := x) (y := y) hx0 (by omega) hy0 (by omega)
        simp only [hpx, hc0, hc1 x y c0 hc0, and_self, if_true]
      · intro hi
        by_cases hin : 0 ≤ i.1 ∧ i.1 < (z.Size.X.toNat : Int) ∧ 0 ≤ i.2 ∧
            i.2 < (z.Size.Y.toNat : Int)
        · obtain ⟨c0, hc0⟩ := hm.cell_ok hin.1 hin.2.1 hin.2.2.1 hin.2.2.2
          have hne : ¬ (i.1 = x ∧ i.2 = y) := fun h => hi (Prod.ext h.1 h.2)
          simp only [hc0, hc1 i.1 i.2 c0 hc0, hne, if_false]
        · simp only [hm.cell_error hin, hs1.cell_error hin])
    z.Map hs
  refine ⟨m', ?_, hs', ?_⟩
  · unfold Zone.LoadImage
    simp only [hfit, Bool.false_eq_true, if_false, hm', bind, Except.bind, pure, Except.pure]
  · intro x y hx0 hx hy0 hy
    obtain ⟨c0, hc0⟩ := hs.cell_ok (x := x) (y := y) hx0 (by omega) hy0 (by omega)
    obtain ⟨px, hpx, hout⟩ := hwf.RGBAAt_ok x y
    refine ⟨c0, px, hc0, hpx, hout, ?_⟩
    have := (hv (x, y)).1 ⟨hx0, by rw [hR]; simp only; omega, hy0, by rw [hR]; simp only; omega⟩
    simp only [hpx, hc0] at this
    exact this

/-! ## `GenImage` -/

theorem offset_bounds (W H a b : Int) (ha0 : 0 ≤ a) (ha : a < W) (hb0 : 0 ≤ b) (hb : b < H) :
    0 ≤ b * (4 * W) + a * 4 ∧ b * (4 * W) + a * 4 + 4 ≤ 4 * W * H := by
  have hW : 0 ≤ W := by omega
  have h1 : 0 ≤ b * W := mul_nonneg hb0 hW
  have h2 : 0 ≤ (H - 1 - b) * W := mul_nonneg (by omega) hW
  constructor
  · nlinarith
  · nlinarith

theorem offset_apart (W a b a' b' : Int) (ha0 : 0 ≤ a) (ha : a < W) (ha0' : 0 ≤ a')
    (ha' : a' < W) (hne : ¬ (a = a' ∧ b = b')) :
    b * (4 * W) + a * 4 + 4 ≤ b' * (4 * W) + a' * 4 ∨
      b' * (4 * W) + a' * 4 + 4 ≤ b * (4 * W) + a * 4 := by
  have hW : 0 ≤ W := by omega
  rcases lt_trichotomy b b' with h | h | h
  · left
    have h2 : 0 ≤ (b' - b - 1) * W := mul_nonneg (by omega) hW
    nlinarith
  · subst h
    have : a ≠ a' := fun h => hne ⟨h, rfl⟩
    rcases lt_or_gt_of_ne this with h | h
    · left; omega
    · right; omega
  · right
    have h2 : 0 ≤ (b - b' - 1) * W := mul_nonneg (by omega) hW
    nlinarith

theorem getD_set4_other (pix : List Byte) (n m : Nat) (r g b a : Byte)
    (h : m < n ∨ n + 4 ≤ m) :
    ((((pix.set n r).set (n + 1) g).set (n + 2) b).set (n + 3) a).getD m 0 = pix.getD m 0 := by
  simp only [List.getD_eq_getElem?_getD]
  rw [List.getElem?_set_ne (by omega), List.getElem?_set_ne (by omega),
    List.getElem?_set_ne (by omega), List.getElem?_set_ne (by omega)]

theorem getD_set4_self (pix : List Byte) (n : Nat) (r g b a : Byte) (hn : n + 4 ≤ pix.length) :
    ((((pix.set n r).set (n + 1) g).set (n + 2) b).set (n + 3) a).getD n 0 = r ∧
    ((((pix.set n r).set (n + 1) g).set (n + 2) b).set (n + 3) a).getD (n + 1) 0 = g ∧
    ((((pix.set n r).set (n + 1) g).set (n + 2) b).set (n + 3) a).getD (n + 2) 0 = b ∧
    ((((pix.set n r).set (n + 1) g).set (n + 2) b).set (n + 3) a).getD (n + 3) 0 = a := by
  simp only [List.getD_eq_getElem?_getD]
  refine ⟨?_, ?_, ?_, ?_⟩
  · rw [List.getElem?_set_ne (by omega), List.getElem?_set_ne (by omega),
      List.getElem?_set_ne (by omega), List.getElem?_set_self (by omega)]
    rfl
  · rw [List.getElem?_set_ne (by omega), List.getElem?_set_ne (by omega),
      List.getElem?_set_self (by rw [List.length_set]; omega)]
    rfl
  · rw [List.getElem?_set_ne (by omega),
      List.getElem?_set_self (by rw [List.length_set, List.length_set]; omega)]
    rfl
  · rw [List.getElem?_set_self
      (by rw [List.length_set, List.length_set, List.length_set]; omega)]
    rfl

theorem Point.in_iff (x y : Int) (r : Rectangle) :
    Point.In ⟨x, y⟩ r = true ↔ r.Min.X ≤ x ∧ x < r.Max.X ∧ r.Min.Y ≤ y ∧ y < r.Max.Y := by
  simp [Point.In, and_assoc]

theorem RGBAImage.Packed.sliceOk {p : RGBAImage} (hp : p.Packed) {x y : Int}
    (hin : Point.In ⟨x, y⟩ p.Rect = true) :
    0 ≤ p.PixOffset x y ∧ p.PixOffset x y + 4 ≤ p.Pix.length := by
  obtain ⟨h1, h2, h3, h4⟩ := (Point.in_iff _ _ _).mp hin
  obtain ⟨_, _, hS, hL⟩ := hp
  unfold RGBAImage.PixOffset
  rw [hS, hL]
  unfold Rectangle.Dx Rectangle.Dy
  exact offset_bounds _ _ _ _ (by omega) (by omega) (by omega) (by omega)

theorem RGBAImage.Packed.wellFormed {p : RGBAImage} (hp : p.Packed) : p.WellFormed := by
  intro x y hin
  obtain ⟨h0, h4⟩ := hp.sliceOk hin
  simp [RGBAImage.sliceOk, h0, h4]

theorem NewRGBA_spec (r : Rectangle) (hx : 0 ≤ r.Dx) (hy : 0 ≤ r.Dy) :
    ∃ p, NewRGBA r = .ok p ∧ p.Packed ∧ p.Rect = r := by
  unfold NewRGBA
  have hn : ¬ (r.Dx < 0 ∨ r.Dy < 0) := by omega
  rw [if_neg hn]
  refine ⟨_, rfl, ⟨hx, hy, rfl, ?_⟩, rfl⟩
  simp only [List.length_replicate]
  have : 0 ≤ 4 * r.Dx * r.Dy := mul_nonneg (by omega) hy
  omega

/-- The method `Set` on a packed image at a point of its rectangle: it succeeds, keeps the
layout, stores the four bytes of the colour unchanged, and leaves every other
pixel as it was. -/
theorem RGBAImage.Packed.Set_spec {p : RGBAImage} (hp : p.Packed) {x y : Int}
    (hin : Point.In ⟨x, y⟩ p.Rect = true) (c : RGBAColor) :
    ∃ p', p.Set x y c = .ok p' ∧ p'.Packed ∧ p'.Rect = p.Rect ∧
      ∀ x' y', p'.RGBAAt x' y' = if x' = x ∧ y' = y then .ok c else p.RGBAAt x' y' := by
  obtain ⟨hi0, hi4⟩ := hp.sliceOk hin
  have hok : p.sliceOk (p.PixOffset x y) = true := by simp [RGBAImage.sliceOk, hi0, hi4]
  have hn4 : (p.PixOffset x y).toNat + 4 ≤ p.Pix.length := by omega
  refine ⟨⟨(((p.Pix.set (p.PixOffset x y).toNat c.R).set
      ((p.PixOffset x y).toNat + 1) c.G).set ((p.PixOffset x y).toNat + 2) c.B).set
      ((p.PixOffset x y).toNat + 3) c.A, p.Stride, p.Rect⟩, ?_, ?_, rfl, ?_⟩
  · unfold RGBAImage.Set
    simp only [hin, Bool.not_true, Bool.false_eq_true, if_false, hok, if_true, rgbaModel_eq]
  · obtain ⟨h1, h2, h3, h4⟩ := hp
    exact ⟨h1, h2, h3, by simpa only [List.length_set] using h4⟩
  · intro x' y'
    unfold RGBAImage.RGBAAt
    cases hin' : Point.In ⟨x', y'⟩ p.Rect
    · have hne : ¬ (x' = x ∧ y' = y) := by
        rintro ⟨rfl, rfl⟩
        rw [hin] at hin'; cases hin'
      simp only [Bool.not_false, if_true, hne, if_false]
    · obtain ⟨hj0, hj4⟩ := hp.sliceOk hin'
      have hok' : p.sliceOk (p.PixOffset x' y') = true := by
        simp [RGBAImage.sliceOk, hj0, hj4]
      have hoff : ∀ q : RGBAImage, q.Stride = p.Stride → q.Rect = p.Rect →
          q.PixOffset x' y' = p.PixOffset x' y' := by
        intro q hS hR
        unfold RGBAImage.PixOffset
        rw [hS, hR]
      simp only [Bool.not_true, Bool.false_eq_true, if_false, RGBAImage.sliceOk,
        List.length_set, RGBAImage.PixOffset]
      simp only [RGBAImage.sliceOk, RGBAImage.PixOffset] at hok'
      simp only [hok', if_true]
      by_cases hxy : x' = x ∧ y' = y
      · obtain ⟨rfl, rfl⟩ := hxy
        obtain ⟨e1, e2, e3, e4⟩ := getD_set4_self p.Pix (p.PixOffset x' y').toNat
          c.R c.G c.B c.A hn4
        simp only [RGBAImage.PixOffset] at e1 e2 e3 e4
        simp only [and_self, if_true, e1, e2, e3, e4]
      · obtain ⟨a1, a2, a3, a4⟩ := (Point.in_iff _ _ _).mp hin
        obtain ⟨b1, b2, b3, b4⟩ := (Point.in_iff _ _ _).mp hin'
        have hS := hp.2.2.1
        have hapart := offset_apart p.Rect.Dx (x - p.Rect.Min.X) (y - p.Rect.Min.Y)
          (x' - p.Rect.Min.X) (y' - p.Rect.Min.Y) (by omega) (by unfold Rectangle.Dx; omega)
          (by omega) (by unfold Rectangle.Dx; omega) (by
            rintro ⟨e1, e2⟩
            exact hxy ⟨by omega, by omega⟩)
        rw [← hS] at hapart
        simp only [RGBAImage.PixOffset] at hi0 hi4 hj0 hj4
        simp only [hxy, if_false]
        rw [getD_set4_other _ _ _ _ _ _ _ (by omega), getD_set4_other _ _ _ _ _ _ _ (by omega),
          getD_set4_other _ _ _ _ _ _ _ (by omega), getD_set4_other _ _ _ _ _ _ _ (by omega)]

/-- The method `GenImage` on an initialised zone: it succeeds with a packed image of the
zone's size whose pixel at every cell holds the four bytes of that cell. -/
theorem Zone.GenImage_spec (z : Zone) (hz : z.Initialised) :
    ∃ img, z.GenImage = .ok img ∧ img.Packed ∧ img.Rect = ⟨⟨0, 0⟩, ⟨z.Size.X, z.Size.Y⟩⟩ ∧
      ∀ x y, 0 ≤ x → x < z.Size.X → 0 ≤ y → y < z.Size.Y →
        ∃ c, readCell z.Map x y = .ok c ∧ img.RGBAAt x y = .ok c.RGBA := by
  have hs := hz.shaped
  obtain ⟨hX, hY, hR, _⟩ := hz
  obtain ⟨p0, hp0, hpk, hrect⟩ := NewRGBA_spec ⟨⟨0, 0⟩, ⟨z.Size.X, z.Size.Y⟩⟩
    (by simp only [Rectangle.Dx]; omega) (by simp only [Rectangle.Dy]; omega)
  obtain ⟨img, himg, ⟨hpk', hrect'⟩, hv⟩ := nested_loops
    (fun (img : RGBAImage) x y => do
      let c ← readCell z.Map x y
      img.Set x y c.RGBA)
    (fun img => img.Packed ∧ img.Rect = ⟨⟨0, 0⟩, ⟨z.Size.X, z.Size.Y⟩⟩)
    (fun img i => img.RGBAAt i.1 i.2)
    (fun i _ => match readCell z.Map i.1 i.2 with
      | .ok c => .ok c.RGBA
      | .error e => .error e)
    z.Range.X z.Range.Y
    (by
      intro img x y hx0 hx1 hy0 hy1 ⟨hpi, hri⟩
      rw [hR] at hx1 hy1
      simp only at hx1 hy1
      obtain ⟨c, hc⟩ := hs.cell_ok (x := x) (y := y) hx0 (by omega) hy0 (by omega)
      have hin : Point.In ⟨x, y⟩ img.Rect = true := by
        rw [hri, Point.in_iff]
        simp only
        omega
      obtain ⟨img', hset, hpi', hri', hat⟩ := hpi.Set_spec hin c.RGBA
      refine ⟨img', by simp only [hc, bind, Except.bind, hset], ⟨hpi', hri'.trans hri⟩, ?_⟩
      intro i
      constructor
      · intro hi
        subst hi
        simp only [hat, hc, and_self, if_true]
      · intro hi
        have hne : ¬ (i.1 = x ∧ i.2 = y) := fun h => hi (Prod.ext h.1 h.2)
        simp only [hat, hne, if_false])
    p0 ⟨hpk, hrect⟩
  refine ⟨img, ?_, hpk', hrect', ?_⟩
  · unfold Zone.GenImage
    simp only [hp0, bind, Except.bind]
    exact himg
  · intro x y hx0 hx hy0 hy
    obtain ⟨c, hc⟩ := hs.cell_ok (x := x) (y := y) hx0 (by omega) hy0 (by omega)
    refine ⟨c, hc, ?_⟩
    have := (hv (x, y)).1 ⟨hx0, by rw [hR]; simp only; omega, hy0, by rw [hR]; simp only; omega⟩
    simp only [hc] at this
    exact this

/-! ## Allocation and `Init` -/

theorem wrapInt64_of_range (v : Int) (h0 : -2 ^ 63 ≤ v) (h1 : v < 2 ^ 63) : wrapInt64 v = v := by
  unfold wrapInt64
  omega

theorem wrapInt64_le (v : Int) (h0 : -2 ^ 63 ≤ v) : wrapInt64 v ≤ v := by
  unfold wrapInt64
  omega

theorem wrapInt64_range (v : Int) : -2 ^ 63 ≤ wrapInt64 v ∧ wrapInt64 v < 2 ^ 63 := by
  unfold wrapInt64
  omega

theorem wrapInt64_modEq (v : Int) : wrapInt64 v ≡ v [ZMOD 2 ^ 64] := by
  unfold wrapInt64
  have h := (Int.mod_modEq (v + 2 ^ 63) (2 ^ 64)).sub_right (2 ^ 63)
  simpa using h

theorem wrapInt64_congr {a b : Int} (h : a ≡ b [ZMOD 2 ^ 64]) : wrapInt64 a = wrapInt64 b := by
  unfold wrapInt64
  have h' : (a + 2 ^ 63) % 2 ^ 64 = (b + 2 ^ 63) % 2 ^ 64 := h.add_right (2 ^ 63)
  rw [h']

/-- On a pixel whose four bytes lie inside `Pix`, a slice of fewer than `2 ^ 63`
bytes as every Go slice is, the offset Go computes with wrapping `int`
arithmetic is the exact one. -/
theorem RGBAImage.PixOffset_int64 (p : RGBAImage) (x y : Int)
    (hok : p.sliceOk (p.PixOffset x y) = true) (hlen : (p.Pix.length : Int) < 2 ^ 63) :
    p.PixOffset64 x y = p.PixOffset x y := by
  unfold RGBAImage.sliceOk at hok
  simp only [Bool.and_eq_true, decide_eq_true_eq] at hok
  unfold RGBAImage.PixOffset64
  have h1 : wrapInt64 (wrapInt64 (y - p.Rect.Min.Y) * p.Stride) +
      wrapInt64 (wrapInt64 (x - p.Rect.Min.X) * 4) ≡ p.PixOffset x y [ZMOD 2 ^ 64] := by
    unfold RGBAImage.PixOffset
    exact (((wrapInt64_modEq _).trans ((wrapInt64_modEq _).mul_right _)).add
      ((wrapInt64_modEq _).trans ((wrapInt64_modEq _).mul_right _)))
  rw [wrapInt64_congr h1]
  exact wrapInt64_of_range _ (by omega) (by omega)

/-- On a well-formed image whose `Pix` is a Go slice, Go's wrapping arithmetic
finds every pixel of `Rect` at the exact offset. -/
theorem RGBAImage.WellFormed.offset_int64 {p : RGBAImage} (hwf : p.WellFormed)
    (hlen : (p.Pix.length : Int) < 2 ^ 63) (x y : Int) (hin : Point.In ⟨x, y⟩ p.Rect = true) :
    p.PixOffset64 x y = p.PixOffset x y :=
  p.PixOffset_int64 x y (hwf x y hin) hlen

theorem Runtime.makeslice_ok {α : Type} (rt : Runtime) (k elemSize : Nat) (zero : α) (n : Int)
    (h0 : 0 ≤ n) (hsz : elemSize * n.toNat ≤ maxAlloc) (hm : rt.oom k = false) :
    rt.makeslice k elemSize zero n = .ok (List.replicate n.toNat zero) := by
  have h : ¬ (n < 0 ∨ elemSize * n.toNat > maxAlloc) := by omega
  simp [Runtime.makeslice, h, hm]

theorem Runtime.makeslice_huge {α : Type} (rt : Runtime) (k elemSize : Nat) (zero : α) (n : Int)
    (h : elemSize * n.toNat > maxAlloc) :
    rt.makeslice k elemSize zero n = .error .makesliceLenOutOfRange := by
  simp [Runtime.makeslice, h]

theorem Runtime.makeslice_inv {α : Type} {rt : Runtime} {k elemSize : Nat} {zero : α} {n : Int}
    {l : List α} (h : rt.makeslice k elemSize zero n = .ok l) :
    l = List.replicate n.toNat zero ∧ 0 ≤ n ∧ elemSize * n.toNat ≤ maxAlloc ∧
      rt.oom k = false := by
  unfold Runtime.makeslice at h
  split_ifs at h with h1 h2
  · cases h
    exact ⟨rfl, by omega, by omega, by simpa using h2⟩

theorem set_replicate_append {α : Type} (a b : α) (n k : Nat) :
    (List.replicate n a ++ List.replicate (k + 1) b).set n a =
      List.replicate (n + 1) a ++ List.replicate k b := by
  induction n with
  | zero => simp [List.replicate_succ]
  | succ n ih =>
    rw [List.replicate_succ, List.cons_append, List.set_cons_succ, ih]
    simp [List.replicate_succ]

/-- The column loop of `Init` over the first `n` columns of a grid of `w`
empty columns: when it returns, those columns hold `sizeY` zero cells each. -/
theorem initColumns_prefix_inv (rt : Runtime) (sizeY : Int) (w : Nat) :
    ∀ n, n ≤ w → ∀ m,
      (List.range n).foldlM (fun m i => do
        let col ← rt.makeslice (i + 1) 4 Color.zero sizeY
        pure (m.set i col)) (List.replicate w ([] : List Color)) = .ok m →
      m = List.replicate n (List.replicate sizeY.toNat Color.zero) ++
        List.replicate (w - n) [] := by
  intro n
  induction n with
  | zero =>
    intro _ m h
    simp only [List.range_zero, List.foldlM_nil, pure, Except.pure] at h
    cases h
    simp
  | succ n ih =>
    intro hn m h
    rw [List.range_succ, List.foldlM_append] at h
    simp only [bind, Except.bind] at h
    split at h
    · cases h
    · rename_i m0 h0
      have hm0 := ih (by omega) m0 h0
      simp only [List.foldlM_cons, List.foldlM_nil, bind, Except.bind] at h
      cases hcol : rt.makeslice (n + 1) 4 Color.zero sizeY with
      | error e => rw [hcol] at h; cases h
      | ok col =>
        rw [hcol] at h
        obtain ⟨hc, _⟩ := Runtime.makeslice_inv hcol
        simp only [pure, Except.pure] at h
        cases h
        rw [hm0, hc]
        have hk : w - n = (w - (n + 1)) + 1 := by omega
        rw [hk, set_replicate_append]

/-- The column loop of `Init` returns when every column fits and finds
memory. -/
theorem initColumns_prefix_ok (rt : Runtime) (sizeY : Int) (w : Nat) (hy : 0 ≤ sizeY)
    (hsz : 4 * sizeY.toNat ≤ maxAlloc) :
    ∀ n, n ≤ w → (∀ i, i < n → rt.oom (i + 1) = false) →
      (List.range n).foldlM (fun m i => do
        let col ← rt.makeslice (i + 1) 4 Color.zero sizeY
        pure (m.set i col)) (List.replicate w ([] : List Color)) =
      .ok (List.replicate n (List.replicate sizeY.toNat Color.zero) ++
        List.replicate (w - n) []) := by
  intro n
  induction n with
  | zero => intro _ _; simp [pure, Except.pure]
  | succ n ih =>
    intro hn hm
    rw [List.range_succ, List.foldlM_append, ih (by omega) (fun i hi => hm i (by omega))]
    simp only [bind, Except.bind, List.foldlM_cons, List.foldlM_nil,
      Runtime.makeslice_ok rt (n + 1) 4 Color.zero sizeY hy hsz (hm n (by omega)), pure,
      Except.pure]
    have hk : w - n = (w - (n + 1)) + 1 := by omega
    rw [hk, set_replicate_append]

theorem initColumns_inv {rt : Runtime} {sizeY : Int} {w : Nat} {m : List (List Color)}
    (h : initColumns rt sizeY (List.replicate w []) = .ok m) :
    m = List.replicate w (List.replicate sizeY.toNat Color.zero) := by
  unfold initColumns at h
  rw [List.length_replicate] at h
  have := initColumns_prefix_inv rt sizeY w w (le_refl _) m h
  simpa using this

theorem initColumns_ok (rt : Runtime) (sizeY : Int) (w : Nat) (hy : 0 ≤ sizeY)
    (hsz : 4 * sizeY.toNat ≤ maxAlloc) (hm : ∀ i, i < w → rt.oom (i + 1) = false) :
    initColumns rt sizeY (List.replicate w []) =
      .ok (List.replicate w (List.replicate sizeY.toNat Color.zero)) := by
  unfold initColumns
  rw [List.length_replicate, initColumns_prefix_ok rt sizeY w hy hsz w (le_refl _) hm]
  simp

/-- The column loop of `Init` panics in its first pass when a column exceeds
`maxAlloc`. -/
theorem initColumns_huge (rt : Runtime) (sizeY : Int) (w : Nat) (hw : 0 < w)
    (hsz : 4 * sizeY.toNat > maxAlloc) :
    initColumns rt sizeY (List.replicate w []) = .error .makesliceLenOutOfRange := by
  unfold initColumns
  obtain ⟨v, rfl⟩ : ∃ v, w = v + 1 := ⟨w - 1, by omega⟩
  rw [List.length_replicate, List.range_succ_eq_map, List.foldlM_cons]
  simp only [bind, Except.bind, Runtime.makeslice_huge rt _ 4 Color.zero sizeY hsz]

/-- The value of `Init` at a positive size the runtime allocates. -/
theorem Zone.Init_eq (z : Zone) (rt : Runtime) (size : Point) (hx : 0 < size.X)
    (hy : 0 < size.Y) (hX : 24 * size.X ≤ maxAlloc) (hY : 4 * size.Y ≤ maxAlloc)
    (hmem : ∀ k : Nat, (k : Int) ≤ size.X → rt.oom k = false) :
    z.Init rt size = .ok ({ z with
        Map := List.replicate size.X.toNat (List.replicate size.Y.toNat Color.zero)
        Size := size
        Range := ⟨size.X - 1, size.Y - 1⟩
        closed := false
        TokenStats := some []
        ReqChan := some ⟨[], 1000, false⟩ }, none) := by
  have hn : ¬ (size.X ≤ 0 ∨ size.Y ≤ 0) := by omega
  unfold Zone.Init
  rw [if_neg hn, Runtime.makeslice_ok rt 0 24 [] size.X (by omega) (by omega) (hmem 0 (by omega))]
  simp only [bind, Except.bind]
  rw [initColumns_ok rt size.Y size.X.toNat (by omega) (by omega)
    (fun i hi => hmem (i + 1) (by omega))]
  rfl

/-- Whenever `Init` returns at a positive size, it returns no error and the
zone it leaves is the freshly allocated one. -/
theorem Zone.Init_inv {z z1 : Zone} {rt : Runtime} {size : Point} {err : Option String}
    (hx : 0 < size.X) (hy : 0 < size.Y) (h : z.Init rt size = .ok (z1, err)) :
    err = none ∧ z1 = { z with
        Map := List.replicate size.X.toNat (List.replicate size.Y.toNat Color.zero)
        Size := size
        Range := ⟨size.X - 1, size.Y - 1⟩
        closed := false
        TokenStats := some []
        ReqChan := some ⟨[], 1000, false⟩ } := by
  have hn : ¬ (size.X ≤ 0 ∨ size.Y ≤ 0) := by omega
  unfold Zone.Init at h
  rw [if_neg hn] at h
  simp only [bind, Except.bind] at h
  split at h
  · cases h
  · rename_i m0 h0
    obtain ⟨hm0, _⟩ := Runtime.makeslice_inv h0
    split at h
    · cases h
    · rename_i m1 h1
      rw [hm0] at h1
      have hm1 := initColumns_inv h1
      simp only [pure, Except.pure] at h
      cases h
      rw [hm1]
      exact ⟨rfl, rfl⟩

/-- The call `Init` panics at a positive size whose first dimension exceeds what
`make` allocates. -/
theorem Zone.Init_huge_X (z : Zone) (rt : Runtime) (size : Point) (hx : 0 < size.X)
    (hy : 0 < size.Y) (hX : 24 * size.X > maxAlloc) :
    z.Init rt size = .error .makesliceLenOutOfRange := by
  have hn : ¬ (size.X ≤ 0 ∨ size.Y ≤ 0) := by omega
  unfold Zone.Init
  rw [if_neg hn, Runtime.makeslice_huge rt 0 24 [] size.X (by omega)]
  rfl

theorem Zone.Init_huge_Y (z : Zone) (rt : Runtime) (size : Point) (hx : 0 < size.X)
    (hy : 0 < size.Y) (hX : 24 * size.X ≤ maxAlloc) (h0 : rt.oom 0 = false)
    (hY : 4 * size.Y > maxAlloc) :
    z.Init rt size = .error .makesliceLenOutOfRange := by
  have hn : ¬ (size.X ≤ 0 ∨ size.Y ≤ 0) := by omega
  unfold Zone.Init
  rw [if_neg hn, Runtime.makeslice_ok rt 0 24 [] size.X (by omega) (by omega) h0]
  simp only [bind, Except.bind]
  rw [initColumns_huge rt size.Y size.X.toNat (by omega) (by omega)]

theorem Zone.Init_inv_initialised {z z1 : Zone} {rt : Runtime} {size : Point}
    {err : Option String} (hx : 0 < size.X) (hy : 0 < size.Y)
    (h : z.Init rt size = .ok (z1, err)) :
    err = none ∧ z1.Initialised ∧ z1.Size = size ∧
      ∀ x y, 0 ≤ x → x < size.X → 0 ≤ y → y < size.Y →
        readCell z1.Map x y = .ok Color.zero := by
  obtain ⟨he, hz1⟩ := Zone.Init_inv hx hy h
  subst hz1
  refine ⟨he, ⟨hx, hy, rfl, by simp, ?_, rfl, rfl⟩, rfl, ?_⟩
  · intro col hcol
    obtain ⟨_, rfl⟩ := List.mem_replicate.mp hcol
    simp
  · intro x y hx0 hx1 hy0 hy1
    rw [readCell_ok_iff]
    refine ⟨hx0, hy0, List.replicate size.Y.toNat Color.zero, ?_, ?_⟩
    · rw [List.getElem?_replicate, if_pos (by omega)]
    · rw [List.getElem?_replicate, if_pos (by omega)]

/-! ## Claims -/

/-- C1. Last-write-wins: on an initialised open zone, the consumer applied in
FIFO order to requests with non-negative coordinates never fails, changes
nothing but the grid, and leaves in every cell `(x, y)` the colour of the last
request whose point is `(x, y)` within `Range`, or the initial colour when
there is none; a request whose point exceeds `Range` changes no zone with that
range; and the goroutine, started at the loop head with the requests buffered,
reaches exactly that zone with the buffer drained. -/
theorem doDrawPoints_last_write_wins (z : Zone) (reqs : List DrawRequest)
    (hz : z.Initialised) (ho : z.Open)
    (hnn : ∀ r ∈ reqs, 0 ≤ r.Point.X ∧ 0 ≤ r.Point.Y) :
    ∃ z', z.doDrawPoints_seq reqs = .ok z' ∧ z' = { z with Map := z'.Map } ∧
      (∀ x y, 0 ≤ x → x < z.Size.X → 0 ≤ y → y < z.Size.Y →
        ∃ c0, readCell z.Map x y = .ok c0 ∧
          readCell z'.Map x y = .ok ((lastWrite z.Range reqs x y).getD c0)) ∧
      (∀ r ∈ reqs, r.Point.Greater z.Range = true →
        ∀ w : Zone, w.Range = z.Range → w.doDrawPoints_case r = .ok w) ∧
      (∀ ch, z.ReqChan = some ch →
        ZoneTask.doDrawPoints_run (2 * reqs.length)
            ⟨{ z with ReqChan := some { ch with buf := reqs } }, .loopHead⟩ =
          ⟨{ z' with ReqChan := some { ch with buf := [] } }, .loopHead⟩) := by
  obtain ⟨z', h, _, he, hc⟩ := Zone.doDrawPoints_seq_spec reqs z hz hnn
  refine ⟨z', h, he, ?_, ?_, ?_⟩
  · intro x y hx0 hx hy0 hy
    obtain ⟨c0, h0⟩ := hz.shaped.cell_ok hx0 (by omega) hy0 (by omega)
    exact ⟨c0, h0, hc x y c0 h0⟩
  · intro r _ hg w hw
    unfold Zone.doDrawPoints_case
    rw [hw, hg]
    rfl
  · intro ch _
    exact ZoneTask.run_drain reqs z z' ch ho.1 h

/-- C1, the scenario: in the fresh (2,2) zone the requests (0,0) red, (5,5)
blue, (1,1) green leave (0,0) red, (1,1) green and the two other cells zero. -/
theorem doDrawPoints_last_write_wins_witness :
    zone22.Initialised ∧ zone22.Open ∧
    (∀ r ∈ scenarioRequests, 0 ≤ r.Point.X ∧ 0 ≤ r.Point.Y) ∧
    ∃ z', zone22.doDrawPoints_seq scenarioRequests = .ok z' ∧
      z'.Map = [[red, Color.zero], [Color.zero, green]] ∧
      ∀ x y, 0 ≤ x → x < 2 → 0 ≤ y → y < 2 →
        readCell z'.Map x y =
          .ok ((lastWrite zone22.Range scenarioRequests x y).getD Color.zero) := by
  refine ⟨by decide, by decide, by decide, ?_⟩
  obtain ⟨z', h, _, hc, _⟩ :=
    doDrawPoints_last_write_wins zone22 scenarioRequests (by decide) (by decide) (by decide)
  refine ⟨z', h, ?_, ?_⟩
  · have h' : zone22.doDrawPoints_seq scenarioRequests =
        .ok { zone22 with Map := [[red, Color.zero], [Color.zero, green]] } := by rfl
    rw [h] at h'
    injection h' with h'
    rw [h']
  · intro x y hx0 hx hy0 hy
    obtain ⟨c0, h0, h1⟩ := hc x y hx0 hx hy0 hy
    have hzero : readCell zone22.Map x y = .ok Color.zero := by
      have hx' : x = 0 ∨ x = 1 := by omega
      have hy' : y = 0 ∨ y = 1 := by omega
      rcases hx' with rfl | rfl <;> rcases hy' with rfl | rfl <;> rfl
    rw [hzero] at h0
    injection h0 with h0
    rw [h1, h0]

/-- C2, the failing input: the zone is initialised and open, the request has
`X = -1`, and the consumer step panics on the grid access instead of
discarding the request; the goroutine ends panicked. -/
theorem doDrawPoints_negative_coordinate_panics :
    zone22.Initialised ∧ zone22.Open ∧
    negativeRequest.Point.Greater zone22.Range = false ∧
    zone22.doDrawPoints_case negativeRequest = .error .indexOutOfRange ∧
    (ZoneTask.doDrawPoints_run 2
      ⟨{ zone22 with ReqChan := some ⟨[negativeRequest], 1000, false⟩ }, .loopHead⟩).pc =
        .panicked .indexOutOfRange := by
  refine ⟨by decide, by decide, by rfl, by rfl, by rfl⟩

/-- C3, the failing input: a consumer blocked in the receive on the empty
queue of an open (1,1) zone whose cell is red. `Close()` wakes it with the
zero request, which it applies: the consumer returns two steps later, and the
cell it leaves for the export is no longer red but the zero colour. -/
theorem close_wakes_blocked_consumer_with_zero_request :
    blockedTask.zone.Initialised ∧ blockedTask.zone.Open ∧ blockedTask.doDrawPoints_step = none ∧
    ∃ t, blockedTask.Close = .ok t ∧ t.zone.Map = [[red]] ∧
      (ZoneTask.doDrawPoints_run 2 t).pc = .returned ∧
      (ZoneTask.doDrawPoints_run 2 t).zone.Map = [[Color.zero]] := by
  refine ⟨by decide, by decide, by rfl, _, rfl, by rfl, by rfl, by rfl⟩

/-- C4, the failing input: with two zones registered, `LookupZone(2)` and
`LookupZone(-1)` panic on the slice access instead of returning nil, while
ids 0 and 1 are found. -/
theorem LookupZone_out_of_range_panics :
    twoZones.zones.length = 2 ∧
    LookupZone twoZones 2 = .error .indexOutOfRange ∧
    LookupZone twoZones (-1) = .error .indexOutOfRange ∧
    LookupZone twoZones 0 = .ok (some 0) ∧ LookupZone twoZones 1 = .ok (some 1) := by
  refine ⟨by rfl, by rfl, by rfl, by rfl, by rfl⟩

/-- C5, as stated, fails: the size `(MaxInt64, 1)` has both dimensions
positive, and `Init` of the fresh zone does not return at it: the first `make`
panics with `makeslice: len out of range`. -/
theorem Init_positive_size_huge_counterexample :
    (0 : Int) < 9223372036854775807 ∧ (0 : Int) < 1 ∧
    Zone.new.Init Runtime.ample ⟨9223372036854775807, 1⟩ = .error .makesliceLenOutOfRange ∧
    ¬ ∃ z', Zone.new.Init Runtime.ample ⟨9223372036854775807, 1⟩ = .ok (z', none) := by
  have h : Zone.new.Init Runtime.ample ⟨9223372036854775807, 1⟩ =
      .error .makesliceLenOutOfRange := by rfl
  refine ⟨by decide, by decide, h, ?_⟩
  rintro ⟨z', hz'⟩
  rw [h] at hz'
  cases hz'

/-- C5, amended. For a size with both dimensions positive: whenever `Init`
returns, it returns no error and leaves `Size = size`,
`Range = (size.X-1, size.Y-1)`, a grid of exactly `size.X` columns of exactly
`size.Y` cells, each the zero colour, an empty token map, an empty open queue
of capacity 1000 and `closed = false`, the fields `Title`, `PrivilegedToken`
and `Freeze` keeping their values; it does return when the runtime can allocate
the grid, that is `size.X` slice headers of 24 bytes and `size.Y` colours of 4
bytes are within `maxAlloc` and memory is found for the `size.X + 1` slices;
and it panics with `makeslice: len out of range` when the headers exceed
`maxAlloc`, or the colours of a column do after the headers were allocated. -/
theorem Init_positive_size (z : Zone) (rt : Runtime) (size : Point) (hx : 0 < size.X)
    (hy : 0 < size.Y) :
    (∀ z' err, z.Init rt size = .ok (z', err) →
      err = none ∧
      z'.Size = size ∧
      z'.Range = ⟨size.X - 1, size.Y - 1⟩ ∧
      (z'.Map.length : Int) = size.X ∧
      (∀ col ∈ z'.Map, (col.length : Int) = size.Y ∧ ∀ c ∈ col, c = Color.zero) ∧
      (∀ x y, 0 ≤ x → x < size.X → 0 ≤ y → y < size.Y →
        readCell z'.Map x y = .ok Color.zero) ∧
      z'.TokenStats = some [] ∧
      z'.ReqChan = some ⟨[], 1000, false⟩ ∧
      z'.closed = false ∧
      z'.Title = z.Title ∧
      z'.PrivilegedToken = z.PrivilegedToken ∧
      z'.Freeze = z.Freeze) ∧
    (24 * size.X ≤ maxAlloc → 4 * size.Y ≤ maxAlloc →
      (∀ k : Nat, (k : Int) ≤ size.X → rt.oom k = false) →
      ∃ z', z.Init rt size = .ok (z', none)) ∧
    (24 * size.X > maxAlloc → z.Init rt size = .error .makesliceLenOutOfRange) ∧
    (24 * size.X ≤ maxAlloc → rt.oom 0 = false → 4 * size.Y > maxAlloc →
      z.Init rt size = .error .makesliceLenOutOfRange) := by
  refine ⟨?_, ?_, Zone.Init_huge_X z rt size hx hy, Zone.Init_huge_Y z rt size hx hy⟩
  · intro z' err h
    obtain ⟨he, hz'⟩ := Zone.Init_inv hx hy h
    subst hz'
    refine ⟨he, rfl, rfl, ?_, ?_, ?_, rfl, rfl, rfl, rfl, rfl, rfl⟩
    · simp only [List.length_replicate]; omega
    · intro col hcol
      obtain ⟨_, rfl⟩ := List.mem_replicate.mp hcol
      refine ⟨by rw [List.length_replicate]; omega, ?_⟩
      intro c hc
      exact (List.mem_replicate.mp hc).2
    · intro x y hx0 hx1 hy0 hy1
      rw [readCell_ok_iff]
      refine ⟨hx0, hy0, List.replicate size.Y.toNat Color.zero, ?_, ?_⟩
      · rw [List.getElem?_replicate, if_pos (by omega)]
      · rw [List.getElem?_replicate, if_pos (by omega)]
  · intro hX hY hmem
    exact ⟨_, Zone.Init_eq z rt size hx hy hX hY hmem⟩

/-- C5, amended, at size (2,2) on the fresh zone with ample memory: `Init`
returns no error, a grid of four zero cells and `Range = (1,1)`. -/
theorem Init_positive_size_witness :
    (0 : Int) < 2 ∧
    ∃ z', Zone.new.Init Runtime.ample ⟨2, 2⟩ = .ok (z', none) ∧
      z'.Map = [[Color.zero, Color.zero], [Color.zero, Color.zero]] ∧
      z'.Range = ⟨1, 1⟩ := by
  refine ⟨by decide, ?_⟩
  obtain ⟨hinv, hret, _, _⟩ :=
    Init_positive_size Zone.new Runtime.ample ⟨2, 2⟩ (by decide) (by decide)
  obtain ⟨z', h⟩ := hret (by decide) (by decide) (fun _ _ => rfl)
  refine ⟨z', h, ?_, (hinv z' none h).2.2.1⟩
  have e : Zone.new.Init Runtime.ample ⟨2, 2⟩ = .ok (zone22, none) := by rfl
  rw [e] at h
  cases h
  rfl

/-- C6. `Init` returns an error exactly when `size.X ≤ 0` or `size.Y ≤ 0`, and
it does return one then; when it does, the zone is left as it was, field for
field, and the fresh zone still has the nil grid. -/
theorem Init_error_iff (z : Zone) (rt : Runtime) (size : Point) :
    ((∃ z' err, z.Init rt size = .ok (z', some err)) ↔ size.X ≤ 0 ∨ size.Y ≤ 0) ∧
    (size.X ≤ 0 ∨ size.Y ≤ 0 → z.Init rt size = .ok (z, some "zone size cannot be zero")) ∧
    (∀ z' err, z.Init rt size = .ok (z', some err) → z' = z) ∧
    (∀ z' err, Zone.new.Init rt size = .ok (z', some err) → z'.Map = []) := by
  by_cases h : size.X ≤ 0 ∨ size.Y ≤ 0
  · have hret : ∀ z0 : Zone, z0.Init rt size = .ok (z0, some "zone size cannot be zero") := by
      intro z0
      unfold Zone.Init
      rw [if_pos h]
    refine ⟨⟨fun _ => h, fun _ => ⟨z, _, hret z⟩⟩, fun _ => hret z, ?_, ?_⟩
    · intro z' err h'
      rw [hret z] at h'
      cases h'
      rfl
    · intro z' err h'
      rw [hret Zone.new] at h'
      cases h'
      rfl
  · have hx : 0 < size.X := by omega
    have hy : 0 < size.Y := by omega
    have hnone : ∀ (z0 z' : Zone) (err : String), z0.Init rt size ≠ .ok (z', some err) := by
      intro z0 z' err h'
      have := (Zone.Init_inv hx hy h').1
      cases this
    refine ⟨⟨?_, fun h' => absurd h' h⟩, fun h' => absurd h' h, ?_, ?_⟩
    · rintro ⟨z', err, h'⟩
      exact absurd h' (hnone z z' err)
    · intro z' err h'
      exact absurd h' (hnone z z' err)
    · intro z' err h'
      exact absurd h' (hnone Zone.new z' err)

/-- C7. Round trip: for an initialised zone `z` with any grid contents,
`GenImage` succeeds; `Init` of a zone to the size of `z` returns whenever the
runtime can allocate the grid; and whenever it returns, it returns no error and
`LoadImage` of the image into the zone it leaves returns no error and leaves in
every cell the colour of `z` there, all four channels, when its alpha is not 0,
and the zero colour when its alpha is 0. -/
theorem GenImage_LoadImage_round_trip (z : Zone) (hz : z.Initialised) (z0 : Zone)
    (rt : Runtime) :
    ∃ img, z.GenImage = .ok img ∧
      (24 * z.Size.X ≤ maxAlloc → 4 * z.Size.Y ≤ maxAlloc →
        (∀ k : Nat, (k : Int) ≤ z.Size.X → rt.oom k = false) →
        ∃ z1, z0.Init rt z.Size = .ok (z1, none)) ∧
      ∀ z1 err, z0.Init rt z.Size = .ok (z1, err) →
        err = none ∧
        ∃ z', z1.LoadImage (.rgba img) = .ok (z', none) ∧
          ∀ x y, 0 ≤ x → x < z.Size.X → 0 ≤ y → y < z.Size.Y →
            ∃ c, readCell z.Map x y = .ok c ∧
              (c.A ≠ 0 → readCell z'.Map x y = .ok c) ∧
              (c.A = 0 → readCell z'.Map x y = .ok Color.zero) := by
  obtain ⟨img, himg, hpk, hrect, hpix⟩ := z.GenImage_spec hz
  refine ⟨img, himg, fun hX hY hmem => ⟨_, Zone.Init_eq z0 rt z.Size hz.1 hz.2.1 hX hY hmem⟩, ?_⟩
  intro z1 err h1
  obtain ⟨he, hi, hsz, hzero⟩ := Zone.Init_inv_initialised hz.1 hz.2.1 h1
  have hfit : img.Rect.Size.Greater z1.Size = false := by
    rw [hsz, hrect, Point.greater_eq_false]
    simp only [Rectangle.Size, sub_zero]
    exact ⟨wrapInt64_le _ (by have := hz.1; omega), wrapInt64_le _ (by have := hz.2.1; omega)⟩
  obtain ⟨m', hload, _, hcells⟩ := Zone.LoadImage_spec z1 hi img hpk.wellFormed hfit
  refine ⟨he, _, hload, ?_⟩
  intro x y hx0 hx hy0 hy
  obtain ⟨c, hc, hat⟩ := hpix x y hx0 hx hy0 hy
  obtain ⟨c0, px, hc0, hpx, _, hres⟩ :=
    hcells x y hx0 (by rw [hsz]; exact hx) hy0 (by rw [hsz]; exact hy)
  rw [hzero x y hx0 hx hy0 hy] at hc0
  rw [hat] at hpx
  cases hc0
  cases hpx
  refine ⟨c, hc, ?_, ?_⟩
  · intro hA
    rw [hres]
    simp [loadValue, Color.RGBA, hA]
  · intro hA
    rw [hres]
    simp [loadValue, Color.RGBA, hA]

/-- C7 on the (2,2) zone holding red, a colour of alpha 0, zero and green: the
round trip through a zone freshly initialised with ample memory keeps red and
green and leaves the two other cells zero. -/
theorem GenImage_LoadImage_round_trip_witness :
    paintedZone.Initialised ∧
    ∃ img z1 z', paintedZone.GenImage = .ok img ∧
      Zone.new.Init Runtime.ample paintedZone.Size = .ok (z1, none) ∧
      z1.LoadImage (.rgba img) = .ok (z', none) ∧
      z'.Map = [[red, Color.zero], [Color.zero, green]] := by
  refine ⟨by decide, ?_⟩
  obtain ⟨img, h1, _, hall⟩ :=
    GenImage_LoadImage_round_trip paintedZone (by decide) Zone.new Runtime.ample
  have e0 : Zone.new.Init Runtime.ample paintedZone.Size = .ok (zone22, none) := by rfl
  obtain ⟨_, z', h2, _⟩ := hall zone22 none e0
  refine ⟨img, zone22, z', h1, e0, h2, ?_⟩
  have e1 : paintedZone.GenImage = .ok
      ⟨[255, 0, 0, 255, 1, 2, 3, 0, 0, 0, 0, 0, 0, 255, 0, 255], 8, ⟨⟨0, 0⟩, ⟨2, 2⟩⟩⟩ := by rfl
  rw [e1] at h1
  cases h1
  have e2 : zone22.LoadImage (.rgba
      ⟨[255, 0, 0, 255, 1, 2, 3, 0, 0, 0, 0, 0, 0, 255, 0, 255], 8, ⟨⟨0, 0⟩, ⟨2, 2⟩⟩⟩) =
      .ok ({ zone22 with Map := [[red, Color.zero], [Color.zero, green]] }, none) := by rfl
  rw [e2] at h2
  cases h2
  rfl

/-- The subtractions of `Size` wrap as Go's `int` does: a rectangle from
`MinInt64` to `MaxInt64` has width -1, and one from `2^63-2` to `-2^63+1` has
width 3, so that `LoadImage` into the (2,2) zone refuses an image of these
bounds as too large. -/
theorem Rectangle.Size_wraps :
    (Rectangle.mk ⟨-9223372036854775808, 0⟩ ⟨9223372036854775807, 1⟩).Size = ⟨-1, 1⟩ ∧
    (Rectangle.mk ⟨9223372036854775806, 0⟩ ⟨-9223372036854775807, 1⟩).Size = ⟨3, 1⟩ ∧
    zone22.LoadImage (.rgba ⟨[], 0, ⟨⟨9223372036854775806, 0⟩, ⟨-9223372036854775807, 1⟩⟩⟩) =
      .ok (zone22, some "too large") := by
  refine ⟨by decide, by decide, by rfl⟩

/-- C8. `LoadImage` returns an error exactly when the image's colour model is
not RGBA, or its width exceeds `Size.X`, or its height exceeds `Size.Y`, the
width and the height being those of `img.Bounds().Size()` as Go's `int`
computes them, which are `Max.X - Min.X` and `Max.Y - Min.Y` whenever these
differences fit in 64 bits; whenever it returns an error the zone is unchanged,
the grid and every other field; and on an initialised zone and a well-formed
image it always returns (it does not panic). -/
theorem LoadImage_error_iff (z : Zone) (img : Image) :
    ((∃ z' e, z.LoadImage img = .ok (z', some e)) ↔
      (img.isRGBAModel = false ∨ img.Bounds.Size.X > z.Size.X ∨
        img.Bounds.Size.Y > z.Size.Y)) ∧
    (-2 ^ 63 ≤ img.Bounds.Max.X - img.Bounds.Min.X →
      img.Bounds.Max.X - img.Bounds.Min.X < 2 ^ 63 →
      img.Bounds.Size.X = img.Bounds.Max.X - img.Bounds.Min.X) ∧
    (-2 ^ 63 ≤ img.Bounds.Max.Y - img.Bounds.Min.Y →
      img.Bounds.Max.Y - img.Bounds.Min.Y < 2 ^ 63 →
      img.Bounds.Size.Y = img.Bounds.Max.Y - img.Bounds.Min.Y) ∧
    (∀ z' e, z.LoadImage img = .ok (z', some e) → z' = z) ∧
    (z.Initialised → img.WellFormed → ∃ z' err, z.LoadImage img = .ok (z', err)) := by
  suffices main : ((∃ z' e, z.LoadImage img = .ok (z', some e)) ↔
      (img.isRGBAModel = false ∨ img.Bounds.Size.X > z.Size.X ∨
        img.Bounds.Size.Y > z.Size.Y)) ∧
      (∀ z' e, z.LoadImage img = .ok (z', some e) → z' = z) ∧
      (z.Initialised → img.WellFormed → ∃ z' err, z.LoadImage img = .ok (z', err)) from
    ⟨main.1, fun h0 h1 => wrapInt64_of_range _ h0 h1, fun h0 h1 => wrapInt64_of_range _ h0 h1,
      main.2⟩
  cases img with
  | other b =>
    refine ⟨?_, ?_, fun _ _ => ⟨z, _, rfl⟩⟩
    · simp only [Image.isRGBAModel, true_or, iff_true]
      exact ⟨z, _, rfl⟩
    · intro z' e h
      cases h
      rfl
  | rgba p =>
    cases hfit : p.Rect.Size.Greater z.Size
    · have hnone : ∀ z' e, z.LoadImage (.rgba p) ≠ .ok (z', some e) := by
        intro z' e h
        unfold Zone.LoadImage at h
        simp only [hfit, Bool.false_eq_true, if_false, bind, Except.bind] at h
        split at h
        · cases h
        · cases h
      refine ⟨?_, fun z' e h => absurd h (hnone z' e), ?_⟩
      · obtain ⟨h1, h2⟩ := Point.greater_eq_false.mp hfit
        constructor
        · rintro ⟨z', e, h⟩
          exact absurd h (hnone z' e)
        · simp only [Image.isRGBAModel, Bool.true_eq_false, Image.Bounds, false_or]
          intro h
          omega
      · intro hz hwf
        obtain ⟨m', hload, _, _⟩ := Zone.LoadImage_spec z hz p hwf hfit
        exact ⟨_, none, hload⟩
    · have hret : z.LoadImage (.rgba p) = .ok (z, some "too large") := by
        unfold Zone.LoadImage
        simp only [hfit, if_true]
      refine ⟨?_, ?_, fun _ _ => ⟨z, _, hret⟩⟩
      · have := Point.greater_eq_true.mp hfit
        simp only [Image.isRGBAModel, Bool.true_eq_false, Image.Bounds, false_or, gt_iff_lt,
          this, iff_true]
        exact ⟨z, _, hret⟩
      · intro z' e h
        rw [hret] at h
        cases h
        rfl

/-- C8 on the (2,2) zone painted blue and a 3×1 image: the image is too wide,
`LoadImage` returns the error and the zone is as before. -/
theorem LoadImage_error_iff_witness :
    blueZone.Initialised ∧ (Image.rgba wideImage).WellFormed ∧
    (Image.rgba wideImage).Bounds.Size.X = 3 ∧
    (Image.rgba wideImage).Bounds.Size.X > blueZone.Size.X ∧
    ∃ z' e, blueZone.LoadImage (.rgba wideImage) = .ok (z', some e) ∧ z' = blueZone := by
  have hwf : (Image.rgba wideImage).WellFormed :=
    RGBAImage.Packed.wellFormed (p := wideImage) (by decide)
  obtain ⟨hiff, hX, _, hsame, _⟩ := LoadImage_error_iff blueZone (.rgba wideImage)
  obtain ⟨z', e, h⟩ := hiff.mpr (Or.inr (Or.inl (by decide)))
  exact ⟨by decide, hwf, hX (by decide) (by decide), by decide, z', e, h, hsame z' e h⟩

/-- C9. On an initialised zone, `LoadImage` of a well-formed `*image.RGBA` it
accepts (the test of the code: `Bounds().Size()`, computed in Go's `int`, is
not `Greater` than the zone's size) returns nil and changes the grid only:
`Size`, `Range`, the token map and every other field are as before, and each
cell `(x, y)` holds the four bytes of the image's pixel at `(x, y)` when that
pixel lies in the image's bounds with non-zero alpha, and its previous colour
when the pixel's alpha is 0 or `(x, y)` lies outside the image's bounds. The
pixel is read where Go's wrapping `int` arithmetic finds it, `Pix` being a Go
slice, of fewer than `2 ^ 63` bytes. -/
theorem LoadImage_cells (z : Zone) (p : RGBAImage) (hz : z.Initialised) (hwf : p.WellFormed)
    (hfit : p.Rect.Size.Greater z.Size = false) :
    ∃ z', z.LoadImage (.rgba p) = .ok (z', none) ∧
      z'.Size = z.Size ∧ z'.Range = z.Range ∧ z'.TokenStats = z.TokenStats ∧
      z' = { z with Map := z'.Map } ∧
      (∀ x y, 0 ≤ x → x < z.Size.X → 0 ≤ y → y < z.Size.Y →
        ∃ c0 px, readCell z.Map x y = .ok c0 ∧ p.RGBAAt x y = .ok px ∧
          (Point.In ⟨x, y⟩ p.Rect = true → px.A ≠ 0 →
            readCell z'.Map x y = .ok ⟨px.R, px.G, px.B, px.A⟩) ∧
          (Point.In ⟨x, y⟩ p.Rect = false ∨ px.A = 0 → readCell z'.Map x y = .ok c0)) ∧
      ((p.Pix.length : Int) < 2 ^ 63 → ∀ x y, Point.In ⟨x, y⟩ p.Rect = true →
        p.PixOffset64 x y = p.PixOffset x y) := by
  obtain ⟨m', hload, _, hcells⟩ := Zone.LoadImage_spec z hz p hwf hfit
  refine ⟨_, hload, rfl, rfl, rfl, rfl, ?_, fun hlen x y hin => hwf.offset_int64 hlen x y hin⟩
  intro x y hx0 hx hy0 hy
  obtain ⟨c0, px, hc0, hpx, hout, hres⟩ := hcells x y hx0 hx hy0 hy
  refine ⟨c0, px, hc0, hpx, ?_, ?_⟩
  · intro _ hA
    rw [hres]
    simp [loadValue, hA]
  · intro h
    have hA : px.A = 0 := by
      rcases h with h | h
      · rw [hout h]
      · exact h
    rw [hres]
    simp [loadValue, hA]

/-- C9 on the (2,2) zone painted blue and the 2×2 scenario image: the red and
the green pixel are copied, the two pixels of alpha 0 leave the cells blue. -/
theorem LoadImage_cells_witness :
    blueZone.Initialised ∧ scenarioImage.WellFormed ∧
    scenarioImage.Rect.Size = ⟨2, 2⟩ ∧
    scenarioImage.Rect.Size.Greater blueZone.Size = false ∧
    ∃ z', blueZone.LoadImage (.rgba scenarioImage) = .ok (z', none) ∧
      z'.Map = [[red, blue], [blue, green]] := by
  have hwf : scenarioImage.WellFormed :=
    RGBAImage.Packed.wellFormed (by decide)
  refine ⟨by decide, hwf, by decide, by rfl, ?_⟩
  obtain ⟨z', h, _⟩ := LoadImage_cells blueZone scenarioImage (by decide) hwf (by rfl)
  refine ⟨z', h, ?_⟩
  have e : blueZone.LoadImage (.rgba scenarioImage) =
      .ok ({ blueZone with Map := [[red, blue], [blue, green]] }, none) := by rfl
  rw [e] at h
  cases h
  rfl

/-- C10, as stated, fails: the size `(MaxInt64, 1)` has both dimensions
positive, and `createZone` on the empty registry does not return a zone at it:
`make` panics in `Init` with `makeslice: len out of range` before the registry
is touched. -/
theorem createZone_huge_counterexample :
    (0 : Int) < 9223372036854775807 ∧ (0 : Int) < 1 ∧
    createZone World.empty Runtime.ample false "t0" ⟨9223372036854775807, 1⟩ 5 =
      .error .makesliceLenOutOfRange ∧
    ¬ ∃ w' a, createZone World.empty Runtime.ample false "t0" ⟨9223372036854775807, 1⟩ 5 =
      .ok (w', some a, none) := by
  have h : createZone World.empty Runtime.ample false "t0" ⟨9223372036854775807, 1⟩ 5 =
      .error .makesliceLenOutOfRange := by rfl
  refine ⟨by decide, by decide, h, ?_⟩
  rintro ⟨w', a, hw'⟩
  rw [h] at hw'
  cases hw'

/-- C10, amended. On a registry of `n` zones and a size with both dimensions
positive that the runtime can allocate (`size.X` slice headers of 24 bytes and
`size.Y` colours of 4 bytes within `maxAlloc`, and memory found for the
`size.X + 1` slices), `createZone` returns a non-nil zone and no error; the
registry then holds `n + 1` zones, the new one at index `n` (so `LookupZone(n)`
returns it) and the earlier entries and the zones they point to unchanged (so
`LookupZone(i)` answers as before for `i < n`); the new zone is initialised
with `Size = size` and `Freeze = freeze`, carries the generated privileged
token, and its consumer stands at the loop head. At a positive size whose
headers exceed `maxAlloc`, `createZone` panics with `makeslice: len out of
range`; and whenever `createZone` returns at a positive size, it returns a
non-nil zone, no error and a registry one longer. -/
theorem createZone_appends (w : World) (rt : Runtime) (isDebug : Bool) (generated : Token)
    (size : Point) (freeze : Tick) (hx : 0 < size.X) (hy : 0 < size.Y) :
    (24 * size.X ≤ maxAlloc → 4 * size.Y ≤ maxAlloc →
      (∀ k : Nat, (k : Int) ≤ size.X → rt.oom k = false) →
      ∃ w' a z, createZone w rt isDebug generated size freeze = .ok (w', some a, none) ∧
        w'.zones.length = w.zones.length + 1 ∧
        w'.zones[w.zones.length]? = some (some a) ∧
        LookupZone w' w.zones.length = .ok (some a) ∧
        (∀ i : Nat, i < w.zones.length →
          w'.zones[i]? = w.zones[i]? ∧ LookupZone w' i = LookupZone w i) ∧
        a = w.heap.length ∧
        (∀ b : Nat, b < w.heap.length → w'.heap[b]? = w.heap[b]?) ∧
        w'.heap[a]? = some ⟨z, .loopHead⟩ ∧ w'.deref (some a) = some z ∧
        z.Initialised ∧ z.Size = size ∧ z.Freeze = freeze ∧
        z.PrivilegedToken = (if isDebug then "A" else generated)) ∧
    (24 * size.X > maxAlloc →
      createZone w rt isDebug generated size freeze = .error .makesliceLenOutOfRange) ∧
    (∀ w' p err, createZone w rt isDebug generated size freeze = .ok (w', p, err) →
      err = none ∧ p = some w.heap.length ∧ w'.zones = w.zones ++ [p]) := by
  refine ⟨?_, ?_, ?_⟩
  · intro hX hY hmem
    obtain ⟨zI, hI⟩ : ∃ zI, Zone.new.Init rt size = .ok (zI, none) :=
      ⟨_, Zone.Init_eq Zone.new rt size hx hy hX hY hmem⟩
    obtain ⟨_, hinit, hsize, _⟩ := Zone.Init_inv_initialised hx hy hI
    have hcz : createZone w rt isDebug generated size freeze =
        .ok (⟨w.heap ++ [⟨Zone.UpdatePrivilegedToken { zI with Freeze := freeze }
            (if isDebug then "A" else generated), .loopHead⟩],
          w.zones ++ [some w.heap.length]⟩, some w.heap.length, none) := by
      unfold createZone
      rw [hI]
    refine ⟨⟨w.heap ++ [⟨Zone.UpdatePrivilegedToken { zI with Freeze := freeze }
        (if isDebug then "A" else generated), .loopHead⟩], w.zones ++ [some w.heap.length]⟩,
      w.heap.length,
      Zone.UpdatePrivilegedToken { zI with Freeze := freeze } (if isDebug then "A" else generated),
      hcz, ?_, ?_, ?_, ?_, rfl, ?_, ?_, ?_, ?_, hsize, rfl, rfl⟩
    · simp
    · simp
    · unfold LookupZone
      have hc : ((w.zones.length : Int) < (w.zones ++ [some w.heap.length]).length ∨
          (w.zones.length : Int) ≥ 0) := Or.inr (Int.ofNat_nonneg _)
      simp only [hc, if_true]
      rw [index_ok_iff]
      exact ⟨Int.ofNat_nonneg _, by simp⟩
    · intro i hi
      have h1 : (w.zones ++ [some w.heap.length])[i]? = w.zones[i]? :=
        List.getElem?_append_left hi
      refine ⟨h1, ?_⟩
      unfold LookupZone
      have hc : ∀ l : List ZonePtr, ((i : Int) < l.length ∨ (i : Int) ≥ 0) :=
        fun _ => Or.inr (Int.ofNat_nonneg _)
      simp only [hc, if_true]
      unfold index
      simp only [Int.toNat_ofNat, h1]
    · intro b hb
      exact List.getElem?_append_left hb
    · simp
    · simp [World.deref]
    · exact hinit
  · intro hX
    unfold createZone
    rw [Zone.Init_huge_X Zone.new rt size hx hy hX]
  · intro w' p err h
    unfold createZone at h
    cases hI : Zone.new.Init rt size with
    | error e => rw [hI] at h; cases h
    | ok res =>
      obtain ⟨z1, e1⟩ := res
      obtain ⟨he, _⟩ := Zone.Init_inv hx hy hI
      subst he
      rw [hI] at h
      simp only at h
      cases h
      exact ⟨rfl, rfl, rfl⟩

/-- C10, amended, the scenario: with ample memory, on the empty registry two
calls `createZone((10,10), 5)` return the zones at addresses 0 and 1 under ids
0 and 1; `LookupZone(0)` and `LookupZone(1)` return those two pointers, which
differ, and both zones have size (10,10) and freeze 5. -/
theorem createZone_appends_witness :
    (∃ w1, createZone World.empty Runtime.ample false "t0" ⟨10, 10⟩ 5 = .ok (w1, some 0, none) ∧
      createZone w1 Runtime.ample false "t1" ⟨10, 10⟩ 5 = .ok (twoZones, some 1, none)) ∧
    LookupZone twoZones 0 = .ok (some 0) ∧ LookupZone twoZones 1 = .ok (some 1) ∧
    (some 0 : ZonePtr) ≠ some 1 ∧
    (∃ z0 z1, twoZones.deref (some 0) = some z0 ∧ twoZones.deref (some 1) = some z1 ∧
      z0.Size = ⟨10, 10⟩ ∧ z1.Size = ⟨10, 10⟩ ∧ z0.Freeze = 5 ∧ z1.Freeze = 5) ∧
    ∃ (w' : World) (a : Nat) (z : Zone),
      createZone (World.empty.afterCreateZone "t0" ⟨10, 10⟩ 5) Runtime.ample false "t1"
        ⟨10, 10⟩ 5 = .ok (w', some a, none) ∧
      LookupZone w' 1 = .ok (some a) ∧
      LookupZone w' 0 = LookupZone (World.empty.afterCreateZone "t0" ⟨10, 10⟩ 5) 0 ∧
      w'.deref (some a) = some z ∧ z.Size = ⟨10, 10⟩ := by
  refine ⟨⟨_, by rfl, by rfl⟩, by rfl, by rfl, by decide, ⟨_, _, by rfl, by rfl, by rfl, by rfl,
    by rfl, by rfl⟩, ?_⟩
  obtain ⟨w', a, z, h, _, _, hl, hold, _, _, _, hd, _, hs, _⟩ :=
    (createZone_appends (World.empty.afterCreateZone "t0" ⟨10, 10⟩ 5) Runtime.ample false "t1"
      ⟨10, 10⟩ 5 (by decide) (by decide)).1 (by decide) (by decide) (fun _ _ => rfl)
  exact ⟨w', a, z, h, hl, (hold 0 (by decide)).2, hd, hs⟩

/-! ## The clock and the tokens -/

set_option maxRecDepth 100000 in
theorem hexEncodeByte_chars : ∀ v : Byte, ∀ c ∈ hexEncodeByte v, c ∈ hextable := by decide

theorem hexEncodeByte_length (v : Byte) : (hexEncodeByte v).length = 2 := rfl

theorem length_flatMap_hexEncodeByte (src : List Byte) :
    (src.flatMap hexEncodeByte).length = 2 * src.length := by
  induction src with
  | nil => rfl
  | cons v vs ih =>
    rw [List.flatMap_cons, List.length_append, ih, hexEncodeByte_length, List.length_cons]
    omega

theorem mem_goMapKeys_delete {κ ν : Type} [DecidableEq κ] (m : List (κ × ν)) (k k' : κ) :
    k' ∈ goMapKeys (goMapDelete m k) ↔ k' ∈ goMapKeys m ∧ k' ≠ k := by
  simp only [goMapKeys, goMapDelete, List.mem_map, List.mem_filter, decide_eq_true_eq]
  constructor
  · rintro ⟨e, ⟨he, hne⟩, rfl⟩
    exact ⟨⟨e, he, rfl⟩, hne⟩
  · rintro ⟨⟨e, he, rfl⟩, hne⟩
    exact ⟨e, ⟨he, hne⟩, rfl⟩

theorem mem_goMapKeys_set {κ ν : Type} [DecidableEq κ] (m : List (κ × ν)) (k k' : κ) (v : ν) :
    k' ∈ goMapKeys (goMapSet m k v) ↔ k' ∈ goMapKeys m ∨ k' = k := by
  have h := mem_goMapKeys_delete m k k'
  simp only [goMapKeys] at h
  simp only [goMapSet, goMapKeys, List.map_append, List.mem_append, h, List.map_cons,
    List.map_nil, List.mem_singleton]
  constructor
  · rintro (⟨h1, _⟩ | h1)
    · exact Or.inl h1
    · exact Or.inr h1
  · rintro (h1 | h1)
    · by_cases hk : k' = k
      · exact Or.inr hk
      · exact Or.inl ⟨h1, hk⟩
    · exact Or.inr h1

theorem goMapDelete_of_not_mem {κ ν : Type} [DecidableEq κ] (m : List (κ × ν)) (k : κ)
    (h : k ∉ goMapKeys m) : goMapDelete m k = m := by
  unfold goMapDelete
  rw [List.filter_eq_self]
  intro e he
  simp only [decide_eq_true_eq]
  intro hk
  exact h (List.mem_map.mpr ⟨e, he, hk⟩)

theorem goMapDelete_set {κ ν : Type} [DecidableEq κ] (m : List (κ × ν)) (k : κ) (v : ν) :
    goMapDelete (goMapSet m k v) k = goMapDelete m k := by
  simp [goMapSet, goMapDelete, List.filter_append, List.filter_filter]

theorem tick_facts (t u : Nat) :
    (Tick.Before t u = true ↔ t < u) ∧ (Tick.After t u = true ↔ t > u) ∧
    ((Tick.Before t u = true ∧ Tick.After t u = false ∧ t ≠ u) ∨
      (Tick.Before t u = false ∧ Tick.After t u = true ∧ t ≠ u) ∨
      (Tick.Before t u = false ∧ Tick.After t u = false ∧ t = u)) ∧
    (Tick.Before t u = Tick.After u t) ∧
    (t < 2 ^ 64 - 1 →
      Now (doTick_step t) = Now t + 1 ∧ Tick.Before (Now t) (Now (doTick_step t)) = true) := by
  have hb : Tick.Before t u = true ↔ t < u := by simp [Tick.Before]
  have ha : Tick.After t u = true ↔ t > u := by simp [Tick.After]
  have hb' : Tick.Before t u = false ↔ ¬ t < u := by simp [Tick.Before]
  have ha' : Tick.After t u = false ↔ ¬ t > u := by simp [Tick.After]
  refine ⟨hb, ha, ?_, ?_, ?_⟩
  · rcases Nat.lt_trichotomy t u with h | h | h
    · exact Or.inl ⟨hb.mpr h, ha'.mpr (by omega), by omega⟩
    · exact Or.inr (Or.inr ⟨hb'.mpr (by omega), ha'.mpr (by omega), h⟩)
    · exact Or.inr (Or.inl ⟨hb'.mpr (by omega), ha.mpr h, by omega⟩)
  · simp only [Tick.Before, Tick.After, gt_iff_lt]
  · intro h
    have hstep : doTick_step t = t + 1 := by
      unfold doTick_step
      exact Nat.mod_eq_of_lt (by omega)
    have hlt : t < t + 1 := by omega
    simp only [Now, hstep, Tick.Before, hlt, if_true, and_self]

/-! ## Claims, continued -/

/-- C11, as stated, fails: on the (2,2) zone that already holds the token `a`,
`AddToken(a)` followed by `DeleteToken(a)` leaves a token set without `a`, not
the set as it was. -/
theorem AddToken_DeleteToken_present_counterexample :
    tokenZone.Initialised ∧
    ∃ z1, tokenZone.AddToken 7 "a" = .ok z1 ∧
      ¬ (∀ t, t ∈ (z1.DeleteToken "a").tokens ↔ t ∈ tokenZone.tokens) := by
  refine ⟨by decide, _, rfl, ?_⟩
  intro h
  have h1 : "a" ∈ tokenZone.tokens := by decide
  have h2 : "a" ∉ (Zone.DeleteToken
      { tokenZone with TokenStats := some (goMapSet [("a", ⟨0⟩)] "a" (TokenStatistic.Init 7)) }
      "a").tokens := by decide
  exact h2 ((h "a").mpr h1)

/-- C11, amended. On an initialised zone `AddToken(t)` followed by
`DeleteToken(t)` changes nothing but the token map and leaves as token set the
original set without `t`; when `t` was not in the set before, the zone is
exactly as it was before both calls. -/
theorem AddToken_DeleteToken (z : Zone) (sysTick : Tick) (t : Token) (hz : z.Initialised) :
    ∃ z1, z.AddToken sysTick t = .ok z1 ∧
      (z1.DeleteToken t) = { z with TokenStats := (z1.DeleteToken t).TokenStats } ∧
      (∀ t', t' ∈ (z1.DeleteToken t).tokens ↔ (t' ∈ z.tokens ∧ t' ≠ t)) ∧
      (t ∉ z.tokens → z1.DeleteToken t = z) := by
  obtain ⟨_, _, _, _, _, htok, _⟩ := hz
  cases hm : z.TokenStats with
  | none => rw [hm] at htok; cases htok
  | some m =>
    refine ⟨{ z with TokenStats := some (goMapSet m t (TokenStatistic.Init sysTick)) }, ?_,
      rfl, ?_, ?_⟩
    · simp [Zone.AddToken, hm]
    · intro t'
      simp only [Zone.DeleteToken, Zone.tokens, Option.map_some', hm, goMapDelete_set,
        mem_goMapKeys_delete]
    · intro hnot
      simp only [Zone.tokens, hm] at hnot
      simp only [Zone.DeleteToken, Option.map_some', goMapDelete_set,
        goMapDelete_of_not_mem m t hnot]
      cases z
      simp only at hm
      simp only [hm]

/-- C11, amended, on the (2,2) zone holding `a`: adding and deleting `b`
leaves the zone as it was, adding and deleting `a` leaves no token. -/
theorem AddToken_DeleteToken_witness :
    tokenZone.Initialised ∧ "b" ∉ tokenZone.tokens ∧
    (∃ z1, tokenZone.AddToken 7 "b" = .ok z1 ∧ z1.DeleteToken "b" = tokenZone) ∧
    (∃ z1, tokenZone.AddToken 7 "a" = .ok z1 ∧ (z1.DeleteToken "a").tokens = []) := by
  obtain ⟨z1, h1, _, _, h2⟩ := AddToken_DeleteToken tokenZone 7 "b" (by decide)
  exact ⟨by decide, by decide, ⟨z1, h1, h2 (by decide)⟩, ⟨_, rfl, by decide⟩⟩

/-- C19. For a 20-byte digest, `Generate` returns the lowercase hexadecimal
encoding of the digest's first 19 bytes: a token of exactly 38 characters,
each one of `0123456789abcdef`. -/
theorem Generate_token_shape (sha : List Byte) (hlen : sha.length = 20) :
    RandTokenGen.Generate sha = hexEncodeToString (sha.take 19) ∧
    (RandTokenGen.Generate sha).length = 38 ∧
    ∀ c ∈ (RandTokenGen.Generate sha).toList, c ∈ "0123456789abcdef".toList := by
  unfold RandTokenGen.Generate
  rw [hlen]
  refine ⟨rfl, ?_, ?_⟩
  · show (List.flatMap (sha.take 19) hexEncodeByte).length = 38
    rw [length_flatMap_hexEncodeByte, List.length_take, hlen]
    rfl
  · intro c hc
    have hc' : c ∈ List.flatMap (sha.take 19) hexEncodeByte := hc
    obtain ⟨v, _, hv⟩ := List.mem_flatMap.mp hc'
    exact hexEncodeByte_chars v c hv

/-- C19 at the digest 0x00, 0x01, ..., 0x13: the token is the encoding of the
bytes 0x00 to 0x12. -/
theorem Generate_token_shape_witness :
    ((List.range 20).map (fun n => (Fin.ofNat n : Byte))).length = 20 ∧
    RandTokenGen.Generate ((List.range 20).map (fun n => (Fin.ofNat n : Byte))) =
      "000102030405060708090a0b0c0d0e0f101112" ∧
    (RandTokenGen.Generate ((List.range 20).map (fun n => (Fin.ofNat n : Byte)))).length = 38 :=
  ⟨by rfl, by decide,
    (Generate_token_shape ((List.range 20).map (fun n => (Fin.ofNat n : Byte))) (by rfl)).2.1⟩

/-- C20. Tick comparison is the order of the unsigned integers: `Before` is
`<` and `After` is `>`, so exactly one of `t.Before(u)`, `t.After(u)`, `t = u`
holds and `t.Before(u)` is `u.After(t)`; and for a tick below `2^64 - 1` one
step of the clock task changes `Now()` from `t` to `t + 1`, which the earlier
reading is `Before`. -/
theorem Tick_order_and_step (t u : Tick) :
    (Tick.Before t u = true ↔ t < u) ∧ (Tick.After t u = true ↔ t > u) ∧
    ((Tick.Before t u = true ∧ Tick.After t u = false ∧ t ≠ u) ∨
      (Tick.Before t u = false ∧ Tick.After t u = true ∧ t ≠ u) ∨
      (Tick.Before t u = false ∧ Tick.After t u = false ∧ t = u)) ∧
    (Tick.Before t u = Tick.After u t) ∧
    (t < 2 ^ 64 - 1 →
      Now (doTick_step t) = Now t + 1 ∧ Tick.Before (Now t) (Now (doTick_step t)) = true) := by
  exact tick_facts t u

/-- C20 at the ticks 41 and 42. -/
theorem Tick_order_and_step_witness :
    Tick.Before 41 42 = true ∧ Tick.After 42 41 = true ∧ doTick_step 41 = 42 ∧
    Tick.Before 41 (doTick_step 41) = true :=
  ⟨by decide, by decide, ((Tick_order_and_step 41 42).2.2.2.2 (by decide)).1,
    ((Tick_order_and_step 41 42).2.2.2.2 (by decide)).2⟩

/-! ## Go maps -/

theorem goMapGet_mem {κ ν : Type} [DecidableEq κ] {m : List (κ × ν)} {k : κ} {v : ν}
    (h : goMapGet m k = some v) : (k, v) ∈ m := by
  unfold goMapGet at h
  cases hf : m.find? (fun e => decide (e.1 = k)) with
  | none => rw [hf] at h; cases h
  | some e =>
    rw [hf] at h
    have hk : e.1 = k := by simpa using List.find?_some hf
    have hv : e.2 = v := by simpa using h
    have hmem := List.mem_of_find?_eq_some hf
    rw [← hk, ← hv]
    exact hmem

theorem goMapGet_delete_ne {κ ν : Type} [DecidableEq κ] (m : List (κ × ν)) {k k' : κ}
    (h : k' ≠ k) : goMapGet (goMapDelete m k) k' = goMapGet m k' := by
  unfold goMapGet goMapDelete
  rw [List.find?_filter]
  congr 2
  funext e
  by_cases he : e.1 = k'
  · have hne : ¬ e.1 = k := fun h' => h (he.symm.trans h')
    simp [he, hne]
    exact fun h' => hne (he.trans h')
  · simp [he]

theorem goMapGet_delete_self {κ ν : Type} [DecidableEq κ] (m : List (κ × ν)) (k : κ) :
    goMapGet (goMapDelete m k) k = none := by
  unfold goMapGet goMapDelete
  rw [Option.map_eq_none', List.find?_eq_none]
  intro e he
  have := (List.mem_filter.mp he).2
  simpa using this

theorem goMapGet_set_self {κ ν : Type} [DecidableEq κ] (m : List (κ × ν)) (k : κ) (v : ν) :
    goMapGet (goMapSet m k v) k = some v := by
  have h := goMapGet_delete_self m k
  unfold goMapGet at h ⊢
  rw [Option.map_eq_none'] at h
  unfold goMapSet
  rw [List.find?_append, h]
  simp

theorem goMapGet_set_ne {κ ν : Type} [DecidableEq κ] (m : List (κ × ν)) {k k' : κ} (v : ν)
    (h : k' ≠ k) : goMapGet (goMapSet m k v) k' = goMapGet m k' := by
  rw [← goMapGet_delete_ne m h]
  unfold goMapGet goMapSet
  rw [List.find?_append]
  have hk : ¬ k = k' := fun h' => h h'.symm
  cases List.find? (fun e => decide (e.1 = k')) (goMapDelete m k) <;> simp [hk]

/-! ## Admission control -/

theorem recordIPStatistic_present {maxChallenges : Int} {w : IPWorld} {a : String} {p : Nat}
    (h : goMapGet w.ipStatistics a = some p) :
    recordIPStatistic maxChallenges w a = (w, some p) := by
  simp [recordIPStatistic, lookupIPStatistic, h]

theorem recordIPStatistic_absent {maxChallenges : Int} {w : IPWorld} {a : String}
    (h : goMapGet w.ipStatistics a = none) :
    recordIPStatistic maxChallenges w a =
      ({ heap := w.heap ++ [IPStatistic.Init maxChallenges],
         ipStatistics := goMapSet w.ipStatistics a w.heap.length }, some w.heap.length) := by
  simp [recordIPStatistic, lookupIPStatistic, h, addIPStatistic]

/-- The counter `prepare` reads: the stored one for a known address, a fresh
one equal to `maxChallenges` for a new address. -/
theorem recordIPStatistic_challenges (maxChallenges : Int) (w : IPWorld) (a : String)
    (hw : w.WellFormed) :
    ∃ c, (recordIPStatistic maxChallenges w a).1.GetChallenges
        (recordIPStatistic maxChallenges w a).2 = .ok c ∧
      (goMapGet w.ipStatistics a = none → c = maxChallenges) ∧
      (∀ p, goMapGet w.ipStatistics a = some p → w.GetChallenges (some p) = .ok c) := by
  cases h : goMapGet w.ipStatistics a with
  | none =>
    rw [recordIPStatistic_absent h]
    refine ⟨maxChallenges, ?_, fun _ => rfl, fun p hp => by cases hp⟩
    simp [IPWorld.GetChallenges, IPStatistic.Init]
  | some p =>
    rw [recordIPStatistic_present h]
    have hlt : p < w.heap.length := hw _ (goMapGet_mem h)
    refine ⟨w.heap[p].Challenges, ?_, fun h' => (by cases h'), ?_⟩
    · simp [IPWorld.GetChallenges, List.getElem?_eq_getElem hlt]
    · intro q hq
      cases hq
      simp [IPWorld.GetChallenges, List.getElem?_eq_getElem hlt]

theorem Atoi_ne_new (a msg : String) : Atoi a ≠ .error (.new msg) := by
  intro h
  unfold Atoi at h
  simp only [] at h
  split_ifs at h <;> cases h

theorem parseLiteralMap_loop_ne_new (lMap : List (String × String)) (template : List String) :
    ∀ (vMap : List (String × FormValue)) (msg : String),
      parseLiteralMap_loop lMap template vMap ≠ .ok (.error (.new msg)) := by
  induction template with
  | nil =>
    intro vMap msg h
    simp [parseLiteralMap_loop] at h
  | cons t ts ih =>
    intro vMap msg h
    unfold parseLiteralMap_loop at h
    repeat' split at h
    all_goals first
      | exact ih _ _ h
      | (simp at h; done)
      | (injection h with h
         injection h with h
         subst h
         exact Atoi_ne_new _ _ (by assumption))

theorem parseForm_ne_new (form : Form) (template : List String) (msg : String) :
    parseForm form template ≠ .ok (.error (.new msg)) := by
  unfold parseForm
  split
  · simp
  · exact parseLiteralMap_loop_ne_new _ _ _ _

/-- The admission check of `prepare`: the "max challenges" error is returned
exactly when the counter it reads is above `maxChallenges`, and the state it
leaves is the one `recordIPStatistic` leaves. -/
theorem prepare_rejects_iff (maxChallenges : Int) (w : IPWorld) (a : String)
    (parsed : Except String Form) (template : List String) (hw : w.WellFormed) :
    ∃ c, (recordIPStatistic maxChallenges w a).1.GetChallenges
        (recordIPStatistic maxChallenges w a).2 = .ok c ∧
      (goMapGet w.ipStatistics a = none → c = maxChallenges) ∧
      (∀ p, goMapGet w.ipStatistics a = some p → w.GetChallenges (some p) = .ok c) ∧
      (prepare maxChallenges w a parsed template).1 = (recordIPStatistic maxChallenges w a).1 ∧
      ((prepare maxChallenges w a parsed template).2 = .ok (.error (.new "max challenges")) ↔
        c > maxChallenges) := by
  obtain ⟨c, hc, hfresh, hold⟩ := recordIPStatistic_challenges maxChallenges w a hw
  refine ⟨c, hc, hfresh, hold, ?_, ?_⟩
  · unfold prepare
    simp only [hc]
    split <;> try rfl
    split <;> rfl
  · unfold prepare
    simp only [hc]
    by_cases hgt : c > maxChallenges
    · simp [hgt]
    · simp only [hgt, if_false, iff_false]
      cases parsed with
      | error msg => simp
      | ok form => exact parseForm_ne_new form template _

/-- A known address whose counter is at or below zero passes the admission
check of `prepare` for every `maxChallenges ≥ 0`. -/
theorem prepare_admits_exhausted (maxChallenges : Int) (w : IPWorld) (a : String)
    (parsed : Except String Form) (template : List String) (hw : w.WellFormed)
    (hmax : 0 ≤ maxChallenges) (p : Nat) (c : Int)
    (hp : goMapGet w.ipStatistics a = some p) (hc : w.GetChallenges (some p) = .ok c)
    (hle : c ≤ 0) :
    (prepare maxChallenges w a parsed template).2 ≠ .ok (.error (.new "max challenges")) := by
  obtain ⟨c', _, _, hold, _, hiff⟩ := prepare_rejects_iff maxChallenges w a parsed template hw
  have := hold p hp
  rw [hc] at this
  cases this
  intro h
  have := hiff.mp h
  omega

theorem splitOnColon_append (cs rest : List Char) (h : ':' ∉ cs) :
    splitOnColon (cs ++ ':' :: rest) = cs :: splitOnColon rest := by
  induction cs with
  | nil => simp [splitOnColon]
  | cons c cs ih =>
    have hc : c ≠ ':' := fun hc => h (by rw [hc]; exact List.mem_cons_self _ _)
    have hcs : ':' ∉ cs := fun h' => h (List.mem_cons_of_mem _ h')
    have ih' := ih hcs
    show splitOnColon (c :: (cs ++ ':' :: rest)) = (c :: cs) :: splitOnColon rest
    rw [splitOnColon, if_neg hc, ih']

/-- The pass of the loop of `parseLiteralMap` over a field `name:u8`: the
literal goes through `strconv.Atoi` and the integer is converted with
`uint8(val)`; nothing compares it with 0 or 255. -/
theorem parseLiteralMap_loop_u8 (lMap : List (String × String)) (name a : String)
    (ts : List String) (vMap : List (String × FormValue)) (hname : ':' ∉ name.toList)
    (ha : goMapGet lMap name = some a) :
    parseLiteralMap_loop lMap ((name ++ ":u8") :: ts) vMap =
      match Atoi a with
      | .error err => .ok (.error err)
      | .ok val => parseLiteralMap_loop lMap ts (goMapSet vMap name (.u8 (intToUint8 val))) := by
  have hsplit : splitOnColon (name ++ ":u8").toList = [name.toList, ['u', '8']] := by
    have : (name ++ ":u8").toList = name.toList ++ ':' :: ['u', '8'] := by
      simp [String.toList, String.data_append]
    rw [this, splitOnColon_append _ _ hname]
    rfl
  have hmk : String.mk name.toList = name := rfl
  rw [parseLiteralMap_loop, hsplit]
  simp only [hmk, ha]
  have h1 : ¬ (['u', '8'] = "s".toList) := by decide
  have h2 : ¬ (['u', '8'] = "i".toList) := by decide
  have h3 : ['u', '8'] = "u8".toList := by decide
  rw [if_neg h1, if_neg h2, if_pos h3]

theorem intToUint8_val (v : Int) : ((intToUint8 v).val : Int) = v % 256 := by
  unfold intToUint8
  have h0 : 0 ≤ v % 256 := Int.emod_nonneg v (by decide)
  have h1 : v % 256 < 256 := Int.emod_lt_of_pos v (by decide)
  have h2 : (v % 256).toNat < 256 := by omega
  simp only [Fin.ofNat, Nat.mod_eq_of_lt h2]
  omega

/-- C13, the failing input: with `maxChallenges = 3` the client of the
scenario has a counter decremented to 0. `prepare` reads that stored counter
and returns the parsed (empty) form, not the "max challenges" error, leaving
the state as it was; the sibling check in `serveWS` turns the same client
away. -/
theorem prepare_admits_exhausted_budget :
    exhaustedWorld.WellFormed ∧
    recordIPStatistic 3 exhaustedWorld clientAddr = (exhaustedWorld, some 0) ∧
    exhaustedWorld.GetChallenges (some 0) = .ok 0 ∧
    prepare 3 exhaustedWorld clientAddr (.ok []) [] = (exhaustedWorld, .ok (.ok [])) ∧
    serveWS_admission 3 exhaustedWorld clientAddr = (exhaustedWorld, .ok false) := by
  refine ⟨by decide, by rfl, by rfl, by rfl, by rfl⟩

/-- C14. The admission check of `prepare` returns the "max challenges" error
exactly when the counter of the caller's record is above `maxChallenges`; for
an address not yet in the registry the record is fresh, its counter equals
`maxChallenges`, and the request is not rejected. -/
theorem prepare_rejects_exactly_above_max (maxChallenges : Int) (w : IPWorld) (a : String)
    (parsed : Except String Form) (template : List String) (hw : w.WellFormed) :
    ∃ c, (recordIPStatistic maxChallenges w a).1.GetChallenges
        (recordIPStatistic maxChallenges w a).2 = .ok c ∧
      ((prepare maxChallenges w a parsed template).2 = .ok (.error (.new "max challenges")) ↔
        c > maxChallenges) ∧
      (goMapGet w.ipStatistics a = none →
        c = maxChallenges ∧
        (prepare maxChallenges w a parsed template).2 ≠
          .ok (.error (.new "max challenges"))) := by
  obtain ⟨c, hc, hfresh, _, _, hiff⟩ := prepare_rejects_iff maxChallenges w a parsed template hw
  refine ⟨c, hc, hiff, fun hnone => ⟨hfresh hnone, fun h => ?_⟩⟩
  have h1 := hiff.mp h
  have h2 := hfresh hnone
  omega

/-- C14 on the empty registry with `maxChallenges = 3`: the first request of
the client is not rejected, and the record created for it holds 3. -/
theorem prepare_rejects_exactly_above_max_witness :
    IPWorld.empty.WellFormed ∧
    prepare 3 IPWorld.empty clientAddr (.ok []) [] =
      (⟨[⟨3⟩], [(clientAddr, 0)]⟩, .ok (.ok [])) ∧
    ∃ c, (recordIPStatistic 3 IPWorld.empty clientAddr).1.GetChallenges
        (recordIPStatistic 3 IPWorld.empty clientAddr).2 = .ok c ∧ c = 3 := by
  obtain ⟨c, hc, _, hfresh⟩ :=
    prepare_rejects_exactly_above_max 3 IPWorld.empty clientAddr (.ok []) [] (by decide)
  exact ⟨by decide, by rfl, c, hc, (hfresh (by rfl)).1⟩

/-- C15. For a known address `recordIPStatistic` returns the stored pointer
and leaves the state as it is, counters included; for a new address it returns
a newly allocated record whose counter is `maxChallenges`, stores it under the
address, and leaves the entries of all other addresses and all earlier records
as they were; a second call returns the same pointer and changes nothing. -/
theorem recordIPStatistic_spec (maxChallenges : Int) (w : IPWorld) (a : String) :
    (∀ p, goMapGet w.ipStatistics a = some p →
      recordIPStatistic maxChallenges w a = (w, some p)) ∧
    (goMapGet w.ipStatistics a = none →
      (recordIPStatistic maxChallenges w a).2 = some w.heap.length ∧
      (recordIPStatistic maxChallenges w a).1.GetChallenges (some w.heap.length) =
        .ok maxChallenges ∧
      goMapGet (recordIPStatistic maxChallenges w a).1.ipStatistics a = some w.heap.length ∧
      (∀ b, b ≠ a → goMapGet (recordIPStatistic maxChallenges w a).1.ipStatistics b =
        goMapGet w.ipStatistics b) ∧
      (∀ i, i < w.heap.length →
        (recordIPStatistic maxChallenges w a).1.heap[i]? = w.heap[i]?)) ∧
    recordIPStatistic maxChallenges (recordIPStatistic maxChallenges w a).1 a =
      recordIPStatistic maxChallenges w a := by
  refine ⟨fun p hp => recordIPStatistic_present hp, ?_, ?_⟩
  · intro hnone
    rw [recordIPStatistic_absent hnone]
    refine ⟨rfl, ?_, goMapGet_set_self _ _ _, fun b hb => goMapGet_set_ne _ _ hb, ?_⟩
    · simp [IPWorld.GetChallenges, IPStatistic.Init]
    · intro i hi
      exact List.getElem?_append_left hi
  · cases h : goMapGet w.ipStatistics a with
    | some p =>
      rw [recordIPStatistic_present h]
      exact recordIPStatistic_present h
    | none =>
      rw [recordIPStatistic_absent h]
      exact recordIPStatistic_present (goMapGet_set_self _ _ _)

/-- C15 on the registry of the scenario: the known client gets its stored
record, counter 0, and a new address gets a fresh record with counter 3 while
the known client's entry stays. -/
theorem recordIPStatistic_spec_witness :
    recordIPStatistic 3 exhaustedWorld clientAddr = (exhaustedWorld, some 0) ∧
    recordIPStatistic 3 exhaustedWorld "198.51.100.2:80" =
      (⟨[⟨0⟩, ⟨3⟩], [(clientAddr, 0), ("198.51.100.2:80", 1)]⟩, some 1) ∧
    recordIPStatistic 3 (recordIPStatistic 3 exhaustedWorld "198.51.100.2:80").1
      "198.51.100.2:80" = recordIPStatistic 3 exhaustedWorld "198.51.100.2:80" :=
  ⟨(recordIPStatistic_spec 3 exhaustedWorld clientAddr).1 0 (by rfl), by rfl,
    (recordIPStatistic_spec 3 exhaustedWorld "198.51.100.2:80").2.2⟩

/-- C18, as stated, fails: for the field `r:u8` the literal `300` is accepted
and gives 44, and the literal `-1` is accepted and gives 255, though `Atoi`
reads them as 300 and -1, outside 0..255. -/
theorem parseLiteralMap_u8_range_counterexample :
    Atoi "300" = .ok 300 ∧
    parseLiteralMap [("r", "300")] ["r:u8"] = .ok (.ok [("r", .u8 44)]) ∧
    Atoi "-1" = .ok (-1) ∧
    parseLiteralMap [("r", "-1")] ["r:u8"] = .ok (.ok [("r", .u8 255)]) := by
  refine ⟨by rfl, by rfl, by rfl, by rfl⟩

/-- C18, amended. For a field `name:u8` whose literal is `a`, `parseLiteralMap`
returns a value exactly when `strconv.Atoi` accepts `a`, and the value is that
integer reduced modulo 256, which is the integer itself when it lies in
0..255; when `Atoi` rejects `a`, its error is returned. The same holds for the
field at any place of a longer template. -/
theorem parseLiteralMap_u8 (name a : String) (hname : ':' ∉ name.toList) :
    (∀ v, Atoi a = .ok v →
      parseLiteralMap [(name, a)] [name ++ ":u8"] = .ok (.ok [(name, .u8 (intToUint8 v))]) ∧
      ((intToUint8 v).val : Int) = v % 256 ∧
      (0 ≤ v → v ≤ 255 → ((intToUint8 v).val : Int) = v)) ∧
    (∀ err, Atoi a = .error err →
      parseLiteralMap [(name, a)] [name ++ ":u8"] = .ok (.error err)) ∧
    (∀ (lMap : List (String × String)) (ts : List String) (vMap : List (String × FormValue)),
      goMapGet lMap name = some a →
      parseLiteralMap_loop lMap ((name ++ ":u8") :: ts) vMap =
        match Atoi a with
        | .error err => .ok (.error err)
        | .ok val =>
          parseLiteralMap_loop lMap ts (goMapSet vMap name (.u8 (intToUint8 val)))) := by
  have hget : goMapGet [(name, a)] name = some a := by simp [goMapGet]
  have hstep := parseLiteralMap_loop_u8 [(name, a)] name a [] [] hname hget
  refine ⟨?_, ?_, fun lMap ts vMap ha => parseLiteralMap_loop_u8 lMap name a ts vMap hname ha⟩
  · intro v hv
    refine ⟨?_, intToUint8_val v, fun h0 h1 => ?_⟩
    · unfold parseLiteralMap
      rw [hstep, hv]
      rfl
    · rw [intToUint8_val]
      exact Int.emod_eq_of_lt h0 (by omega)
  · intro err he
    unfold parseLiteralMap
    rw [hstep, he]

/-- C18, amended, on the literals `255`, `256` and `abc` of the field `a`. -/
theorem parseLiteralMap_u8_witness :
    ':' ∉ "a".toList ∧
    parseLiteralMap [("a", "255")] ["a" ++ ":u8"] = .ok (.ok [("a", .u8 255)]) ∧
    parseLiteralMap [("a", "256")] ["a" ++ ":u8"] = .ok (.ok [("a", .u8 0)]) ∧
    parseLiteralMap [("a", "abc")] ["a" ++ ":u8"] = .ok (.error (.atoiInvalid "abc")) :=
  ⟨by decide, ((parseLiteralMap_u8 "a" "255" (by decide)).1 255 (by rfl)).1,
    ((parseLiteralMap_u8 "a" "256" (by decide)).1 256 (by rfl)).1,
    (parseLiteralMap_u8 "a" "abc" (by decide)).2.1 _ (by rfl)⟩

/-! ## The zone invariant -/

theorem foldlM_preserves {σ κ : Type} (step : σ → κ → Except Panic σ) (Inv : σ → Prop)
    (hstep : ∀ s k s', Inv s → step s k = .ok s' → Inv s') :
    ∀ (ks : List κ) (s s' : σ), Inv s → ks.foldlM step s = .ok s' → Inv s' := by
  intro ks
  induction ks with
  | nil =>
    intro s s' hs h
    cases h
    exact hs
  | cons k ks ih =>
    intro s s' hs h
    rw [List.foldlM_cons] at h
    cases h1 : step s k with
    | error e => rw [h1] at h; cases h
    | ok s1 =>
      rw [h1] at h
      exact ih s1 s' (hstep s k s1 hs h1) h

theorem loadPixel_shaped {m m' : List (List Color)} {w h : Nat} (hs : Shaped m w h)
    {p : RGBAImage} {x y : Int} (hl : loadPixel p m x y = .ok m') : Shaped m' w h := by
  unfold loadPixel at hl
  cases hat : p.RGBAAt x y with
  | error e => rw [hat] at hl; cases hl
  | ok c =>
    rw [hat] at hl
    simp only [bind, Except.bind, RGBAColor.RGBA] at hl
    split at hl
    · cases hl
      exact hs
    · exact hs.assign_shaped hl

theorem Zone.doDrawPoints_case_initialised {z z' : Zone} {r : DrawRequest}
    (hz : z.Initialised) (h : z.doDrawPoints_case r = .ok z') :
    z'.Initialised ∧ z'.Size = z.Size ∧ z'.Range = z.Range := by
  have hs := hz.shaped
  obtain ⟨hX, hY, hR, _, _, hT, hC⟩ := hz
  unfold Zone.doDrawPoints_case at h
  split at h
  · cases h
    exact ⟨⟨hX, hY, hR, hs.1, hs.2, hT, hC⟩, rfl, rfl⟩
  · cases ha : assignCell z.Map r.Point.X r.Point.Y r.Color with
    | error e => rw [ha] at h; cases h
    | ok m =>
      rw [ha] at h
      cases h
      have hs' := hs.assign_shaped ha
      exact ⟨⟨hX, hY, hR, hs'.1, hs'.2, hT, hC⟩, rfl, rfl⟩

theorem Zone.LoadImage_initialised {z z' : Zone} {img : Image} {err : Option String}
    (hz : z.Initialised) (h : z.LoadImage img = .ok (z', err)) :
    z'.Initialised ∧ z'.Size = z.Size ∧ z'.Range = z.Range := by
  have hs := hz.shaped
  obtain ⟨hX, hY, hR, _, _, hT, hC⟩ := hz
  unfold Zone.LoadImage at h
  split at h
  · cases h
    exact ⟨⟨hX, hY, hR, hs.1, hs.2, hT, hC⟩, rfl, rfl⟩
  · rename_i p
    split at h
    · cases h
      exact ⟨⟨hX, hY, hR, hs.1, hs.2, hT, hC⟩, rfl, rfl⟩
    · cases hf : (upTo z.Range.X).foldlM (fun m x =>
          (upTo z.Range.Y).foldlM (fun m y => loadPixel p m x y) m) z.Map with
      | error e =>
        rw [hf] at h
        cases h
      | ok m =>
        rw [hf] at h
        cases h
        have hs' : Shaped m z.Size.X.toNat z.Size.Y.toNat :=
          foldlM_preserves _ (fun m => Shaped m z.Size.X.toNat z.Size.Y.toNat)
            (fun m0 x m1 h0 h1 =>
              foldlM_preserves _ (fun m => Shaped m z.Size.X.toNat z.Size.Y.toNat)
                (fun _ _ _ h2 h3 => loadPixel_shaped h2 h3) _ m0 m1 h0 h1)
            _ z.Map m hs hf
        exact ⟨⟨hX, hY, hR, hs'.1, hs'.2, hT, hC⟩, rfl, rfl⟩

/-- One operation that returns keeps an initialised zone initialised, with the
same `Size` and `Range`. -/
theorem Zone.apply_initialised {z z' : Zone} {op : ZoneOp} (hz : z.Initialised)
    (h : z.apply op = .ok z') : z'.Initialised ∧ z'.Size = z.Size ∧ z'.Range = z.Range := by
  cases op with
  | addToken sysTick token =>
    obtain ⟨hX, hY, hR, hL, hC, hT, hQ⟩ := hz
    simp only [Zone.apply, Zone.AddToken] at h
    split at h
    · cases h
    · cases h
      exact ⟨⟨hX, hY, hR, hL, hC, rfl, hQ⟩, rfl, rfl⟩
  | deleteToken token =>
    obtain ⟨hX, hY, hR, hL, hC, hT, hQ⟩ := hz
    simp only [Zone.apply] at h
    cases h
    refine ⟨⟨hX, hY, hR, hL, hC, ?_, hQ⟩, rfl, rfl⟩
    simp only [Zone.DeleteToken, Option.isSome_map']
    exact hT
  | updatePrivilegedToken token =>
    simp only [Zone.apply] at h
    cases h
    exact ⟨hz, rfl, rfl⟩
  | draw r => exact Zone.doDrawPoints_case_initialised hz h
  | loadImage img =>
    simp only [Zone.apply] at h
    cases hl : z.LoadImage img with
    | error e => rw [hl] at h; cases h
    | ok res =>
      rw [hl] at h
      cases h
      exact Zone.LoadImage_initialised hz hl
  | genImage =>
    simp only [Zone.apply] at h
    cases hg : z.GenImage with
    | error e => rw [hg] at h; cases h
    | ok img =>
      rw [hg] at h
      cases h
      exact ⟨hz, rfl, rfl⟩
  | close =>
    obtain ⟨hX, hY, hR, hL, hC, hT, hQ⟩ := hz
    simp only [Zone.apply, Zone.Close] at h
    split at h
    · cases h
    · split at h
      · cases h
      · cases h
        exact ⟨⟨hX, hY, hR, hL, hC, hT, rfl⟩, rfl, rfl⟩

/-- An admissible operation on an initialised zone returns. -/
theorem Zone.apply_ok (z : Zone) (op : ZoneOp) (hz : z.Initialised) (ha : op.Admissible z) :
    ∃ z', z.apply op = .ok z' := by
  cases op with
  | addToken sysTick token =>
    have hT := hz.2.2.2.2.2.1
    cases hm : z.TokenStats with
    | none => rw [hm] at hT; cases hT
    | some m =>
      simp only [Zone.apply, Zone.AddToken, hm]
      exact ⟨_, rfl⟩
  | deleteToken token => exact ⟨_, rfl⟩
  | updatePrivilegedToken token => exact ⟨_, rfl⟩
  | draw r =>
    obtain ⟨z', h, _⟩ := z.doDrawPoints_case_spec hz r ha
    exact ⟨z', h⟩
  | loadImage img =>
    cases img with
    | other b => exact ⟨z, rfl⟩
    | rgba p =>
      cases hfit : p.Rect.Size.Greater z.Size
      · obtain ⟨m', hload, _, _⟩ := Zone.LoadImage_spec z hz p ha hfit
        exact ⟨_, by simp only [Zone.apply, hload]; rfl⟩
      · exact ⟨z, by simp [Zone.apply, Zone.LoadImage, hfit, Except.map]⟩
  | genImage =>
    obtain ⟨img, himg, _⟩ := z.GenImage_spec hz
    exact ⟨z, by simp only [Zone.apply, himg]; rfl⟩
  | close =>
    have hQ := hz.2.2.2.2.2.2
    cases hq : z.ReqChan with
    | none => rw [hq] at hQ; cases hQ
    | some ch =>
      have hopen : ch.closed = false := ha ch (by rw [hq]; exact rfl)
      simp only [Zone.apply, Zone.Close, hq, hopen, Bool.false_eq_true, if_false]
      exact ⟨_, rfl⟩

/-! ## Token calls and export -/

theorem Zone.mem_tokens_AddToken {z z1 : Zone} {sysTick : Tick} {t0 : Token}
    (h : z.AddToken sysTick t0 = .ok z1) (t : Token) :
    t ∈ z1.tokens ↔ t ∈ z.tokens ∨ t = t0 := by
  unfold Zone.AddToken at h
  cases hm : z.TokenStats with
  | none => rw [hm] at h; cases h
  | some m =>
    rw [hm] at h
    cases h
    simp only [Zone.tokens, hm, mem_goMapKeys_set]

theorem Zone.mem_tokens_DeleteToken (z : Zone) (t0 t : Token) :
    t ∈ (z.DeleteToken t0).tokens ↔ t ∈ z.tokens ∧ t ≠ t0 := by
  cases hm : z.TokenStats with
  | none => simp [Zone.tokens, Zone.DeleteToken, hm]
  | some m => simp only [Zone.tokens, Zone.DeleteToken, hm, Option.map_some', mem_goMapKeys_delete]

theorem Zone.applyTokenOp_initialised {z z' : Zone} {op : TokenOp} (hz : z.Initialised)
    (h : z.applyTokenOp op = .ok z') :
    z'.Initialised ∧ z'.PrivilegedToken = z.PrivilegedToken := by
  cases op with
  | add sysTick token =>
    have h' : z.apply (.addToken sysTick token) = .ok z' := h
    refine ⟨(Zone.apply_initialised hz h').1, ?_⟩
    simp only [Zone.applyTokenOp, Zone.AddToken] at h
    split at h
    · cases h
    · cases h; rfl
  | delete token =>
    have h' : z.apply (.deleteToken token) = .ok z' := h
    refine ⟨(Zone.apply_initialised hz h').1, ?_⟩
    cases h
    rfl

/-- A sequence of token calls on an initialised zone returns and leaves the
tokens the zone held before and none of the calls deleted, and the tokens some
call added and no later call deleted. -/
theorem Zone.applyTokenOps_tokens (ops : List TokenOp) :
    ∀ z : Zone, z.Initialised →
      ∃ z', z.applyTokenOps ops = .ok z' ∧ z'.Initialised ∧
        z'.PrivilegedToken = z.PrivilegedToken ∧
        ∀ t, t ∈ z'.tokens ↔
          ((t ∈ z.tokens ∧ TokenOp.delete t ∉ ops) ∨
            ∃ pre post sysTick, ops = pre ++ TokenOp.add sysTick t :: post ∧
              TokenOp.delete t ∉ post) := by
  induction ops with
  | nil =>
    intro z hz
    refine ⟨z, rfl, hz, rfl, fun t => ⟨fun h => Or.inl ⟨h, by simp⟩, ?_⟩⟩
    rintro (⟨h, _⟩ | ⟨pre, post, sysTick, h, _⟩)
    · exact h
    · cases pre <;> cases h
  | cons op ops ih =>
    intro z hz
    have hok : ∃ z1, z.applyTokenOp op = .ok z1 := by
      cases op with
      | add sysTick token => exact z.apply_ok (.addToken sysTick token) hz trivial
      | delete token => exact ⟨_, rfl⟩
    obtain ⟨z1, h1⟩ := hok
    obtain ⟨hz1, hp1⟩ := Zone.applyTokenOp_initialised hz h1
    obtain ⟨z', h', hz', hp', hmem⟩ := ih z1 hz1
    refine ⟨z', ?_, hz', hp'.trans hp1, ?_⟩
    · unfold Zone.applyTokenOps at h' ⊢
      rw [List.foldlM_cons, h1]
      exact h'
    · intro t
      rw [hmem t]
      cases op with
      | add sysTick t0 =>
        have hadd := Zone.mem_tokens_AddToken h1 t
        constructor
        · rintro (⟨hin, hnd⟩ | ⟨pre, post, s, hsplit, hnd⟩)
          · rcases hadd.mp hin with hin' | rfl
            · refine Or.inl ⟨hin', ?_⟩
              intro hm
              rcases List.mem_cons.mp hm with hm | hm
              · cases hm
              · exact hnd hm
            · exact Or.inr ⟨[], ops, sysTick, rfl, hnd⟩
          · exact Or.inr ⟨TokenOp.add sysTick t0 :: pre, post, s, by rw [hsplit]; rfl, hnd⟩
        · rintro (⟨hin, hnd⟩ | ⟨pre, post, s, hsplit, hnd⟩)
          · exact Or.inl ⟨hadd.mpr (Or.inl hin), fun hm => hnd (List.mem_cons_of_mem _ hm)⟩
          · cases pre with
            | nil =>
              simp only [List.nil_append, List.cons.injEq, TokenOp.add.injEq] at hsplit
              obtain ⟨⟨_, rfl⟩, rfl⟩ := hsplit
              exact Or.inl ⟨hadd.mpr (Or.inr rfl), hnd⟩
            | cons q pre =>
              simp only [List.cons_append, List.cons.injEq] at hsplit
              exact Or.inr ⟨pre, post, s, hsplit.2, hnd⟩
      | delete t0 =>
        have hz1eq : z1 = z.DeleteToken t0 := by
          simp only [Zone.applyTokenOp] at h1
          cases h1
          rfl
        have hdel := Zone.mem_tokens_DeleteToken z t0 t
        rw [← hz1eq] at hdel
        constructor
        · rintro (⟨hin, hnd⟩ | ⟨pre, post, s, hsplit, hnd⟩)
          · obtain ⟨hin', hne⟩ := hdel.mp hin
            refine Or.inl ⟨hin', ?_⟩
            intro hm
            rcases List.mem_cons.mp hm with hm | hm
            · simp only [TokenOp.delete.injEq] at hm
              exact hne hm
            · exact hnd hm
          · exact Or.inr ⟨TokenOp.delete t0 :: pre, post, s, by rw [hsplit]; rfl, hnd⟩
        · rintro (⟨hin, hnd⟩ | ⟨pre, post, s, hsplit, hnd⟩)
          · refine Or.inl ⟨hdel.mpr ⟨hin, ?_⟩, fun hm => hnd (List.mem_cons_of_mem _ hm)⟩
            intro hEq
            exact hnd (by rw [hEq]; exact List.mem_cons_self _ _)
          · cases pre with
            | nil =>
              simp only [List.nil_append, List.cons.injEq] at hsplit
              cases hsplit.1
            | cons q pre =>
              simp only [List.cons_append, List.cons.injEq] at hsplit
              exact Or.inr ⟨pre, post, s, hsplit.2, hnd⟩

theorem linesOf_append_line (t rest : List Char) (h : '\n' ∉ t) :
    linesOf (t ++ '\n' :: rest) = t :: linesOf rest := by
  induction t with
  | nil => simp [linesOf]
  | cons c t ih =>
    have hc : c ≠ '\n' := fun e => h (by rw [e]; exact List.mem_cons_self _ _)
    have ht : '\n' ∉ t := fun e => h (List.mem_cons_of_mem _ e)
    show linesOf (c :: (t ++ '\n' :: rest)) = (c :: t) :: linesOf rest
    rw [linesOf, if_neg hc, ih ht]

/-- The listing of tokens none of which contains a newline has the tokens as
its lines, in order. -/
theorem linesOf_tokenListing (ts : List Token) (h : ∀ t ∈ ts, '\n' ∉ t.toList) :
    linesOf (tokenListing ts) = ts.map String.toList := by
  induction ts with
  | nil => rfl
  | cons t ts ih =>
    have e : tokenListing (t :: ts) = t.toList ++ '\n' :: tokenListing ts := by
      simp [tokenListing, fprintln]
    rw [e, linesOf_append_line _ _ (h t (List.mem_cons_self _ _)),
      ih (fun u hu => h u (List.mem_cons_of_mem _ hu))]
    rfl

/-- A token that contains a newline takes two lines of the listing. -/
theorem linesOf_tokenListing_newline :
    linesOf (tokenListing ["a\nb"]) = [['a'], ['b']] := by
  decide

theorem mem_map_toList (ts : List Token) (t : Token) :
    t.toList ∈ ts.map String.toList ↔ t ∈ ts := by
  constructor
  · intro h
    obtain ⟨u, hu, e⟩ := List.mem_map.mp h
    have : u = t := String.ext e
    rw [← this]
    exact hu
  · intro h
    exact List.mem_map_of_mem _ h

/-- The write loop of `export`: it returns nil exactly when every `Fprintln`
succeeds, the file then holds the listing of the tokens after what it held,
and in every case it holds a prefix of that. -/
theorem writeTokens_spec (env : ExportEnv) (ts : List Token) :
    ∀ (n : Nat) (acc : List Char),
      ((writeTokens env ts n acc).2 = none ↔ ∀ i, i < ts.length → env.write (n + i) = none) ∧
      ((writeTokens env ts n acc).2 = none →
        (writeTokens env ts n acc).1 = acc ++ tokenListing ts) ∧
      (writeTokens env ts n acc).1 <+: acc ++ tokenListing ts := by
  induction ts with
  | nil =>
    intro n acc
    simp [writeTokens, tokenListing]
  | cons t ts ih =>
    intro n acc
    have hl : acc ++ fprintln t ++ tokenListing ts = acc ++ tokenListing (t :: ts) := by
      simp [tokenListing, List.flatMap_cons]
    cases hw : env.write n with
    | some e =>
      obtain ⟨err, k⟩ := e
      have hval : writeTokens env (t :: ts) n acc = (acc ++ (fprintln t).take k, some err) := by
        rw [writeTokens, hw]
      rw [hval]
      refine ⟨⟨fun h => (by cases h), fun h => ?_⟩, fun h => (by cases h), ?_⟩
      · have h0 := h 0 (by simp)
        rw [Nat.add_zero, hw] at h0
        cases h0
      · rw [← hl, List.append_assoc]
        exact (List.prefix_append_right_inj acc).mpr
          ((List.take_prefix k _).trans (List.prefix_append _ _))
    | none =>
      have hval : writeTokens env (t :: ts) n acc =
          writeTokens env ts (n + 1) (acc ++ fprintln t) := by
        rw [writeTokens, hw]
      rw [hval]
      obtain ⟨h1, h2, h3⟩ := ih (n + 1) (acc ++ fprintln t)
      refine ⟨?_, ?_, ?_⟩
      · rw [h1]
        constructor
        · intro h i hi
          cases i with
          | zero => exact hw
          | succ i =>
            have := h i (by simpa using hi)
            rwa [show n + 1 + i = n + (i + 1) by omega] at this
        · intro h i hi
          have := h (i + 1) (by simpa using hi)
          rwa [show n + (i + 1) = n + 1 + i by omega] at this
      · intro h
        rw [h2 h, hl]
      · rw [← hl]
        exact h3

/-- The call `export` on an initialised zone returns, in every environment;
it returns nil exactly when every file-system call succeeds; the token listing
then holds the keys of `TokenStats` in the order ranged over, each followed by
a newline; and a listing it leaves in any case is named after the privileged
token and holds a prefix of that text. -/
theorem Zone.exportZone_spec (z : Zone) (hz : z.Initialised) (env : ExportEnv)
    (hrange : (env.range z.tokens).Perm z.tokens) :
    ∃ out err, z.exportZone env = .ok (out, err) ∧
      (err = none ↔ (env.createImage = none ∧ env.encode = none ∧ env.createTokens = none ∧
        ∀ i, i < z.tokens.length → env.write i = none)) ∧
      (err = none →
        out.tokens = some (z.PrivilegedToken ++ ".tok", tokenListing (env.range z.tokens))) ∧
      (∀ name content, out.tokens = some (name, content) →
        name = z.PrivilegedToken ++ ".tok" ∧
          content <+: tokenListing (env.range z.tokens)) := by
  obtain ⟨img, himg, _⟩ := z.GenImage_spec hz
  unfold Zone.exportZone
  cases h1 : env.createImage with
  | some e =>
    refine ⟨_, _, rfl, ?_, ?_, ?_⟩
    · simp
    · intro h; cases h
    · intro name content h; cases h
  | none =>
    simp only [himg]
    cases h2 : env.encode with
    | some e =>
      refine ⟨_, _, rfl, ?_, ?_, ?_⟩
      · simp
      · intro h; cases h
      · intro name content h; cases h
    | none =>
      cases h3 : env.createTokens with
      | some e =>
        refine ⟨_, _, rfl, ?_, ?_, ?_⟩
        · simp
        · intro h; cases h
        · intro name content h; cases h
      | none =>
        obtain ⟨w1, w2, w3⟩ := writeTokens_spec env (env.range z.tokens) 0 []
        simp only [Nat.zero_add, List.nil_append, hrange.length_eq] at w1 w2 w3
        refine ⟨_, _, rfl, ?_, ?_, ?_⟩
        · simp only [true_and]
          exact w1
        · intro h
          simp only [w2 h]
        · intro name content h
          simp only [Option.some.injEq, Prod.mk.injEq] at h
          obtain ⟨rfl, rfl⟩ := h
          exact ⟨rfl, w3⟩

theorem mem_everAdded (ops : List TokenOp) (t : Token) :
    t ∈ everAdded ops ↔ ∃ pre post sysTick, ops = pre ++ TokenOp.add sysTick t :: post := by
  induction ops with
  | nil =>
    simp only [everAdded, List.not_mem_nil, false_iff]
    rintro ⟨pre, post, s, h⟩
    cases pre <;> cases h
  | cons op ops ih =>
    cases op with
    | add s0 t0 =>
      simp only [everAdded, List.mem_cons, ih]
      constructor
      · rintro (rfl | ⟨pre, post, s, h⟩)
        · exact ⟨[], ops, s0, rfl⟩
        · exact ⟨TokenOp.add s0 t0 :: pre, post, s, by rw [h]; rfl⟩
      · rintro ⟨pre, post, s, h⟩
        cases pre with
        | nil =>
          simp only [List.nil_append, List.cons.injEq, TokenOp.add.injEq] at h
          exact Or.inl h.1.2.symm
        | cons q pre =>
          simp only [List.cons_append, List.cons.injEq] at h
          exact Or.inr ⟨pre, post, s, h.2⟩
    | delete t0 =>
      simp only [everAdded, ih]
      constructor
      · rintro ⟨pre, post, s, h⟩
        exact ⟨TokenOp.delete t0 :: pre, post, s, by rw [h]; rfl⟩
      · rintro ⟨pre, post, s, h⟩
        cases pre with
        | nil =>
          simp only [List.nil_append, List.cons.injEq] at h
          cases h.1
        | cons q pre =>
          simp only [List.cons_append, List.cons.injEq] at h
          exact ⟨pre, post, s, h.2⟩

/-- C12. Invariant: from an initialised zone, every sequence of later
operations that returns (token calls, consumer steps for requests accepted or
discarded, `LoadImage` succeeding or failing, `GenImage`, `Close`) leaves
`Size` and `Range` as they were, with `Range = (Size.X-1, Size.Y-1)` and a grid
of exactly `Size.X` columns of exactly `Size.Y` cells; and each operation
returns on an initialised zone when its input is admissible. -/
theorem zone_size_invariant (z : Zone) (ops : List ZoneOp) (hz : z.Initialised) :
    (∀ z', z.applyAll ops = .ok z' →
      z'.Size = z.Size ∧ z'.Range = z.Range ∧
      z'.Range = ⟨z'.Size.X - 1, z'.Size.Y - 1⟩ ∧
      (z'.Map.length : Int) = z'.Size.X ∧
      (∀ col ∈ z'.Map, (col.length : Int) = z'.Size.Y) ∧
      z'.Initialised) ∧
    (∀ op : ZoneOp, op.Admissible z → ∃ z1, z.apply op = .ok z1) := by
  refine ⟨?_, fun op ha => z.apply_ok op hz ha⟩
  intro z' h
  have hinv : z'.Initialised ∧ z'.Size = z.Size ∧ z'.Range = z.Range :=
    foldlM_preserves Zone.apply
      (fun s => s.Initialised ∧ s.Size = z.Size ∧ s.Range = z.Range)
      (fun s op s' hs hstep => by
        obtain ⟨h1, h2, h3⟩ := Zone.apply_initialised hs.1 hstep
        exact ⟨h1, h2.trans hs.2.1, h3.trans hs.2.2⟩)
      ops z z' ⟨hz, rfl, rfl⟩ h
  obtain ⟨hi, hsz, hrg⟩ := hinv
  obtain ⟨hX, hY, hR, hL, hC, _, _⟩ := hi
  refine ⟨hsz, hrg, hR, by omega, ?_, ⟨hX, hY, hR, hL, hC, by assumption, by assumption⟩⟩
  intro col hcol
  have := hC col hcol
  omega

/-- C12 on the (2,2) zone and the run of the scenario: the run returns, and
the zone it leaves still has `Size = (2,2)`, `Range = (1,1)` and two columns. -/
theorem zone_size_invariant_witness :
    zone22.Initialised ∧
    ∃ z', zone22.applyAll scenarioOps = .ok z' ∧ z'.Size = ⟨2, 2⟩ ∧ z'.Range = ⟨1, 1⟩ ∧
      (z'.Map.length : Int) = 2 ∧ z'.closed = true := by
  have hrun : zone22.applyAll scenarioOps = .ok
      { zone22 with
        closed := true, Map := [[red, Color.zero], [Color.zero, green]], TokenStats := some [],
        PrivilegedToken := "p", ReqChan := some ⟨[], 1000, true⟩ } := by rfl
  obtain ⟨h1, h2, _, h4, _⟩ := (zone_size_invariant zone22 scenarioOps (by decide)).1 _ hrun
  exact ⟨by decide, _, hrun, h1, h2, h4, rfl⟩

/-- C16, as stated, fails: on the fresh (2,2) zone the calls `AddToken(a)`,
`DeleteToken(a)` are followed by an export that returns nil and whose token
listing is empty and so has no line, though `a` was registered to the zone. -/
theorem export_omits_deleted_token_counterexample :
    zone22.Initialised ∧
    ∃ z' img, zone22.applyTokenOps [.add 1 "a", .delete "a"] = .ok z' ∧
      z'.exportZone ExportEnv.ok = .ok (⟨some (".png", some img), some (".tok", [])⟩, none) ∧
      linesOf [] = [] ∧
      "a" ∈ everAdded [.add 1 "a", .delete "a"] ∧
      ¬ (∀ t : Token, t.toList ∈ linesOf [] ↔ t ∈ everAdded [.add 1 "a", .delete "a"]) := by
  refine ⟨by decide, _, _, rfl, rfl, rfl, by decide, ?_⟩
  intro h
  exact absurd ((h "a").mpr (by decide)) (by simp [linesOf])

/-- C16, amended. After any sequence of `AddToken` and `DeleteToken` calls on
an initialised zone, `export` returns in every environment, whatever the
outcome of its file-system calls and the order in which `range` visits the
keys, and returns nil exactly when both `os.Create`, `png.Encode` and every
`Fprintln` succeed. A listing it leaves is `<privilegedToken>.tok` and holds a
prefix of the text made of the tokens then in `TokenStats`, in the order
ranged over, each followed by a newline; when `export` returns nil it holds
that whole text. The tokens then in `TokenStats` are the tokens held before the
sequence that no call deleted and the tokens some call added that no later
call deleted. When `export` returns nil and none of these tokens contains a
newline, the lines of the listing are exactly these tokens, one a line; every
line is a token once registered; and when the sequence deletes nothing the
lines are all tokens ever registered. -/
theorem export_lists_current_tokens (z : Zone) (ops : List TokenOp) (env : ExportEnv)
    (hz : z.Initialised) (hrange : ∀ keys, (env.range keys).Perm keys) :
    ∃ z' out err, z.applyTokenOps ops = .ok z' ∧ z'.exportZone env = .ok (out, err) ∧
      (err = none ↔ (env.createImage = none ∧ env.encode = none ∧ env.createTokens = none ∧
        ∀ i, i < z'.tokens.length → env.write i = none)) ∧
      (∀ name content, out.tokens = some (name, content) →
        name = z.PrivilegedToken ++ ".tok" ∧
          content <+: tokenListing (env.range z'.tokens)) ∧
      (∀ t, t ∈ z'.tokens ↔
        ((t ∈ z.tokens ∧ TokenOp.delete t ∉ ops) ∨
          ∃ pre post sysTick, ops = pre ++ TokenOp.add sysTick t :: post ∧
            TokenOp.delete t ∉ post)) ∧
      (err = none →
        ∃ content, out.tokens = some (z.PrivilegedToken ++ ".tok", content) ∧
          content = tokenListing (env.range z'.tokens) ∧
          ((∀ t ∈ z'.tokens, '\n' ∉ t.toList) →
            linesOf content = (env.range z'.tokens).map String.toList ∧
            (∀ t : Token, t.toList ∈ linesOf content ↔
              ((t ∈ z.tokens ∧ TokenOp.delete t ∉ ops) ∨
                ∃ pre post sysTick, ops = pre ++ TokenOp.add sysTick t :: post ∧
                  TokenOp.delete t ∉ post)) ∧
            (∀ l ∈ linesOf content,
              ∃ t : Token, l = t.toList ∧ (t ∈ z.tokens ∨ t ∈ everAdded ops)) ∧
            ((∀ t, TokenOp.delete t ∉ ops) →
              ∀ t : Token, t.toList ∈ linesOf content ↔
                (t ∈ z.tokens ∨ t ∈ everAdded ops)))) := by
  obtain ⟨z', h, hz', hp, hmem⟩ := Zone.applyTokenOps_tokens ops z hz
  obtain ⟨out, err, hexp, hnil, hfull, hpre⟩ := z'.exportZone_spec hz' env (hrange _)
  rw [hp] at hfull hpre
  refine ⟨z', out, err, h, hexp, hnil, hpre, hmem, ?_⟩
  intro herr
  refine ⟨_, hfull herr, rfl, ?_⟩
  intro hnl
  have hperm := hrange z'.tokens
  have hlines := linesOf_tokenListing (env.range z'.tokens)
    (fun t ht => hnl t (hperm.mem_iff.mp ht))
  have hreg : ∀ t, t ∈ z'.tokens → t ∈ z.tokens ∨ t ∈ everAdded ops := by
    intro t ht
    rcases (hmem t).mp ht with ⟨hin, _⟩ | ⟨pre, post, s, hsplit, _⟩
    · exact Or.inl hin
    · exact Or.inr ((mem_everAdded ops t).mpr ⟨pre, post, s, hsplit⟩)
  refine ⟨hlines, ?_, ?_, ?_⟩
  · intro t
    rw [hlines, mem_map_toList, hperm.mem_iff, hmem t]
  · intro l hl
    rw [hlines] at hl
    obtain ⟨t, ht, rfl⟩ := List.mem_map.mp hl
    exact ⟨t, rfl, hreg t (hperm.mem_iff.mp ht)⟩
  · intro hnodel t
    rw [hlines, mem_map_toList, hperm.mem_iff, hmem t, mem_everAdded]
    constructor
    · rintro (⟨hin, _⟩ | ⟨pre, post, s, hsplit, _⟩)
      · exact Or.inl hin
      · exact Or.inr ⟨pre, post, s, hsplit⟩
    · rintro (hin | ⟨pre, post, s, hsplit⟩)
      · exact Or.inl ⟨hin, hnodel t⟩
      · refine Or.inr ⟨pre, post, s, hsplit, fun hm => hnodel t ?_⟩
        rw [hsplit]
        exact List.mem_append_right _ (List.mem_cons_of_mem _ hm)

/-- C16, amended, on the (2,2) zone holding `a`: after `AddToken(b)`,
`DeleteToken(a)`, `AddToken(c)`, `DeleteToken(c)` an export whose calls succeed
returns nil and leaves the listing `b` and a newline, whose one line is `b`. -/
theorem export_lists_current_tokens_witness :
    tokenZone.Initialised ∧ (∀ keys, (ExportEnv.ok.range keys).Perm keys) ∧
    ∃ z' out,
      tokenZone.applyTokenOps [.add 1 "b", .delete "a", .add 2 "c", .delete "c"] = .ok z' ∧
      z'.exportZone ExportEnv.ok = .ok (out, none) ∧
      out.tokens = some (tokenZone.PrivilegedToken ++ ".tok", ['b', '\n']) ∧
      linesOf ['b', '\n'] = [['b']] := by
  obtain ⟨z', out, err, h1, h2, hnil, _, _, hfull⟩ := export_lists_current_tokens tokenZone
    [.add 1 "b", .delete "a", .add 2 "c", .delete "c"] ExportEnv.ok (by decide)
    (fun keys => List.Perm.refl keys)
  have herr : err = none := hnil.mpr ⟨rfl, rfl, rfl, fun _ _ => rfl⟩
  subst herr
  obtain ⟨content, hout, hcontent, _⟩ := hfull rfl
  refine ⟨by decide, fun keys => List.Perm.refl keys, z', out, h1, h2, ?_, by decide⟩
  have e1 : tokenZone.applyTokenOps [.add 1 "b", .delete "a", .add 2 "c", .delete "c"] =
      .ok { tokenZone with TokenStats := some [("b", ⟨1⟩)] } := by rfl
  rw [e1] at h1
  cases h1
  rw [hout, hcontent]
  rfl

/-- C17. On an initialised zone `GenImage` returns (no grid access is out of
range) an RGBA image with bounds (0,0)-(Size.X, Size.Y), rows of `4 * Size.X`
bytes and `4 * Size.X * Size.Y` bytes in all, whose pixel at every `(x, y)` of
the grid has exactly the four bytes of `Map[x][y]`; the zone is as before. -/
theorem GenImage_renders_grid (z : Zone) (hz : z.Initialised) :
    ∃ img, z.GenImage = .ok img ∧
      (Image.rgba img).isRGBAModel = true ∧
      img.Rect = ⟨⟨0, 0⟩, ⟨z.Size.X, z.Size.Y⟩⟩ ∧
      img.Stride = 4 * z.Size.X ∧ (img.Pix.length : Int) = 4 * z.Size.X * z.Size.Y ∧
      (∀ x y, 0 ≤ x → x < z.Size.X → 0 ≤ y → y < z.Size.Y →
        ∃ c, readCell z.Map x y = .ok c ∧ img.RGBAAt x y = .ok ⟨c.R, c.G, c.B, c.A⟩) ∧
      z.apply .genImage = .ok z := by
  obtain ⟨img, himg, hpk, hrect, hpix⟩ := z.GenImage_spec hz
  obtain ⟨_, _, hS, hL⟩ := hpk
  rw [hrect] at hS hL
  simp only [Rectangle.Dx, Rectangle.Dy, sub_zero] at hS hL
  refine ⟨img, himg, rfl, hrect, hS, hL, hpix, ?_⟩
  simp only [Zone.apply, himg]
  rfl

/-- C17 on the (2,2) zone holding red, a colour of alpha 0, zero and green. -/
theorem GenImage_renders_grid_witness :
    paintedZone.Initialised ∧
    paintedZone.GenImage = .ok
      ⟨[255, 0, 0, 255, 1, 2, 3, 0, 0, 0, 0, 0, 0, 255, 0, 255], 8, ⟨⟨0, 0⟩, ⟨2, 2⟩⟩⟩ ∧
    ∃ img, paintedZone.GenImage = .ok img ∧ img.RGBAAt 1 0 = .ok ⟨1, 2, 3, 0⟩ := by
  obtain ⟨img, h, _, _, _, _, hpix, _⟩ := GenImage_renders_grid paintedZone (by decide)
  refine ⟨by decide, by rfl, img, h, ?_⟩
  obtain ⟨c, hc, hat⟩ := hpix 1 0 (by decide) (by decide) (by decide) (by decide)
  have e : readCell paintedZone.Map 1 0 = .ok ⟨1, 2, 3, 0⟩ := by rfl
  rw [e] at hc
  cases hc
  exact hat

end Pixbuf
